import Mathlib

/-!
# hmstl: heightmap to STL

A shallow embedding of `hmstl.c` and the properties of its mesh generation.

Conventions of the embedding.

* `unsigned int` is a `Nat` below `2^32` and `unsigned long` a `Nat` below `2^64`;
  every `unsigned int` operation of the source is written with its wrap-around
  (`uadd`, `usub`, `umul`).  An `unsigned char` is a `Nat` below `2^8`.
* `float` is a type parameter `α` in the functions, which ask only for the
  operations the source uses (`+`, `*` and the conversion of an unsigned
  integer).  Statements about the structure of the output hold for every such
  `α`.  Statements about the values written, their order and the geometry of
  the triangles are made for `F32`, a model of IEEE 754 binary32: finite values,
  the two infinities and NaN, with every operation and every conversion rounded
  to the nearest value, ties to even (each operation of the source is taken to
  be evaluated in `float`).  The normal of a triangle is taken in exact
  arithmetic on the `float` values passed to `fprintf`; the decimal text that
  `%f` makes of a value is kept abstract.
* The output stream is the list of lines written to it.  The functions `Mesh`,
  `Walls` and `Bottom` return the sequence of their calls of `Triangle` (the
  arguments of each call, in order); `Triangle` turns one call into its seven
  lines, and `HeightmapToSTL` concatenates them.
* The buffer `hm->data` is `none` for `NULL` and otherwise the function giving
  the cell at each offset.  C gives no meaning to a read through `NULL`; the
  functions `Mesh` and `Walls` of the model read `0` there, their statements are
  meant for a heightmap whose buffer is present, and `main` records the run in
  which they would read through `NULL` as killed by a signal.
* `parseopts` runs on the list of the results of `getopt` (for `-z` and `-b`
  with the outcome of `sscanf`; its two comparisons are made in a linearly
  ordered commutative ring), and `main` on a `World`: those results, the
  image that can be read and the paths that can be opened.  A `Run` records the
  value `main` returns, the calls it makes with the value each returns, the
  lines written, and the signal that killed the run if one did.
-/

namespace Hmstl

/-! ## Machine integers -/

/-- The number of values of an `unsigned int`. -/
abbrev U32 : Nat := 4294967296

/-- The number of values of an `unsigned long`. -/
abbrev U64 : Nat := 18446744073709551616

/-- Addition of two `unsigned int`. -/
def uadd (a b : Nat) : Nat := (a + b) % U32

/-- Subtraction of two `unsigned int`. -/
def usub (a b : Nat) : Nat := (a + U32 - b % U32) % U32

/-- Multiplication of two `unsigned int`. -/
def umul (a b : Nat) : Nat := (a * b) % U32

/-! ## Data model -/

/-- The struct `Heightmap`. -/
structure Heightmap where
  width : Nat
  height : Nat
  size : Nat
  data : Option (Nat → Nat)
  min : Nat
  max : Nat
  range : Nat

/-- The value of `hm->data[i]`, an `unsigned char`.  C gives no meaning to a
read through `NULL` (on the usual platforms the process is killed by `SIGSEGV`);
the value `0` given here for a `NULL` buffer only makes the function total, and
`main` accounts for the kill. -/
def Heightmap.sample (hm : Heightmap) (i : Nat) : Nat :=
  match hm.data with
  | some buf => buf i % 256
  | none => 0

/-- One vertex as it is passed to `Triangle`: two `unsigned int` and a `float`. -/
structure Vertex (α : Type) where
  x : Nat
  y : Nat
  z : α

/-- The arguments of one call of `Triangle`. -/
structure Facet (α : Type) where
  v1 : Vertex α
  v2 : Vertex α
  v3 : Vertex α

/-- One line of the output: a fixed text, or `vertex %f %f %f` with its three
values. -/
inductive Line (α : Type) where
  | text (s : String) : Line α
  | vertex (x y z : α) : Line α

section Model

variable {α : Type} [Add α] [Mul α] [NatCast α]

/-! ## PreprocessHeightmap -/

/-- The body of the scanning loop of `PreprocessHeightmap`, on the pair
`(min, max)` of its two local variables. -/
def scanStep (hm : Heightmap) (mm : Nat × Nat) (i : Nat) : Nat × Nat :=
  (if hm.sample i < mm.1 then hm.sample i else mm.1,
   if hm.sample i > mm.2 then hm.sample i else mm.2)

/-- The scanning loop of `PreprocessHeightmap`: `i` runs from `0` to
`hm->size - 1`, starting from `min = 254` and `max = 0`. -/
def scan (hm : Heightmap) : Nat × Nat :=
  (List.range hm.size).foldl (scanStep hm) (254, 0)

/-- The function `PreprocessHeightmap`: the returned `int` and the heightmap
after the call.  `max - min` is computed on `int` and stored in an `unsigned
char`. -/
def PreprocessHeightmap (hm : Heightmap) : Nat × Heightmap :=
  match hm.data with
  | none => (0, hm)
  | some _ =>
    let mm := scan hm
    (1, { hm with
            min := mm.1
            max := mm.2
            range := (((mm.2 : Int) - (mm.1 : Int)) % 256).toNat })

/-! ## Triangle -/

/-- The function `Triangle`: the seven lines written for one call. -/
def Triangle (hm : Heightmap) (f : Facet α) : List (Line α) :=
  [ Line.text "facet normal 0 0 0",
    Line.text "outer loop",
    Line.vertex (f.v1.x : α) ((usub hm.height f.v1.y : Nat) : α) f.v1.z,
    Line.vertex (f.v2.x : α) ((usub hm.height f.v2.y : Nat) : α) f.v2.z,
    Line.vertex (f.v3.x : α) ((usub hm.height f.v3.y : Nat) : α) f.v3.z,
    Line.text "endloop",
    Line.text "endfacet" ]

/-- The expression `ZOFFSET + ZSCALE * hm->data[i]`. -/
def surfaceZ (ZOFFSET ZSCALE : α) (hm : Heightmap) (i : Nat) : α :=
  ZOFFSET + ZSCALE * ((hm.sample i : Nat) : α)

/-- The literal `0` passed for a `float` parameter. -/
def zeroZ : α := ((0 : Nat) : α)

/-! ## Mesh -/

/-- The body of the inner loop of `Mesh` at `row`, `col`: the two calls of
`Triangle`. -/
def MeshCell (ZOFFSET ZSCALE : α) (hm : Heightmap) (row col : Nat) : List (Facet α) :=
  let Ax := col
  let Ay := row
  let Bx := col
  let By := uadd row 1
  let Cx := uadd col 1
  let Cy := uadd row 1
  let Dx := uadd col 1
  let Dy := row
  let A := uadd (umul Ay hm.width) Ax
  let B := uadd (umul By hm.width) Bx
  let C := uadd (umul Cy hm.width) Cx
  let D := uadd (umul Dy hm.width) Dx
  [ ⟨⟨Ax, Ay, surfaceZ ZOFFSET ZSCALE hm A⟩,
     ⟨Bx, By, surfaceZ ZOFFSET ZSCALE hm B⟩,
     ⟨Dx, Dy, surfaceZ ZOFFSET ZSCALE hm D⟩⟩,
    ⟨⟨Bx, By, surfaceZ ZOFFSET ZSCALE hm B⟩,
     ⟨Cx, Cy, surfaceZ ZOFFSET ZSCALE hm C⟩,
     ⟨Dx, Dy, surfaceZ ZOFFSET ZSCALE hm D⟩⟩ ]

/-- The function `Mesh`: `row` runs below `hm->height - 1`, and inside it `col`
below `hm->width - 1`. -/
def Mesh (ZOFFSET ZSCALE : α) (hm : Heightmap) : List (Facet α) :=
  (List.range (usub hm.height 1)).flatMap fun row =>
    (List.range (usub hm.width 1)).flatMap fun col =>
      MeshCell ZOFFSET ZSCALE hm row col

/-! ## Walls -/

/-- The two calls of `Triangle` under `// north wall`, at `col`. -/
def northWall (ZOFFSET ZSCALE : α) (hm : Heightmap) (col : Nat) : List (Facet α) :=
  let a := col
  let b := uadd col 1
  [ ⟨⟨a % U32, 0, surfaceZ ZOFFSET ZSCALE hm a⟩,
     ⟨b % U32, 0, surfaceZ ZOFFSET ZSCALE hm b⟩,
     ⟨a % U32, 0, zeroZ⟩⟩,
    ⟨⟨b % U32, 0, surfaceZ ZOFFSET ZSCALE hm b⟩,
     ⟨b % U32, 0, zeroZ⟩,
     ⟨a % U32, 0, zeroZ⟩⟩ ]

/-- The two calls of `Triangle` under `// south wall`, at `col`, after
`a += bottom * hm->width` and `b += bottom * hm->width`. -/
def southWall (ZOFFSET ZSCALE : α) (hm : Heightmap) (col : Nat) : List (Facet α) :=
  let bottom := usub hm.height 1
  let a := (col + umul bottom hm.width) % U64
  let b := (uadd col 1 + umul bottom hm.width) % U64
  [ ⟨⟨col, bottom, surfaceZ ZOFFSET ZSCALE hm a⟩,
     ⟨col, bottom, zeroZ⟩,
     ⟨uadd col 1, bottom, surfaceZ ZOFFSET ZSCALE hm b⟩⟩,
    ⟨⟨col, bottom, zeroZ⟩,
     ⟨uadd col 1, bottom, zeroZ⟩,
     ⟨uadd col 1, bottom, surfaceZ ZOFFSET ZSCALE hm b⟩⟩ ]

/-- The two calls of `Triangle` under `// west wall`, at `row`. -/
def westWall (ZOFFSET ZSCALE : α) (hm : Heightmap) (row : Nat) : List (Facet α) :=
  let a := umul row hm.width
  let b := umul (uadd row 1) hm.width
  [ ⟨⟨0, row, surfaceZ ZOFFSET ZSCALE hm a⟩,
     ⟨0, row, zeroZ⟩,
     ⟨0, uadd row 1, surfaceZ ZOFFSET ZSCALE hm b⟩⟩,
    ⟨⟨0, row, zeroZ⟩,
     ⟨0, uadd row 1, zeroZ⟩,
     ⟨0, uadd row 1, surfaceZ ZOFFSET ZSCALE hm b⟩⟩ ]

/-- The two calls of `Triangle` under `// east wall`, at `row`, after
`a += right` and `b += right`. -/
def eastWall (ZOFFSET ZSCALE : α) (hm : Heightmap) (row : Nat) : List (Facet α) :=
  let right := usub hm.width 1
  let a := (umul row hm.width + right) % U64
  let b := (umul (uadd row 1) hm.width + right) % U64
  [ ⟨⟨right, row, surfaceZ ZOFFSET ZSCALE hm a⟩,
     ⟨right, uadd row 1, zeroZ⟩,
     ⟨right, row, zeroZ⟩⟩,
    ⟨⟨right, row, surfaceZ ZOFFSET ZSCALE hm a⟩,
     ⟨right, uadd row 1, surfaceZ ZOFFSET ZSCALE hm b⟩,
     ⟨right, uadd row 1, zeroZ⟩⟩ ]

/-- The function `Walls`: the loop over `col` (north then south wall), then the
loop over `row` (west then east wall). -/
def Walls (ZOFFSET ZSCALE : α) (hm : Heightmap) : List (Facet α) :=
  ((List.range (usub hm.width 1)).flatMap fun col =>
      northWall ZOFFSET ZSCALE hm col ++ southWall ZOFFSET ZSCALE hm col)
  ++
  ((List.range (usub hm.height 1)).flatMap fun row =>
      westWall ZOFFSET ZSCALE hm row ++ eastWall ZOFFSET ZSCALE hm row)

/-! ## Bottom -/

/-- The function `Bottom`. -/
def Bottom (hm : Heightmap) : List (Facet α) :=
  [ ⟨⟨0, 0, zeroZ⟩,
     ⟨usub hm.width 1, 0, zeroZ⟩,
     ⟨0, usub hm.height 1, zeroZ⟩⟩,
    ⟨⟨usub hm.width 1, 0, zeroZ⟩,
     ⟨usub hm.width 1, usub hm.height 1, zeroZ⟩,
     ⟨0, usub hm.height 1, zeroZ⟩⟩ ]

/-! ## HeightmapToSTL -/

/-- The lines written to `fp` by a sequence of calls of `Triangle`. -/
def emit (hm : Heightmap) (fs : List (Facet α)) : List (Line α) :=
  fs.flatMap (Triangle hm)

/-- The function `HeightmapToSTL`: the returned `int` and the lines written to
the output.  `OUTPUT` is the global of that name (`none` for `NULL`, which
selects `stdout`) and `fopen` tells whether a path can be opened for writing. -/
def HeightmapToSTL (OUTPUT : Option String) (fopen : String → Bool)
    (ZOFFSET ZSCALE : α) (hm : Heightmap) : Nat × List (Line α) :=
  if (match OUTPUT with | none => true | some path => fopen path) then
    (0, [Line.text "solid mymesh"]
          ++ emit hm (Mesh ZOFFSET ZSCALE hm)
          ++ emit hm (Walls ZOFFSET ZSCALE hm)
          ++ emit hm (Bottom hm)
          ++ [Line.text "endsolid mymesh"])
  else
    (1, [])

/-! ## The mesh as the specification words it -/

/-- The corner `(x, y)` as the specification words it: the sample is looked up
at `index = y*width + x` and its Z is `offset + scale * sample[index]`. -/
def cornerSpec (ZOFFSET ZSCALE : α) (hm : Heightmap) (x y : Nat) : Vertex α :=
  ⟨x, y, ZOFFSET + ZSCALE * ((hm.sample (y * hm.width + x) : Nat) : α)⟩

/-- The triangle list of the surface as the specification words it: for `row`
from `0` to `height-2` and inside it `col` from `0` to `width-2`, the triangle
`ABD` then the triangle `BCD`, with `A=(col,row)`, `B=(col,row+1)`,
`C=(col+1,row+1)`, `D=(col+1,row)`. -/
def MeshSpec (ZOFFSET ZSCALE : α) (hm : Heightmap) : List (Facet α) :=
  (List.range (hm.height - 1)).flatMap fun row =>
    (List.range (hm.width - 1)).flatMap fun col =>
      [ ⟨cornerSpec ZOFFSET ZSCALE hm col row,
         cornerSpec ZOFFSET ZSCALE hm col (row + 1),
         cornerSpec ZOFFSET ZSCALE hm (col + 1) row⟩,
        ⟨cornerSpec ZOFFSET ZSCALE hm col (row + 1),
         cornerSpec ZOFFSET ZSCALE hm (col + 1) (row + 1),
         cornerSpec ZOFFSET ZSCALE hm (col + 1) row⟩ ]

/-- The three vertices of a triangle. -/
def Facet.vertices (f : Facet α) : List (Vertex α) :=
  [f.v1, f.v2, f.v3]

/-- The three directed edges of a triangle, in its cyclic vertex order. -/
def Facet.edges (f : Facet α) : List (Vertex α × Vertex α) :=
  [(f.v1, f.v2), (f.v2, f.v3), (f.v3, f.v1)]

/-- The point of the base plane under the sample `(x, y)`: Z is `0`. -/
def baseVertex (x y : Nat) : Vertex α :=
  ⟨x, y, zeroZ⟩

/-- The triangles `fs` are two triangles that form the vertical quad over the
segment from `p` to `q`: together they use exactly the four vertices `p`, `q` at
surface Z (as the specification words it) and `p`, `q` at Z = 0, and they share
one diagonal of the quad, which the first runs one way and the second the other
way. -/
def isWallQuad (ZOFFSET ZSCALE : α) (hm : Heightmap) (px py qx qy : Nat)
    (fs : List (Facet α)) : Prop :=
  ∃ t1 t2 : Facet α, fs = [t1, t2] ∧
    (∀ v, v ∈ t1.vertices ++ t2.vertices ↔
      v ∈ [cornerSpec ZOFFSET ZSCALE hm px py, cornerSpec ZOFFSET ZSCALE hm qx qy,
            baseVertex px py, baseVertex qx qy]) ∧
    ∃ u v : Vertex α,
      ((u = cornerSpec ZOFFSET ZSCALE hm px py ∧ v = baseVertex qx qy) ∨
       (u = baseVertex qx qy ∧ v = cornerSpec ZOFFSET ZSCALE hm px py) ∨
       (u = cornerSpec ZOFFSET ZSCALE hm qx qy ∧ v = baseVertex px py) ∨
       (u = baseVertex px py ∧ v = cornerSpec ZOFFSET ZSCALE hm qx qy)) ∧
      (u, v) ∈ t1.edges ∧ (v, u) ∈ t2.edges

/-- Whether a line opens a facet record. -/
def Line.opensFacet : Line α → Bool
  | Line.text s => s == "facet normal 0 0 0"
  | Line.vertex _ _ _ => false

/-- The number of facet records among the lines written. -/
def facetCount (ls : List (Line α)) : Nat :=
  ls.countP Line.opensFacet

end Model

/-! ## Geometry of the written triangles -/

section Geometry

variable {α : Type} [Sub α] [Mul α] [NatCast α]

/-- The three coordinates that `Triangle` writes for a vertex:
`(float)x, (float)(hm->height - y), z`. -/
def emitted (hm : Heightmap) (v : Vertex α) : α × α × α :=
  ((v.x : α), ((usub hm.height v.y : Nat) : α), v.z)

/-- The cross product of two vectors. -/
def cross (u w : α × α × α) : α × α × α :=
  (u.2.1 * w.2.2 - u.2.2 * w.2.1,
   u.2.2 * w.1 - u.1 * w.2.2,
   u.1 * w.2.1 - u.2.1 * w.1)

/-- The difference of two points. -/
def vsub (p q : α × α × α) : α × α × α :=
  (p.1 - q.1, p.2.1 - q.2.1, p.2.2 - q.2.2)

/-- All three vertices of the triangle lie on raster row `r`. -/
def onRow (r : Nat) (f : Facet α) : Prop :=
  f.v1.y = r ∧ f.v2.y = r ∧ f.v3.y = r

/-- All three vertices of the triangle lie on raster column `c`. -/
def onCol (c : Nat) (f : Facet α) : Prop :=
  f.v1.x = c ∧ f.v2.x = c ∧ f.v3.x = c

end Geometry

/-! ## Concrete grids -/

/-- A grid of 2 columns and `2^31 + 1` rows whose buffer holds `0` in its first
`2^32` cells and `255` in the two cells of the last row. -/
def tallGrid : Heightmap :=
  { width := 2, height := 2147483649, size := 4294967298,
    data := some (fun i => if i < 4294967296 then 0 else 255),
    min := 0, max := 0, range := 0 }

/-- The 2 x 2 grid with samples `0, 255, 255, 0`. -/
def grid22 : Heightmap :=
  { width := 2, height := 2, size := 4,
    data := some (fun i => if i = 1 ∨ i = 2 then 255 else 0),
    min := 0, max := 0, range := 0 }

/-- The 1 x 1 grid whose only sample is `255`. -/
def grid255 : Heightmap :=
  { width := 1, height := 1, size := 1,
    data := some (fun _ => 255),
    min := 0, max := 0, range := 0 }

/-- A heightmap of size 0 whose buffer is present (as after loading an image of
width 0) and whose statistics are still `0`. -/
def gridEmpty : Heightmap :=
  { width := 0, height := 0, size := 0,
    data := some (fun _ => 0),
    min := 0, max := 0, range := 0 }

/-- The heightmap that `main` starts from: `{0, 0, 0, NULL, 0, 0, 0}`. -/
def gridUnloaded : Heightmap :=
  { width := 0, height := 0, size := 0,
    data := none,
    min := 0, max := 0, range := 0 }

/-- The three Z values of a call of `Triangle`, in the order of its vertices. -/
def Facet.zs {α : Type} (f : Facet α) : α × α × α :=
  (f.v1.z, f.v2.z, f.v3.z)

/-! ## parseopts, LoadHeightmapFromPGM and main -/

/-- One result of `getopt(argc, argv, "z:b:o:i:v")` other than `-1`, with what
the matching `case` of `parseopts` reads from `optarg`.  For `z` and `b` that is
the outcome of `sscanf(optarg, "%f", ...)`: the value stored, or `none` when
`sscanf` does not return 1. -/
inductive Getopt (α : Type) where
  | z (scanned : Option α) : Getopt α
  | b (scanned : Option α) : Getopt α
  | o (optarg : String) : Getopt α
  | i (optarg : String) : Getopt α
  | v : Getopt α
  | unrecognized : Getopt α
  | unexpected : Getopt α

/-- The global variables `LOG`, `INPUT`, `OUTPUT`, `ZSCALE`, `ZOFFSET`. -/
structure Globals (α : Type) where
  LOG : Nat
  INPUT : Option String
  OUTPUT : Option String
  ZSCALE : α
  ZOFFSET : α

/-- An image as `LoadHeightmapFromPGM` reads it from an open stream: the two
numbers of the header that it keeps and the bytes that follow. -/
structure Pgm where
  width : Nat
  height : Nat
  pixels : Nat → Nat

/-- A call made by `main` after `parseopts`, with the value the call returns. -/
inductive Step where
  | LoadHeightmapFromPGM (ret : Nat) : Step
  | PreprocessHeightmap (ret : Nat) : Step
  | ReportHeightmap : Step
  | HeightmapToSTL (ret : Nat) : Step
  | UnloadHeightmap : Step
  deriving DecidableEq

/-- What one run of the program is given: the results of `getopt` in order,
whether arguments are left over (`optind < argc`), the image on the standard
input, the images that `fopen(INPUT, "r")` can open and the paths that
`fopen(OUTPUT, "w")` can open. -/
structure World (α : Type) where
  opts : List (Getopt α)
  extraneous : Bool
  stdin : Pgm
  openInput : String → Option Pgm
  openOutput : String → Bool

/-- What one run of the program does: the value `main` returns, the calls made
after `parseopts` that return, and the lines written to the output.  `signal` is
`none` for a run that returns from `main`.  For a run that is killed it is the
number of the signal; then `status` is the exit status that a shell reports
(128 plus that number), `calls` holds the calls completed before, and what was
still in the buffer of the output stream is not counted as written. -/
structure Run (α : Type) where
  status : Nat
  calls : List Step
  written : List (Line α)
  signal : Option Nat

/-- The function `LoadHeightmapFromPGM`: the returned `int` and the heightmap
after the call.  The header is taken as well-formed and the allocation as
successful; `size = width * height` is computed on `unsigned int`. -/
def LoadHeightmapFromPGM (INPUT : Option String) (stdin : Pgm)
    (openInput : String → Option Pgm) (hm : Heightmap) : Nat × Heightmap :=
  match (match INPUT with | none => some stdin | some path => openInput path) with
  | none => (1, hm)
  | some fp =>
    (0, { hm with
            width := fp.width % U32
            height := fp.height % U32
            size := umul (fp.width % U32) (fp.height % U32)
            data := some fp.pixels })

section Program

variable {α : Type} [LinearOrderedCommRing α]

/-- The initial values of the global variables. -/
def Globals.initial : Globals α :=
  { LOG := 0, INPUT := none, OUTPUT := none, ZSCALE := 1, ZOFFSET := 1 }

/-- The function `parseopts`: the returned `int` and the global variables after
the call.  The list holds the results of the successive calls of `getopt` until
it returns `-1`. -/
def parseopts : List (Getopt α) → Bool → Globals α → Nat × Globals α
  | [], extraneous, g => if extraneous then (1, g) else (0, g)
  | Getopt.z none :: _, _, g => (1, g)
  | Getopt.z (some x) :: rest, extraneous, g =>
    if x ≤ 0 then (1, { g with ZSCALE := x })
    else parseopts rest extraneous { g with ZSCALE := x }
  | Getopt.b none :: _, _, g => (1, g)
  | Getopt.b (some x) :: rest, extraneous, g =>
    if x < 1 then (1, { g with ZOFFSET := x })
    else parseopts rest extraneous { g with ZOFFSET := x }
  | Getopt.o optarg :: rest, extraneous, g =>
    parseopts rest extraneous { g with OUTPUT := some optarg }
  | Getopt.i optarg :: rest, extraneous, g =>
    parseopts rest extraneous { g with INPUT := some optarg }
  | Getopt.v :: rest, extraneous, g =>
    parseopts rest extraneous { g with LOG := 1 }
  | Getopt.unrecognized :: _, _, g => (1, g)
  | Getopt.unexpected :: _, _, g => (1, g)

/-- The function `main`.  When the output opens and `hm.data` is still `NULL`
(the image could not be opened), the first iteration of a loop of `Mesh` or
`Walls` reads through `NULL`: the loops run when `hm->width - 1` or
`hm->height - 1` is not 0, which holds for the width and height 0 that `main`
starts from.  C gives no meaning to that read; on the usual platforms the process
is killed by `SIGSEGV` (signal 11) inside `HeightmapToSTL`, which never
returns. -/
def main (w : World α) : Run α :=
  let hm : Heightmap :=
    { width := 0, height := 0, size := 0, data := none, min := 0, max := 0, range := 0 }
  let opts := parseopts w.opts w.extraneous Globals.initial
  if opts.1 ≠ 0 then
    { status := 1, calls := [], written := [], signal := none }
  else
    let g := opts.2
    let loaded := LoadHeightmapFromPGM g.INPUT w.stdin w.openInput hm
    let scanned := PreprocessHeightmap loaded.2
    let report := if g.LOG ≠ 0 then [Step.ReportHeightmap] else []
    let opens := match g.OUTPUT with
      | none => true
      | some path => w.openOutput path
    if opens && scanned.2.data.isNone
        && (usub scanned.2.width 1 != 0 || usub scanned.2.height 1 != 0) then
      { status := 139,
        calls := [Step.LoadHeightmapFromPGM loaded.1, Step.PreprocessHeightmap scanned.1]
          ++ report,
        written := [],
        signal := some 11 }
    else
      let stl := HeightmapToSTL g.OUTPUT w.openOutput g.ZOFFSET g.ZSCALE scanned.2
      { status := 0,
        calls := [Step.LoadHeightmapFromPGM loaded.1, Step.PreprocessHeightmap scanned.1]
          ++ report ++ [Step.HeightmapToSTL stl.1, Step.UnloadHeightmap],
        written := stl.2,
        signal := none }

end Program

/-- A run with a readable 2 x 2 image on the standard input and the option
`-o` naming a path that cannot be opened for writing. -/
def worldBadOutput : World Int :=
  { opts := [Getopt.o "missing/out.stl"],
    extraneous := false,
    stdin := { width := 2, height := 2, pixels := fun i => if i = 1 ∨ i = 2 then 255 else 0 },
    openInput := fun _ => none,
    openOutput := fun _ => false }

/-- A run with the option `-i` naming an image that cannot be opened, and the
standard output for the mesh. -/
def worldBadInput : World Int :=
  { opts := [Getopt.i "missing.pgm"],
    extraneous := false,
    stdin := { width := 2, height := 2, pixels := fun i => if i = 1 ∨ i = 2 then 255 else 0 },
    openInput := fun _ => none,
    openOutput := fun _ => true }

/-- A run with the option `-z -1`. -/
def worldBadScale : World Int :=
  { opts := [Getopt.z (some (-1))],
    extraneous := false,
    stdin := { width := 2, height := 2, pixels := fun i => if i = 1 ∨ i = 2 then 255 else 0 },
    openInput := fun _ => none,
    openOutput := fun _ => true }

/-! ## The reads of the data buffer -/

/-- The Z argument of a call of `Triangle` from its source: `some i` stands for
`ZOFFSET + ZSCALE * hm->data[i]` and `none` for the literal `0`. -/
def readZ {α : Type} [Add α] [Mul α] [NatCast α] (ZOFFSET ZSCALE : α) (hm : Heightmap) :
    Option Nat → α
  | some i => surfaceZ ZOFFSET ZSCALE hm i
  | none => zeroZ

/-- The same call of `Triangle` with each Z argument replaced. -/
def Facet.mapZ {β γ : Type} (g : β → γ) (f : Facet β) : Facet γ :=
  ⟨⟨f.v1.x, f.v1.y, g f.v1.z⟩, ⟨f.v2.x, f.v2.y, g f.v2.z⟩, ⟨f.v3.x, f.v3.y, g f.v3.z⟩⟩

/-- The body of the inner loop of `Mesh` at `row`, `col`, keeping for each
vertex the index at which its Z reads `hm->data`. -/
def MeshCellReads (hm : Heightmap) (row col : Nat) : List (Facet (Option Nat)) :=
  let Ax := col
  let Ay := row
  let Bx := col
  let By := uadd row 1
  let Cx := uadd col 1
  let Cy := uadd row 1
  let Dx := uadd col 1
  let Dy := row
  let A := uadd (umul Ay hm.width) Ax
  let B := uadd (umul By hm.width) Bx
  let C := uadd (umul Cy hm.width) Cx
  let D := uadd (umul Dy hm.width) Dx
  [ ⟨⟨Ax, Ay, some A⟩, ⟨Bx, By, some B⟩, ⟨Dx, Dy, some D⟩⟩,
    ⟨⟨Bx, By, some B⟩, ⟨Cx, Cy, some C⟩, ⟨Dx, Dy, some D⟩⟩ ]

/-- The function `Mesh`, keeping for each vertex the index that is read. -/
def MeshReads (hm : Heightmap) : List (Facet (Option Nat)) :=
  (List.range (usub hm.height 1)).flatMap fun row =>
    (List.range (usub hm.width 1)).flatMap fun col =>
      MeshCellReads hm row col

/-- The two calls under `// north wall`, keeping the indices read. -/
def northWallReads (col : Nat) : List (Facet (Option Nat)) :=
  let a := col
  let b := uadd col 1
  [ ⟨⟨a % U32, 0, some a⟩, ⟨b % U32, 0, some b⟩, ⟨a % U32, 0, none⟩⟩,
    ⟨⟨b % U32, 0, some b⟩, ⟨b % U32, 0, none⟩, ⟨a % U32, 0, none⟩⟩ ]

/-- The two calls under `// south wall`, keeping the indices read. -/
def southWallReads (hm : Heightmap) (col : Nat) : List (Facet (Option Nat)) :=
  let bottom := usub hm.height 1
  let a := (col + umul bottom hm.width) % U64
  let b := (uadd col 1 + umul bottom hm.width) % U64
  [ ⟨⟨col, bottom, some a⟩, ⟨col, bottom, none⟩, ⟨uadd col 1, bottom, some b⟩⟩,
    ⟨⟨col, bottom, none⟩, ⟨uadd col 1, bottom, none⟩, ⟨uadd col 1, bottom, some b⟩⟩ ]

/-- The two calls under `// west wall`, keeping the indices read. -/
def westWallReads (hm : Heightmap) (row : Nat) : List (Facet (Option Nat)) :=
  let a := umul row hm.width
  let b := umul (uadd row 1) hm.width
  [ ⟨⟨0, row, some a⟩, ⟨0, row, none⟩, ⟨0, uadd row 1, some b⟩⟩,
    ⟨⟨0, row, none⟩, ⟨0, uadd row 1, none⟩, ⟨0, uadd row 1, some b⟩⟩ ]

/-- The two calls under `// east wall`, keeping the indices read. -/
def eastWallReads (hm : Heightmap) (row : Nat) : List (Facet (Option Nat)) :=
  let right := usub hm.width 1
  let a := (umul row hm.width + right) % U64
  let b := (umul (uadd row 1) hm.width + right) % U64
  [ ⟨⟨right, row, some a⟩, ⟨right, uadd row 1, none⟩, ⟨right, row, none⟩⟩,
    ⟨⟨right, row, some a⟩, ⟨right, uadd row 1, some b⟩, ⟨right, uadd row 1, none⟩⟩ ]

/-- The function `Walls`, keeping for each vertex the index that is read. -/
def WallsReads (hm : Heightmap) : List (Facet (Option Nat)) :=
  ((List.range (usub hm.width 1)).flatMap fun col =>
      northWallReads col ++ southWallReads hm col)
  ++
  ((List.range (usub hm.height 1)).flatMap fun row =>
      westWallReads hm row ++ eastWallReads hm row)

/-! ## Edges that occur once -/

/-- Exactly one element of the list satisfies `p`: the list splits around one
element that does, and no other element does. -/
def occursOnce {γ : Type} (p : γ → Prop) (fs : List γ) : Prop :=
  ∃ l1 x l2, fs = l1 ++ x :: l2 ∧ p x ∧ ∀ y ∈ l1 ++ l2, ¬ p y

/-- The surface and the walls join along the directed edge from `u` to `v`: it
is an edge of exactly one triangle of `mesh`, and the reverse edge is an edge of
exactly one triangle of `walls`. -/
def joinsAlong {α : Type} (mesh walls : List (Facet α)) (u v : Vertex α) : Prop :=
  occursOnce (fun f => (u, v) ∈ f.edges) mesh ∧
    occursOnce (fun f => (v, u) ∈ f.edges) walls

/-- A grid of 3 columns and 1431655766 rows, so of `2^32 + 2` samples, whose
buffer holds `0` in its first `2^32` cells and `255` in the last two.  Its last
row starts at index `2^32 - 1`. -/
def wideGrid : Heightmap :=
  { width := 3, height := 1431655766, size := 4294967298,
    data := some (fun i => if i < 4294967296 then 0 else 255),
    min := 0, max := 0, range := 0 }

/-! ## The type `float` -/

/-- A value of the type `float`, taken as IEEE 754 binary32: a finite value (the
rational number it stands for), an infinity with its sign, or a NaN.  The finite
values of binary32 are the rationals that `F32.round` leaves unchanged
(`F32.representable`); every operation below returns one of them, an infinity
or a NaN.  The sign of a zero is not kept (`-0.0` and `0.0` are both `fin 0`;
they compare equal in C), nor the payload of a NaN. -/
inductive F32 where
  | fin (q : ℚ) : F32
  | inf (negative : Bool) : F32
  | nan : F32
  deriving DecidableEq

/-- The integer nearest to `y >= 0`; when `y` lies half way between two
integers, the even one. -/
def roundHalfEven (y : ℚ) : Nat :=
  if y - ⌊y⌋₊ < 1 / 2 then ⌊y⌋₊
  else if 1 / 2 < y - ⌊y⌋₊ then ⌊y⌋₊ + 1
  else if ⌊y⌋₊ % 2 = 0 then ⌊y⌋₊ else ⌊y⌋₊ + 1

/-- Rounding to binary32 of a magnitude `n >= 0` that is counted in units of
`2^-149`, the smallest positive `float`: the result keeps 24 significant bits,
so below `2^24` units (the subnormal numbers and the first binade) it is a whole
number of units, and from there on a multiple of `2^k` units, where `k + 24` is
the number of bits of the integer part of `n`.  Ties go to the even
significand. -/
def roundUnits (n : ℚ) : Nat :=
  let k := Nat.log 2 ⌊n⌋₊ - 23
  roundHalfEven (n / 2 ^ k) * 2 ^ k

/-- Rounding of a magnitude `q >= 0` to the nearest binary32 value, ties to
even: `none` when the rounded value reaches `2^128`, which is the overflow of
binary32 (its largest finite value is `2^128 - 2^104`). -/
def F32.roundMag (q : ℚ) : Option ℚ :=
  let r : ℚ := (roundUnits (q * 2 ^ 149) : ℚ) / 2 ^ 149
  if 2 ^ 128 ≤ r then none else some r

/-- Rounding of a rational number to binary32 in the default rounding mode (to
nearest, ties to even); an overflow gives the infinity of the same sign. -/
def F32.round (q : ℚ) : F32 :=
  if q < 0 then
    match F32.roundMag (-q) with
    | some r => F32.fin (-r)
    | none => F32.inf true
  else
    match F32.roundMag q with
    | some r => F32.fin r
    | none => F32.inf false

/-- The sum of two `float`, evaluated in `float` (the exact sum, rounded).
Infinities of opposite signs give a NaN. -/
def F32.add : F32 → F32 → F32
  | F32.fin a, F32.fin b => F32.round (a + b)
  | F32.fin _, F32.inf s => F32.inf s
  | F32.inf s, F32.fin _ => F32.inf s
  | F32.inf s, F32.inf t => if s = t then F32.inf s else F32.nan
  | F32.nan, _ => F32.nan
  | _, F32.nan => F32.nan

/-- The product of two `float`, evaluated in `float` (the exact product,
rounded).  Zero times an infinity gives a NaN. -/
def F32.mul : F32 → F32 → F32
  | F32.fin a, F32.fin b => F32.round (a * b)
  | F32.fin a, F32.inf s => if a = 0 then F32.nan else F32.inf (xor (decide (a < 0)) s)
  | F32.inf s, F32.fin b => if b = 0 then F32.nan else F32.inf (xor s (decide (b < 0)))
  | F32.inf s, F32.inf t => F32.inf (xor s t)
  | F32.nan, _ => F32.nan
  | _, F32.nan => F32.nan

instance : Add F32 := ⟨F32.add⟩

instance : Mul F32 := ⟨F32.mul⟩

/-- The conversion of an unsigned integer to `float`, as in `(float)x` and in
the promotion of `hm->data[i]` for the product with `ZSCALE`: the nearest
binary32 value, ties to even. -/
instance : NatCast F32 := ⟨fun n => F32.round (n : ℚ)⟩

/-- The comparison `a <= b` of two `float`; it is false when either is a NaN. -/
def F32.le : F32 → F32 → Bool
  | F32.fin a, F32.fin b => decide (a ≤ b)
  | F32.fin _, F32.inf s => !s
  | F32.inf s, F32.fin _ => s
  | F32.inf s, F32.inf t => s || !t
  | F32.nan, _ => false
  | _, F32.nan => false

/-- The comparison `a < b` of two `float`; it is false when either is a NaN. -/
def F32.lt : F32 → F32 → Bool
  | F32.fin a, F32.fin b => decide (a < b)
  | F32.fin _, F32.inf s => !s
  | F32.inf s, F32.fin _ => s
  | F32.inf s, F32.inf t => s && !t
  | F32.nan, _ => false
  | _, F32.nan => false

/-- Whether a `float` is finite: neither an infinity nor a NaN. -/
def F32.isFinite : F32 → Bool
  | F32.fin _ => true
  | _ => false

/-- Whether a value of the model is a value of binary32: an infinity, a NaN, or
a rational that rounding leaves unchanged. -/
def F32.representable : F32 → Bool
  | F32.fin q => decide (F32.round q = F32.fin q)
  | _ => true

/-- The number a finite `float` stands for. -/
def F32.toRat : F32 → Option ℚ
  | F32.fin q => some q
  | _ => none

/-! ## The triangles written, as points of space -/

/-- The point that `Triangle` writes for a vertex, when the three `float` it
writes are finite: `(float)x`, `(float)(hm->height - y)` and `z` as numbers. -/
def writtenPoint (hm : Heightmap) (v : Vertex F32) : Option (ℚ × ℚ × ℚ) :=
  match (emitted hm v).1.toRat, (emitted hm v).2.1.toRat, (emitted hm v).2.2.toRat with
  | some x, some y, some z => some (x, y, z)
  | _, _, _ => none

/-- The right-hand-rule normal `(v2 - v1) x (v3 - v1)` of a triangle, taken on
the three points written for it; there is none when a coordinate written is an
infinity or a NaN. -/
def normal (hm : Heightmap) (f : Facet F32) : Option (ℚ × ℚ × ℚ) :=
  match writtenPoint hm f.v1, writtenPoint hm f.v2, writtenPoint hm f.v3 with
  | some p1, some p2, some p3 => some (cross (vsub p2 p1) (vsub p3 p1))
  | _, _, _ => none

/-- The X and Y that `Triangle` writes for a vertex, as numbers. -/
def writtenXY (hm : Heightmap) (v : Vertex F32) : Option (ℚ × ℚ) :=
  match (emitted hm v).1.toRat, (emitted hm v).2.1.toRat with
  | some x, some y => some (x, y)
  | _, _ => none

/-- The Z component of the right-hand-rule normal `(v2 - v1) x (v3 - v1)` of a
triangle as written.  It involves the X and Y written only, so it is defined
whatever is written for Z. -/
def normalZ (hm : Heightmap) (f : Facet F32) : Option ℚ :=
  match writtenXY hm f.v1, writtenXY hm f.v2, writtenXY hm f.v3 with
  | some p1, some p2, some p3 =>
    some ((p2.1 - p1.1) * (p3.2 - p1.2) - (p2.2 - p1.2) * (p3.1 - p1.1))
  | _, _, _ => none

/-- A grid of `2^24 + 2` columns and 2 rows whose samples are all `0`. -/
def gridWide24 : Heightmap :=
  { width := 16777218, height := 2, size := 33554436,
    data := some (fun _ => 0),
    min := 0, max := 0, range := 0 }

/-- A grid of 2 columns and `2^24 + 1` rows whose samples are all `0`. -/
def gridTall24 : Heightmap :=
  { width := 2, height := 16777217, size := 33554434,
    data := some (fun _ => 0),
    min := 0, max := 0, range := 0 }

/-- A grid of 2 columns and `2^24 + 3` rows whose samples are all `0`. -/
def gridTall24b : Heightmap :=
  { width := 2, height := 16777219, size := 33554438,
    data := some (fun _ => 0),
    min := 0, max := 0, range := 0 }

/-! ## Machine arithmetic without wrap-around -/

/-- `n - 1` on `unsigned int` is `n - 1` when `n` is positive. -/
theorem usub_one {n : Nat} (h1 : 1 ≤ n) (h2 : n < U32) : usub n 1 = n - 1 := by
  simp only [usub, U32] at *; omega

/-- `n - k` on `unsigned int` is `n - k` when `k` is at most `n`. -/
theorem usub_of_le {n k : Nat} (hk : k ≤ n) (hn : n < U32) : usub n k = n - k := by
  simp only [usub, U32] at *; omega

/-- An `unsigned int` sum below `2^32` is the sum. -/
theorem uadd_of_lt {a b : Nat} (h : a + b < U32) : uadd a b = a + b := by
  simp only [uadd, U32] at *; omega

/-- An `unsigned int` product below `2^32` is the product. -/
theorem umul_of_lt {a b : Nat} (h : a * b < U32) : umul a b = a * b := by
  unfold umul; exact Nat.mod_eq_of_lt h

/-- Two concatenations of blocks of equal lengths are equal only if the blocks
are. -/
theorem flatMap_blocks_eq {β γ : Type} (f g : β → List γ) :
    ∀ l : List β, (∀ i ∈ l, (f i).length = (g i).length) →
      l.flatMap f = l.flatMap g → ∀ i ∈ l, f i = g i
  | [], _, _ => by intro i hi; cases hi
  | a :: l, hlen, h => by
    rw [List.flatMap_cons, List.flatMap_cons] at h
    have hsplit := List.append_inj h (hlen a (List.mem_cons_self a l))
    intro i hi
    rcases List.mem_cons.mp hi with rfl | hi
    · exact hsplit.1
    · exact flatMap_blocks_eq f g l (fun j hj => hlen j (List.mem_cons_of_mem a hj)) hsplit.2 i hi

/-- The length of a concatenation of blocks that all have `k` elements. -/
theorem length_flatMap_blocks {β γ : Type} (f : β → List γ) (k : Nat) :
    ∀ l : List β, (∀ i ∈ l, (f i).length = k) → (l.flatMap f).length = l.length * k
  | [], _ => by simp
  | a :: l, h => by
    rw [List.flatMap_cons, List.length_append, h a (List.mem_cons_self a l),
      length_flatMap_blocks f k l (fun j hj => h j (List.mem_cons_of_mem a hj)),
      List.length_cons]
    ring

/-- Counting in a concatenation of blocks that all count `k`. -/
theorem countP_flatMap_blocks {β γ : Type} (p : γ → Bool) (f : β → List γ) (k : Nat) :
    ∀ l : List β, (∀ i ∈ l, (f i).countP p = k) → (l.flatMap f).countP p = l.length * k
  | [], _ => by simp
  | a :: l, h => by
    rw [List.flatMap_cons, List.countP_append, h a (List.mem_cons_self a l),
      countP_flatMap_blocks p f k l (fun j hj => h j (List.mem_cons_of_mem a hj)),
      List.length_cons]
    ring

/-- Each block of a concatenation of blocks is a contiguous part of it. -/
theorem block_infix_flatMap {β γ : Type} (f : β → List γ) {a : β} {l : List β}
    (h : a ∈ l) : f a <:+: l.flatMap f :=
  List.infix_of_mem_flatten (List.mem_map_of_mem f h)

/-! ## PreprocessHeightmap -/

/-- A sample is an `unsigned char`. -/
theorem sample_lt (hm : Heightmap) (i : Nat) : hm.sample i < 256 := by
  unfold Heightmap.sample
  split
  · exact Nat.mod_lt _ (by decide)
  · decide

/-- The invariant of the scanning loop after `n` iterations: `min` is at most
every sample seen and at most 254, `max` is at least every sample seen and is
an `unsigned char`. -/
theorem scan_invariant (hm : Heightmap) (n : Nat) :
    (∀ i < n, ((List.range n).foldl (scanStep hm) (254, 0)).1 ≤ hm.sample i ∧
      hm.sample i ≤ ((List.range n).foldl (scanStep hm) (254, 0)).2) ∧
    ((List.range n).foldl (scanStep hm) (254, 0)).1 ≤ 254 ∧
    ((List.range n).foldl (scanStep hm) (254, 0)).2 < 256 := by
  induction n with
  | zero => simp
  | succ n ih =>
    rw [List.range_succ, List.foldl_append]
    obtain ⟨hall, hmin, hmax⟩ := ih
    have hs := sample_lt hm n
    generalize (List.range n).foldl (scanStep hm) (254, 0) = mm at hall hmin hmax ⊢
    simp only [List.foldl_cons, List.foldl_nil, scanStep]
    refine ⟨?_, ?_, ?_⟩
    · intro i hi
      rcases Nat.lt_succ_iff_lt_or_eq.mp hi with hlt | rfl
      · have := hall i hlt
        constructor <;> split <;> omega
      · constructor <;> split <;> omega
    · split <;> omega
    · split <;> omega

section EmitProofs

variable {α : Type} [NatCast α]

/-- Each call of `Triangle` writes one facet record. -/
theorem facetCount_emit (hm : Heightmap) (fs : List (Facet α)) :
    facetCount (emit hm fs) = fs.length := by
  unfold facetCount emit
  rw [countP_flatMap_blocks _ _ 1 fs (fun f _ => by
    simp [Triangle, List.countP_cons, Line.opensFacet]), Nat.mul_one]

/-- Every vertex that `Bottom` passes to `Triangle` has its raw row below the
height. -/
theorem Bottom_rows_lt (hm : Heightmap)
    (hH : 1 ≤ hm.height) (hHlt : hm.height < U32) :
    ∀ f ∈ (Bottom hm : List (Facet α)), ∀ v ∈ f.vertices, v.y < hm.height := by
  intro f hf v hv
  have hb : usub hm.height 1 = hm.height - 1 := usub_one hH hHlt
  simp only [Bottom, hb, List.mem_cons, List.mem_singleton, List.not_mem_nil,
    or_false] at hf
  rcases hf with rfl | rfl <;>
    simp only [Facet.vertices, List.mem_cons, List.mem_singleton, List.not_mem_nil,
      or_false] at hv <;>
    rcases hv with rfl | rfl | rfl <;> simp only <;> omega

/-- A `vertex` line among the lines of a sequence of calls is the line of a
vertex of one of the calls. -/
theorem vertex_of_mem_emit (hm : Heightmap) (fs : List (Facet α)) (x y z : α)
    (h : Line.vertex x y z ∈ emit hm fs) :
    ∃ f ∈ fs, ∃ v ∈ f.vertices,
      x = (v.x : α) ∧ y = ((usub hm.height v.y : Nat) : α) ∧ z = v.z := by
  obtain ⟨f, hf, hl⟩ := List.mem_flatMap.mp h
  refine ⟨f, hf, ?_⟩
  simp only [Triangle, List.mem_cons, List.mem_singleton, List.not_mem_nil, or_false,
    Line.vertex.injEq, false_or, reduceCtorEq] at hl
  rcases hl with h1 | h1 | h1
  · exact ⟨f.v1, by simp [Facet.vertices], h1⟩
  · exact ⟨f.v2, by simp [Facet.vertices], h1⟩
  · exact ⟨f.v3, by simp [Facet.vertices], h1⟩

end EmitProofs

/-! ## Mesh -/

section Proofs

variable {α : Type} [Add α] [Mul α] [NatCast α]

/-- The indices and coordinates of one cell do not wrap when the grid has at
most `2^32` samples. -/
theorem MeshCell_eq (ZOFFSET ZSCALE : α) (hm : Heightmap) (row col : Nat)
    (hWH : hm.width * hm.height ≤ U32)
    (hrow : row + 1 < hm.height) (hcol : col + 1 < hm.width) :
    MeshCell ZOFFSET ZSCALE hm row col =
      [ ⟨cornerSpec ZOFFSET ZSCALE hm col row,
         cornerSpec ZOFFSET ZSCALE hm col (row + 1),
         cornerSpec ZOFFSET ZSCALE hm (col + 1) row⟩,
        ⟨cornerSpec ZOFFSET ZSCALE hm col (row + 1),
         cornerSpec ZOFFSET ZSCALE hm (col + 1) (row + 1),
         cornerSpec ZOFFSET ZSCALE hm (col + 1) row⟩ ] := by
  have hlast : (row + 1) * hm.width + (col + 1) < U32 := by
    have h1 : (row + 1) * hm.width + hm.width ≤ hm.width * hm.height := by
      calc (row + 1) * hm.width + hm.width = hm.width * (row + 2) := by ring
        _ ≤ hm.width * hm.height := Nat.mul_le_mul_left _ hrow
    omega
  have hmono : row * hm.width ≤ (row + 1) * hm.width :=
    Nat.mul_le_mul_right _ (Nat.le_succ row)
  have hr1 : uadd row 1 = row + 1 := uadd_of_lt (by nlinarith)
  have hc1 : uadd col 1 = col + 1 := uadd_of_lt (by nlinarith)
  have hm0 : umul row hm.width = row * hm.width := umul_of_lt (by omega)
  have hm1 : umul (row + 1) hm.width = (row + 1) * hm.width := umul_of_lt (by omega)
  have hA : uadd (row * hm.width) col = row * hm.width + col := uadd_of_lt (by omega)
  have hB : uadd ((row + 1) * hm.width) col = (row + 1) * hm.width + col :=
    uadd_of_lt (by omega)
  have hC : uadd ((row + 1) * hm.width) (col + 1) = (row + 1) * hm.width + (col + 1) :=
    uadd_of_lt (by omega)
  have hD : uadd (row * hm.width) (col + 1) = row * hm.width + (col + 1) :=
    uadd_of_lt (by omega)
  simp only [MeshCell, cornerSpec, surfaceZ, hr1, hc1, hm0, hm1, hA, hB, hC, hD]

/-- Where no index wraps (`W*H <= 2^32`), the triangle list produced by `Mesh`
for a grid of width and height at least 2 is the one the specification words:
rows outer, columns inner, `ABD` then `BCD`, each corner `(x,y)` with Z
`offset + scale * data[y*W + x]`. -/
theorem Mesh_eq_MeshSpec (ZOFFSET ZSCALE : α) (hm : Heightmap)
    (hW : 2 ≤ hm.width) (hH : 2 ≤ hm.height)
    (hWH : hm.width * hm.height ≤ U32) :
    Mesh ZOFFSET ZSCALE hm = MeshSpec ZOFFSET ZSCALE hm := by
  have hWlt : hm.width < U32 := by nlinarith
  have hHlt : hm.height < U32 := by nlinarith
  unfold Mesh MeshSpec
  rw [usub_one (by omega) hWlt, usub_one (by omega) hHlt]
  refine List.flatMap_congr ?_
  intro row hrow
  refine List.flatMap_congr ?_
  intro col hcol
  rw [List.mem_range] at hrow hcol
  exact MeshCell_eq ZOFFSET ZSCALE hm row col hWH (by omega) (by omega)

/-- The number of calls of `Triangle` made by `Mesh`, when the loop bounds
`height - 1` and `width - 1` do not wrap. -/
theorem length_Mesh (ZOFFSET ZSCALE : α) (hm : Heightmap)
    (hW : 1 ≤ hm.width) (hH : 1 ≤ hm.height)
    (hWlt : hm.width < U32) (hHlt : hm.height < U32) :
    (Mesh ZOFFSET ZSCALE hm).length = 2 * (hm.width - 1) * (hm.height - 1) := by
  unfold Mesh
  rw [usub_one hW hWlt, usub_one hH hHlt]
  rw [length_flatMap_blocks _ (2 * (hm.width - 1)) _ (fun row _ => by
    rw [length_flatMap_blocks _ 2 _ (fun col _ => by simp [MeshCell]), List.length_range]
    ring), List.length_range]
  ring

/-- C2: for every grid of width `W >= 2` and height `H >= 2`, `Mesh` makes
exactly `2*(W-1)*(H-1)` calls of `Triangle`. -/
theorem Mesh_length (ZOFFSET ZSCALE : α) (hm : Heightmap)
    (hW : 2 ≤ hm.width) (hH : 2 ≤ hm.height)
    (hWlt : hm.width < U32) (hHlt : hm.height < U32) :
    (Mesh ZOFFSET ZSCALE hm).length = 2 * (hm.width - 1) * (hm.height - 1) :=
  length_Mesh ZOFFSET ZSCALE hm (by omega) (by omega) hWlt hHlt

/-! ## Walls -/

/-- The number of calls of `Triangle` made by `Walls`. -/
theorem length_Walls (ZOFFSET ZSCALE : α) (hm : Heightmap)
    (hW : 1 ≤ hm.width) (hH : 1 ≤ hm.height)
    (hWlt : hm.width < U32) (hHlt : hm.height < U32) :
    (Walls ZOFFSET ZSCALE hm).length = 4 * (hm.width - 1) + 4 * (hm.height - 1) := by
  unfold Walls
  rw [usub_one hW hWlt, usub_one hH hHlt, List.length_append,
    length_flatMap_blocks _ 4 _ (fun col _ => by
      simp [northWall, southWall]),
    length_flatMap_blocks _ 4 _ (fun row _ => by
      simp [westWall, eastWall]),
    List.length_range, List.length_range]
  ring

/-- C3: for every grid of width `W >= 1` and height `H >= 1`, `Walls` makes
exactly `4*(W-1) + 4*(H-1)` calls of `Triangle`: two for each segment of the
north, south, west and east side. -/
theorem Walls_length (ZOFFSET ZSCALE : α) (hm : Heightmap)
    (hW : 1 ≤ hm.width) (hH : 1 ≤ hm.height)
    (hWlt : hm.width < U32) (hHlt : hm.height < U32) :
    (Walls ZOFFSET ZSCALE hm).length = 4 * (hm.width - 1) + 4 * (hm.height - 1) ∧
      (∀ col, (northWall ZOFFSET ZSCALE hm col).length = 2 ∧
        (southWall ZOFFSET ZSCALE hm col).length = 2) ∧
      (∀ row, (westWall ZOFFSET ZSCALE hm row).length = 2 ∧
        (eastWall ZOFFSET ZSCALE hm row).length = 2) :=
  ⟨length_Walls ZOFFSET ZSCALE hm hW hH hWlt hHlt,
    fun _ => ⟨rfl, rfl⟩, fun _ => ⟨rfl, rfl⟩⟩

/-- The two triangles of the north wall over the segment from `(col, 0)` to
`(col + 1, 0)` form its quad. -/
theorem northWall_quad (ZOFFSET ZSCALE : α) (hm : Heightmap) (col : Nat)
    (hWlt : hm.width < U32) (hcol : col + 1 < hm.width) :
    isWallQuad ZOFFSET ZSCALE hm col 0 (col + 1) 0 (northWall ZOFFSET ZSCALE hm col) := by
  have hc1 : uadd col 1 = col + 1 := uadd_of_lt (by omega)
  have hcm : col % U32 = col := Nat.mod_eq_of_lt (by omega)
  have hcm1 : (col + 1) % U32 = col + 1 := Nat.mod_eq_of_lt (by omega)
  refine ⟨_, _, rfl, ?_, ?_⟩
  · intro v
    simp only [Facet.vertices, cornerSpec, baseVertex, surfaceZ, hc1, hcm, hcm1, Nat.zero_mul,
      Nat.zero_add, List.mem_append, List.mem_cons, List.mem_singleton, List.not_mem_nil,
      or_false]
    tauto
  · refine ⟨cornerSpec ZOFFSET ZSCALE hm (col + 1) 0, baseVertex col 0, Or.inr (Or.inr (Or.inl ⟨rfl, rfl⟩)), ?_, ?_⟩
    · simp [Facet.edges, cornerSpec, baseVertex, surfaceZ, hc1, hcm, hcm1]
    · simp [Facet.edges, cornerSpec, baseVertex, surfaceZ, hc1, hcm, hcm1]

/-- The two triangles of the south wall over the segment from `(col, H-1)` to
`(col + 1, H-1)` form its quad, when `bottom * width` does not wrap. -/
theorem southWall_quad (ZOFFSET ZSCALE : α) (hm : Heightmap) (col : Nat)
    (hH : 1 ≤ hm.height) (hWlt : hm.width < U32) (hHlt : hm.height < U32)
    (hlast : (hm.height - 1) * hm.width < U32) (hcol : col + 1 < hm.width) :
    isWallQuad ZOFFSET ZSCALE hm col (hm.height - 1) (col + 1) (hm.height - 1)
      (southWall ZOFFSET ZSCALE hm col) := by
  have hc1 : uadd col 1 = col + 1 := uadd_of_lt (by omega)
  have hb : usub hm.height 1 = hm.height - 1 := usub_one hH hHlt
  have hm1 : umul (hm.height - 1) hm.width = (hm.height - 1) * hm.width := umul_of_lt hlast
  have ha : (col + (hm.height - 1) * hm.width) % U64 = (hm.height - 1) * hm.width + col := by
    rw [Nat.mod_eq_of_lt (by simp only [U32, U64] at *; omega)]; omega
  have hb' : (col + 1 + (hm.height - 1) * hm.width) % U64
      = (hm.height - 1) * hm.width + (col + 1) := by
    rw [Nat.mod_eq_of_lt (by simp only [U32, U64] at *; omega)]; omega
  refine ⟨_, _, rfl, ?_, ?_⟩
  · intro v
    simp only [Facet.vertices, cornerSpec, baseVertex, surfaceZ, hc1, hb, hm1, ha, hb',
      List.mem_append, List.mem_cons, List.mem_singleton, List.not_mem_nil, or_false]
    clear ha hb' hm1 hb hc1 hcol hlast hHlt hWlt hH
    tauto
  · refine ⟨baseVertex col (hm.height - 1), cornerSpec ZOFFSET ZSCALE hm (col + 1) (hm.height - 1),
      Or.inr (Or.inr (Or.inr ⟨rfl, rfl⟩)), ?_, ?_⟩
    · simp [Facet.edges, cornerSpec, baseVertex, surfaceZ, hc1, hb, hm1, ha, hb']
    · simp [Facet.edges, cornerSpec, baseVertex, surfaceZ, hc1, hb, hm1, ha, hb']

/-- The two triangles of the west wall over the segment from `(0, row)` to
`(0, row + 1)` form its quad, when `row * width` does not wrap. -/
theorem westWall_quad (ZOFFSET ZSCALE : α) (hm : Heightmap) (row : Nat)
    (hHlt : hm.height < U32)
    (hlast : (hm.height - 1) * hm.width < U32) (hrow : row + 1 < hm.height) :
    isWallQuad ZOFFSET ZSCALE hm 0 row 0 (row + 1) (westWall ZOFFSET ZSCALE hm row) := by
  have hr1 : uadd row 1 = row + 1 := uadd_of_lt (by omega)
  have hle : (row + 1) * hm.width ≤ (hm.height - 1) * hm.width :=
    Nat.mul_le_mul_right _ (by omega)
  have hmono : row * hm.width ≤ (row + 1) * hm.width :=
    Nat.mul_le_mul_right _ (Nat.le_succ row)
  have hm0 : umul row hm.width = row * hm.width := umul_of_lt (by omega)
  have hm1 : umul (row + 1) hm.width = (row + 1) * hm.width := umul_of_lt (by omega)
  refine ⟨_, _, rfl, ?_, ?_⟩
  · intro v
    simp only [Facet.vertices, cornerSpec, baseVertex, surfaceZ, hr1, hm0, hm1, Nat.add_zero,
      List.mem_append, List.mem_cons, List.mem_singleton, List.not_mem_nil, or_false]
    tauto
  · refine ⟨baseVertex 0 row, cornerSpec ZOFFSET ZSCALE hm 0 (row + 1),
      Or.inr (Or.inr (Or.inr ⟨rfl, rfl⟩)), ?_, ?_⟩
    · simp [Facet.edges, cornerSpec, baseVertex, surfaceZ, hr1, hm0, hm1]
    · simp [Facet.edges, cornerSpec, baseVertex, surfaceZ, hr1, hm0, hm1]

/-- The two triangles of the east wall over the segment from `(W-1, row)` to
`(W-1, row + 1)` form its quad, when `row * width` does not wrap. -/
theorem eastWall_quad (ZOFFSET ZSCALE : α) (hm : Heightmap) (row : Nat)
    (hW : 1 ≤ hm.width) (hWlt : hm.width < U32) (hHlt : hm.height < U32)
    (hlast : (hm.height - 1) * hm.width < U32) (hrow : row + 1 < hm.height) :
    isWallQuad ZOFFSET ZSCALE hm (hm.width - 1) row (hm.width - 1) (row + 1)
      (eastWall ZOFFSET ZSCALE hm row) := by
  have hr1 : uadd row 1 = row + 1 := uadd_of_lt (by omega)
  have hright : usub hm.width 1 = hm.width - 1 := usub_one hW hWlt
  have hle : (row + 1) * hm.width ≤ (hm.height - 1) * hm.width :=
    Nat.mul_le_mul_right _ (by omega)
  have hmono : row * hm.width ≤ (row + 1) * hm.width :=
    Nat.mul_le_mul_right _ (Nat.le_succ row)
  have hm0 : umul row hm.width = row * hm.width := umul_of_lt (by omega)
  have hm1 : umul (row + 1) hm.width = (row + 1) * hm.width := umul_of_lt (by omega)
  have ha : (row * hm.width + (hm.width - 1)) % U64 = row * hm.width + (hm.width - 1) :=
    Nat.mod_eq_of_lt (by simp only [U32, U64] at *; omega)
  have hb : ((row + 1) * hm.width + (hm.width - 1)) % U64
      = (row + 1) * hm.width + (hm.width - 1) :=
    Nat.mod_eq_of_lt (by simp only [U32, U64] at *; omega)
  refine ⟨_, _, rfl, ?_, ?_⟩
  · intro v
    simp only [Facet.vertices, cornerSpec, baseVertex, surfaceZ, hr1, hright, hm0, hm1, ha, hb,
      List.mem_append, List.mem_cons, List.mem_singleton, List.not_mem_nil, or_false]
    clear ha hb hm1 hm0 hmono hle hright hr1 hrow hlast hHlt hWlt hW
    tauto
  · refine ⟨cornerSpec ZOFFSET ZSCALE hm (hm.width - 1) row, baseVertex (hm.width - 1) (row + 1),
      Or.inl ⟨rfl, rfl⟩, ?_, ?_⟩
    · simp [Facet.edges, cornerSpec, baseVertex, surfaceZ, hr1, hright, hm0, hm1, ha, hb]
    · simp [Facet.edges, cornerSpec, baseVertex, surfaceZ, hr1, hright, hm0, hm1, ha, hb]

/-- Where the 32-bit products do not wrap (`(H-1)*W < 2^32`), for every border
segment between two adjacent border samples `p` and `q` on any of the four
sides, the two triangles that `Walls` emits for the segment (a contiguous part
of its output) together use exactly the four vertices `(p, Z(p))`, `(q, Z(q))`,
`(p, 0)`, `(q, 0)`, with `Z(x,y) = offset + scale * data[y*W + x]`, and share
one diagonal of that quad, which they run in opposite directions. -/
theorem Walls_quads (ZOFFSET ZSCALE : α) (hm : Heightmap)
    (hW : 1 ≤ hm.width) (hH : 1 ≤ hm.height)
    (hWlt : hm.width < U32) (hHlt : hm.height < U32)
    (hlast : (hm.height - 1) * hm.width < U32) :
    (∀ col, col + 1 < hm.width →
      (isWallQuad ZOFFSET ZSCALE hm col 0 (col + 1) 0 (northWall ZOFFSET ZSCALE hm col) ∧
        northWall ZOFFSET ZSCALE hm col <:+: Walls ZOFFSET ZSCALE hm) ∧
      (isWallQuad ZOFFSET ZSCALE hm col (hm.height - 1) (col + 1) (hm.height - 1)
          (southWall ZOFFSET ZSCALE hm col) ∧
        southWall ZOFFSET ZSCALE hm col <:+: Walls ZOFFSET ZSCALE hm)) ∧
    (∀ row, row + 1 < hm.height →
      (isWallQuad ZOFFSET ZSCALE hm 0 row 0 (row + 1) (westWall ZOFFSET ZSCALE hm row) ∧
        westWall ZOFFSET ZSCALE hm row <:+: Walls ZOFFSET ZSCALE hm) ∧
      (isWallQuad ZOFFSET ZSCALE hm (hm.width - 1) row (hm.width - 1) (row + 1)
          (eastWall ZOFFSET ZSCALE hm row) ∧
        eastWall ZOFFSET ZSCALE hm row <:+: Walls ZOFFSET ZSCALE hm)) := by
  constructor
  · intro col hcol
    have hmem : col ∈ List.range (usub hm.width 1) := by
      rw [usub_one hW hWlt, List.mem_range]; omega
    have hblock := (block_infix_flatMap (fun col =>
      northWall ZOFFSET ZSCALE hm col ++ southWall ZOFFSET ZSCALE hm col) hmem).trans
        (List.prefix_append _ ((List.range (usub hm.height 1)).flatMap fun row =>
          westWall ZOFFSET ZSCALE hm row ++ eastWall ZOFFSET ZSCALE hm row)).isInfix
    exact ⟨⟨northWall_quad ZOFFSET ZSCALE hm col hWlt hcol,
        (List.prefix_append _ _).isInfix.trans hblock⟩,
      ⟨southWall_quad ZOFFSET ZSCALE hm col hH hWlt hHlt hlast hcol,
        (List.suffix_append _ _).isInfix.trans hblock⟩⟩
  · intro row hrow
    have hmem : row ∈ List.range (usub hm.height 1) := by
      rw [usub_one hH hHlt, List.mem_range]; omega
    have hblock := (block_infix_flatMap (fun row =>
      westWall ZOFFSET ZSCALE hm row ++ eastWall ZOFFSET ZSCALE hm row) hmem).trans
        (List.suffix_append ((List.range (usub hm.width 1)).flatMap fun col =>
          northWall ZOFFSET ZSCALE hm col ++ southWall ZOFFSET ZSCALE hm col) _).isInfix
    exact ⟨⟨westWall_quad ZOFFSET ZSCALE hm row hHlt hlast hrow,
        (List.prefix_append _ _).isInfix.trans hblock⟩,
      ⟨eastWall_quad ZOFFSET ZSCALE hm row hW hWlt hHlt hlast hrow,
        (List.suffix_append _ _).isInfix.trans hblock⟩⟩

/-! ## HeightmapToSTL -/

/-- C7 (amended): for any `W x H` grid (`W >= 1`, `H >= 1`), the total number of
triangles written by `HeightmapToSTL`, once its output is open, is
`2*(W-1)*(H-1) + 4*(W-1) + 4*(H-1) + 2`: the walls have four triangles, not two,
for each step along the width and along the height. -/
theorem HeightmapToSTL_facetCount (OUTPUT : Option String) (fopen : String → Bool)
    (ZOFFSET ZSCALE : α) (hm : Heightmap)
    (hopen : (match OUTPUT with | none => true | some path => fopen path) = true)
    (hW : 1 ≤ hm.width) (hH : 1 ≤ hm.height)
    (hWlt : hm.width < U32) (hHlt : hm.height < U32) :
    facetCount (HeightmapToSTL OUTPUT fopen ZOFFSET ZSCALE hm).2 =
      2 * (hm.width - 1) * (hm.height - 1) + 4 * (hm.width - 1) + 4 * (hm.height - 1) + 2 := by
  unfold HeightmapToSTL
  rw [if_pos hopen]
  have happ : ∀ a b : List (Line α), facetCount (a ++ b) = facetCount a + facetCount b :=
    fun a b => List.countP_append _ a b
  simp only [happ, facetCount_emit, length_Mesh ZOFFSET ZSCALE hm hW hH hWlt hHlt,
    length_Walls ZOFFSET ZSCALE hm hW hH hWlt hHlt]
  simp [facetCount, Bottom, Line.opensFacet]
  ring

/-- C8: for every grid for which the output opens, `HeightmapToSTL` returns 0 and
the lines it writes are: one line `solid <name>`, then the facet records of the
calls of `Mesh`, then those of `Walls`, then those of `Bottom`, then one line
`endsolid <name>` with the same name; and the facet record of a call is exactly
the seven lines `facet normal 0 0 0`, `outer loop`, the three `vertex` lines of
its vertices in order, `endloop`, `endfacet`. -/
theorem HeightmapToSTL_lines (OUTPUT : Option String) (fopen : String → Bool)
    (ZOFFSET ZSCALE : α) (hm : Heightmap)
    (hopen : (match OUTPUT with | none => true | some path => fopen path) = true) :
    (∃ name : String,
      HeightmapToSTL OUTPUT fopen ZOFFSET ZSCALE hm =
        (0, [Line.text ("solid " ++ name)]
              ++ (Mesh ZOFFSET ZSCALE hm).flatMap (Triangle hm)
              ++ (Walls ZOFFSET ZSCALE hm).flatMap (Triangle hm)
              ++ (Bottom hm).flatMap (Triangle hm)
              ++ [Line.text ("endsolid " ++ name)])) ∧
    (∀ f : Facet α, Triangle hm f =
      [ Line.text "facet normal 0 0 0",
        Line.text "outer loop",
        Line.vertex (emitted hm f.v1).1 (emitted hm f.v1).2.1 (emitted hm f.v1).2.2,
        Line.vertex (emitted hm f.v2).1 (emitted hm f.v2).2.1 (emitted hm f.v2).2.2,
        Line.vertex (emitted hm f.v3).1 (emitted hm f.v3).2.1 (emitted hm f.v3).2.2,
        Line.text "endloop",
        Line.text "endfacet" ]) := by
  refine ⟨⟨"mymesh", ?_⟩, fun f => rfl⟩
  unfold HeightmapToSTL
  rw [if_pos hopen]
  rfl

/-! ## The rows passed to Triangle -/

/-- Every vertex that `Mesh` passes to `Triangle` has its raw row below the
height. -/
theorem Mesh_rows_lt (ZOFFSET ZSCALE : α) (hm : Heightmap)
    (hH : 1 ≤ hm.height) (hHlt : hm.height < U32) :
    ∀ f ∈ Mesh ZOFFSET ZSCALE hm, ∀ v ∈ f.vertices, v.y < hm.height := by
  intro f hf v hv
  unfold Mesh at hf
  rw [usub_one hH hHlt] at hf
  obtain ⟨row, hrow, hf⟩ := List.mem_flatMap.mp hf
  obtain ⟨col, -, hf⟩ := List.mem_flatMap.mp hf
  rw [List.mem_range] at hrow
  have hr1 : uadd row 1 = row + 1 := uadd_of_lt (by omega)
  simp only [MeshCell, hr1, List.mem_cons, List.mem_singleton, List.not_mem_nil,
    or_false] at hf
  rcases hf with rfl | rfl <;>
    simp only [Facet.vertices, List.mem_cons, List.mem_singleton, List.not_mem_nil,
      or_false] at hv <;>
    rcases hv with rfl | rfl | rfl <;> simp only <;> omega

/-- Every vertex that `Walls` passes to `Triangle` has its raw row below the
height. -/
theorem Walls_rows_lt (ZOFFSET ZSCALE : α) (hm : Heightmap)
    (hH : 1 ≤ hm.height) (hHlt : hm.height < U32) :
    ∀ f ∈ Walls ZOFFSET ZSCALE hm, ∀ v ∈ f.vertices, v.y < hm.height := by
  intro f hf v hv
  unfold Walls at hf
  have hb : usub hm.height 1 = hm.height - 1 := usub_one hH hHlt
  rw [hb] at hf
  rcases List.mem_append.mp hf with hf | hf
  · obtain ⟨col, -, hf⟩ := List.mem_flatMap.mp hf
    simp only [northWall, southWall, hb, List.mem_append, List.mem_cons, List.mem_singleton,
      List.not_mem_nil, or_false] at hf
    rcases hf with (rfl | rfl) | (rfl | rfl) <;>
      simp only [Facet.vertices, List.mem_cons, List.mem_singleton, List.not_mem_nil,
        or_false] at hv <;>
      rcases hv with rfl | rfl | rfl <;> simp only <;> omega
  · obtain ⟨row, hrow, hf⟩ := List.mem_flatMap.mp hf
    rw [List.mem_range] at hrow
    have hr1 : uadd row 1 = row + 1 := uadd_of_lt (by omega)
    simp only [westWall, eastWall, hr1, List.mem_append, List.mem_cons, List.mem_singleton,
      List.not_mem_nil, or_false] at hf
    rcases hf with (rfl | rfl) | (rfl | rfl) <;>
      simp only [Facet.vertices, List.mem_cons, List.mem_singleton, List.not_mem_nil,
        or_false] at hv <;>
      rcases hv with rfl | rfl | rfl <;> simp only <;> omega

end Proofs

/-! ## Bottom -/

section BottomProofs

variable {α : Type} [NatCast α]

/-- C6: for every grid with `W >= 1` and `H >= 1`, whatever its samples (and with
no part for scale and offset), `Bottom` makes exactly 2 calls of `Triangle`; each
of the six vertices has Z = 0 and its raw `(x, y)` is one of the four footprint
corners `(0,0)`, `(W-1,0)`, `(0,H-1)`, `(W-1,H-1)`; and each of the four corners
is a vertex of at least one of the two triangles. -/
theorem Bottom_spans_footprint (hm : Heightmap)
    (hW : 1 ≤ hm.width) (hH : 1 ≤ hm.height)
    (hWlt : hm.width < U32) (hHlt : hm.height < U32) :
    (Bottom hm : List (Facet α)).length = 2 ∧
    (∀ f ∈ (Bottom hm : List (Facet α)), ∀ v ∈ f.vertices,
      v.z = ((0 : Nat) : α) ∧
      (v.x, v.y) ∈ [(0, 0), (hm.width - 1, 0), (0, hm.height - 1),
        (hm.width - 1, hm.height - 1)]) ∧
    (∀ c ∈ [(0, 0), (hm.width - 1, 0), (0, hm.height - 1), (hm.width - 1, hm.height - 1)],
      ∃ f ∈ (Bottom hm : List (Facet α)), ∃ v ∈ f.vertices, (v.x, v.y) = c) := by
  have hr : usub hm.width 1 = hm.width - 1 := usub_one hW hWlt
  have hb : usub hm.height 1 = hm.height - 1 := usub_one hH hHlt
  refine ⟨rfl, ?_, ?_⟩
  · intro f hf v hv
    simp only [Bottom, hr, hb, List.mem_cons, List.mem_singleton, List.not_mem_nil,
      or_false] at hf
    rcases hf with rfl | rfl <;>
      simp only [Facet.vertices, List.mem_cons, List.mem_singleton, List.not_mem_nil,
        or_false] at hv <;>
      rcases hv with rfl | rfl | rfl <;> simp [zeroZ]
  · intro c hc
    simp only [List.mem_cons, List.mem_singleton, List.not_mem_nil, or_false] at hc
    simp only [Bottom, hr, hb, Facet.vertices, List.mem_cons, List.mem_singleton,
      List.not_mem_nil, or_false, exists_eq_or_imp, exists_eq_left]
    rcases hc with rfl | rfl | rfl | rfl <;> simp

end BottomProofs

/-! ## PreprocessHeightmap: the recorded statistics -/

/-- C10: for every non-empty grid (data present, size at least 1),
`PreprocessHeightmap` returns 1 and records `min`, `max` and `range` with
`min <= sample <= max` for every sample of the grid and `range = max - min`,
where `min <= max`, so that the subtraction does not wrap on 8 bits. -/
theorem PreprocessHeightmap_bounds (hm : Heightmap)
    (hdata : hm.data.isSome = true) (hsize : 1 ≤ hm.size) :
    (PreprocessHeightmap hm).1 = 1 ∧
    (∀ i < hm.size, (PreprocessHeightmap hm).2.min ≤ hm.sample i ∧
      hm.sample i ≤ (PreprocessHeightmap hm).2.max) ∧
    (PreprocessHeightmap hm).2.min ≤ (PreprocessHeightmap hm).2.max ∧
    (PreprocessHeightmap hm).2.range =
      (PreprocessHeightmap hm).2.max - (PreprocessHeightmap hm).2.min := by
  obtain ⟨hall, -, hmax⟩ := scan_invariant hm hm.size
  have h0 := hall 0 (by omega)
  cases hd : hm.data with
  | none => rw [hd] at hdata; cases hdata
  | some buf =>
    simp only [PreprocessHeightmap, hd, scan]
    refine ⟨trivial, hall, by omega, ?_⟩
    omega

/-! ## Instances on concrete grids -/

/-- C10, witness: the 2 x 2 grid with samples `0, 255, 255, 0`. -/
theorem PreprocessHeightmap_bounds_witness :
    grid22.data.isSome = true ∧ 1 ≤ grid22.size ∧
    ((PreprocessHeightmap grid22).1 = 1 ∧
    (∀ i < grid22.size, (PreprocessHeightmap grid22).2.min ≤ grid22.sample i ∧
      grid22.sample i ≤ (PreprocessHeightmap grid22).2.max) ∧
    (PreprocessHeightmap grid22).2.min ≤ (PreprocessHeightmap grid22).2.max ∧
    (PreprocessHeightmap grid22).2.range =
      (PreprocessHeightmap grid22).2.max - (PreprocessHeightmap grid22).2.min) :=
  ⟨rfl, by decide, PreprocessHeightmap_bounds grid22 rfl (by decide)⟩

/-- C2, witness: the 2 x 2 grid, whose surface has 2 triangles. -/
theorem Mesh_length_witness :
    2 ≤ grid22.width ∧ 2 ≤ grid22.height ∧ grid22.width < U32 ∧ grid22.height < U32 ∧
      (Mesh (1 : Int) 1 grid22).length = 2 * (grid22.width - 1) * (grid22.height - 1) :=
  ⟨by decide, by decide, by decide, by decide,
    Mesh_length (1 : Int) 1 grid22 (by decide) (by decide) (by decide) (by decide)⟩

/-- C3, witness: the 2 x 2 grid, whose walls have 8 triangles. -/
theorem Walls_length_witness :
    1 ≤ grid22.width ∧ 1 ≤ grid22.height ∧ grid22.width < U32 ∧ grid22.height < U32 ∧
      ((Walls (1 : Int) 1 grid22).length = 4 * (grid22.width - 1) + 4 * (grid22.height - 1) ∧
        (∀ col, (northWall (1 : Int) 1 grid22 col).length = 2 ∧
          (southWall (1 : Int) 1 grid22 col).length = 2) ∧
        (∀ row, (westWall (1 : Int) 1 grid22 row).length = 2 ∧
          (eastWall (1 : Int) 1 grid22 row).length = 2)) :=
  ⟨by decide, by decide, by decide, by decide,
    Walls_length (1 : Int) 1 grid22 (by decide) (by decide) (by decide) (by decide)⟩

/-- C5, at the failing input: in the grid of 2 columns and `2^31 + 1` rows, the
south wall computes `bottom * hm->width` as `2^31 * 2` on 32 bits, which is `0`,
before the sum is widened to the `unsigned long a`, so the two triangles over
the segment from `(0, 2^31)` to `(1, 2^31)` carry the Z of samples `0` and `1`
and are not the quad over that segment, whose Z are those of samples `2^32` and
`2^32 + 1`. -/
theorem southWall_not_quad_tallGrid :
    ¬ isWallQuad (1 : Int) 1 tallGrid 0 (tallGrid.height - 1) 1 (tallGrid.height - 1)
        (southWall (1 : Int) 1 tallGrid 0) := by
  rintro ⟨t1, t2, hfs, hv, -⟩
  have hts : southWall (1 : Int) 1 tallGrid 0 = [t1, t2] := hfs
  simp only [southWall, List.cons.injEq, and_true] at hts
  obtain ⟨rfl, rfl⟩ := hts
  have hmem := (hv (cornerSpec (1 : Int) 1 tallGrid 0 (tallGrid.height - 1))).mpr
    (List.mem_cons_self _ _)
  simp [Facet.vertices, cornerSpec, baseVertex, surfaceZ, zeroZ, Heightmap.sample, tallGrid,
    usub, uadd, umul, U32, U64] at hmem

/-- C6, witness: the 2 x 2 grid, with Z taken in the integers. -/
theorem Bottom_spans_footprint_witness :
    1 ≤ grid22.width ∧ 1 ≤ grid22.height ∧ grid22.width < U32 ∧ grid22.height < U32 ∧
      ((Bottom grid22 : List (Facet Int)).length = 2 ∧
      (∀ f ∈ (Bottom grid22 : List (Facet Int)), ∀ v ∈ f.vertices,
        v.z = ((0 : Nat) : Int) ∧
        (v.x, v.y) ∈ [(0, 0), (grid22.width - 1, 0), (0, grid22.height - 1),
          (grid22.width - 1, grid22.height - 1)]) ∧
      (∀ c ∈ [(0, 0), (grid22.width - 1, 0), (0, grid22.height - 1),
          (grid22.width - 1, grid22.height - 1)],
        ∃ f ∈ (Bottom grid22 : List (Facet Int)), ∃ v ∈ f.vertices, (v.x, v.y) = c)) :=
  ⟨by decide, by decide, by decide, by decide,
    Bottom_spans_footprint grid22 (by decide) (by decide) (by decide) (by decide)⟩

/-- C7, witness: the 2 x 2 grid written to the standard output. -/
theorem HeightmapToSTL_facetCount_witness :
    (match (none : Option String) with | none => true | some path => (fun _ => false) path)
        = true ∧
      1 ≤ grid22.width ∧ 1 ≤ grid22.height ∧ grid22.width < U32 ∧ grid22.height < U32 ∧
      facetCount (HeightmapToSTL none (fun _ => false) (1 : Int) 1 grid22).2 =
        2 * (grid22.width - 1) * (grid22.height - 1) + 4 * (grid22.width - 1)
          + 4 * (grid22.height - 1) + 2 :=
  ⟨rfl, by decide, by decide, by decide, by decide,
    HeightmapToSTL_facetCount none (fun _ => false) (1 : Int) 1 grid22 rfl
      (by decide) (by decide) (by decide) (by decide)⟩

/-- C7 as stated fails: for the 2 x 2 grid `HeightmapToSTL` writes 12 triangles
(2 of the surface, 8 of the walls, 2 of the base), where the formula
`2*(W-1)*(H-1) + 2*(W-1) + 2*(H-1) + 2` gives 8. -/
theorem HeightmapToSTL_facetCount_grid22 :
    facetCount (HeightmapToSTL none (fun _ => false) (1 : Int) 1 grid22).2 = 12 ∧
      facetCount (HeightmapToSTL none (fun _ => false) (1 : Int) 1 grid22).2 ≠
        2 * (grid22.width - 1) * (grid22.height - 1) + 2 * (grid22.width - 1)
          + 2 * (grid22.height - 1) + 2 := by
  decide

/-- C8, witness: the 2 x 2 grid written to a file that opens. -/
theorem HeightmapToSTL_lines_witness :
    (match some "out.stl" with | none => true | some path => (fun _ => true) path) = true ∧
    ((∃ name : String,
      HeightmapToSTL (some "out.stl") (fun _ => true) (1 : Int) 1 grid22 =
        (0, [Line.text ("solid " ++ name)]
              ++ (Mesh (1 : Int) 1 grid22).flatMap (Triangle grid22)
              ++ (Walls (1 : Int) 1 grid22).flatMap (Triangle grid22)
              ++ (Bottom grid22).flatMap (Triangle grid22)
              ++ [Line.text ("endsolid " ++ name)])) ∧
    (∀ f : Facet Int, Triangle grid22 f =
      [ Line.text "facet normal 0 0 0",
        Line.text "outer loop",
        Line.vertex (emitted grid22 f.v1).1 (emitted grid22 f.v1).2.1 (emitted grid22 f.v1).2.2,
        Line.vertex (emitted grid22 f.v2).1 (emitted grid22 f.v2).2.1 (emitted grid22 f.v2).2.2,
        Line.vertex (emitted grid22 f.v3).1 (emitted grid22 f.v3).2.1 (emitted grid22 f.v3).2.2,
        Line.text "endloop",
        Line.text "endfacet" ])) :=
  ⟨rfl, HeightmapToSTL_lines (some "out.stl") (fun _ => true) (1 : Int) 1 grid22 rfl⟩

/-- C1, at the failing input: in the grid of 2 columns and `2^31 + 1` rows, the
index of corner `B` of the last cell is computed as `2^31 * 2` on 32 bits, which
is `0`, before it is stored in the `unsigned long B`, so `Mesh` passes the Z of
sample `0` where the triangle list of the claim has that of sample `2^32`. -/
theorem Mesh_ne_MeshSpec_tallGrid :
    Mesh (1 : Int) 1 tallGrid ≠ MeshSpec (1 : Int) 1 tallGrid := by
  intro h
  unfold Mesh MeshSpec at h
  have hH : usub tallGrid.height 1 = 2147483648 := by decide
  have hH2 : tallGrid.height - 1 = 2147483648 := by decide
  have hW : usub tallGrid.width 1 = 1 := by decide
  have hW2 : tallGrid.width - 1 = 1 := by decide
  have hone : List.range 1 = [0] := rfl
  rw [hH, hH2, hW, hW2, hone] at h
  have hrow := flatMap_blocks_eq _ _ (List.range 2147483648)
    (fun i _ => by simp [MeshCell]) h 2147483647 (List.mem_range.mpr (by decide))
  simp [MeshCell, cornerSpec, surfaceZ, Heightmap.sample, tallGrid, uadd, umul] at hrow

/-! ## PreprocessHeightmap: the initial values and the failure case -/

/-- C11, at the failing input: for the 1 x 1 grid whose only sample is `255`,
`PreprocessHeightmap` returns 1 and records `max = 255`, but records
`min = 254`, the initial value of the scan, which is not a sample of the grid
and is not above the sample `255`. -/
theorem PreprocessHeightmap_min_grid255 :
    (∀ i < grid255.size, grid255.sample i = 255) ∧
    (PreprocessHeightmap grid255).1 = 1 ∧
    (PreprocessHeightmap grid255).2.max = 255 ∧
    (PreprocessHeightmap grid255).2.min = 254 ∧
    (∀ i < grid255.size, grid255.sample i ≠ (PreprocessHeightmap grid255).2.min) := by
  decide

/-- C12 (amended): `PreprocessHeightmap` reports failure (returns 0) for every
heightmap whose data buffer is absent, and in that case leaves the heightmap,
so `min`, `max` and `range`, as it was. -/
theorem PreprocessHeightmap_null (hm : Heightmap) (hdata : hm.data = none) :
    (PreprocessHeightmap hm).1 = 0 ∧ (PreprocessHeightmap hm).2 = hm := by
  simp only [PreprocessHeightmap, hdata, and_self]

/-- C12, witness: the heightmap that `main` starts from, before any load. -/
theorem PreprocessHeightmap_null_witness :
    gridUnloaded.data = none ∧
      (PreprocessHeightmap gridUnloaded).1 = 0 ∧
      (PreprocessHeightmap gridUnloaded).2 = gridUnloaded :=
  ⟨rfl, PreprocessHeightmap_null gridUnloaded rfl⟩

/-- C12 as stated fails: for a heightmap of size 0 (width 0, height 0) whose
buffer is present, `PreprocessHeightmap` returns 1 and overwrites `min`, `max`
and `range` with `254`, `0` and `2`. -/
theorem PreprocessHeightmap_gridEmpty :
    gridEmpty.size = 0 ∧ gridEmpty.width = 0 ∧ gridEmpty.height = 0 ∧
    (PreprocessHeightmap gridEmpty).1 = 1 ∧
    (PreprocessHeightmap gridEmpty).2.min = 254 ∧
    (PreprocessHeightmap gridEmpty).2.max = 0 ∧
    (PreprocessHeightmap gridEmpty).2.range = 2 ∧
    (PreprocessHeightmap gridEmpty).2.min ≠ gridEmpty.min := by
  decide

/-! ## The 2 x 2 scenario -/

/-- C13 (amended): for the 2 x 2 grid with row-major samples `0, 255, 255, 0`,
scale 1 and offset 1, `Mesh` makes exactly 2 calls of `Triangle`, whose Z
values in vertex order are `(1, 256, 256)` for `ABD` and `(256, 1, 256)` for
`BCD` (corner `C` is the sample `0`). -/
theorem Mesh_grid22_zs {α : Type} [Ring α] :
    (Mesh (1 : α) 1 grid22).length = 2 ∧
    (Mesh (1 : α) 1 grid22).map Facet.zs = [(1, 256, 256), (256, 1, 256)] := by
  have hone : List.range 1 = [0] := rfl
  have h1 : usub grid22.height 1 = 1 := by decide
  have h2 : usub grid22.width 1 = 1 := by decide
  have s0 : grid22.sample 0 = 0 := by decide
  have s1 : grid22.sample 1 = 255 := by decide
  have s2 : grid22.sample 2 = 255 := by decide
  have s3 : grid22.sample 3 = 0 := by decide
  have i0 : uadd (umul 0 grid22.width) 0 = 0 := by decide
  have i1 : uadd (umul 0 grid22.width) (uadd 0 1) = 1 := by decide
  have i2 : uadd (umul (uadd 0 1) grid22.width) 0 = 2 := by decide
  have i3 : uadd (umul (uadd 0 1) grid22.width) (uadd 0 1) = 3 := by decide
  simp only [Mesh, MeshCell, surfaceZ, Facet.zs, h1, h2, hone, i0, i1, i2, i3, s0, s1, s2, s3,
    List.flatMap_cons, List.flatMap_nil, List.append_nil, List.map_cons, List.map_nil,
    List.length_cons, List.length_nil]
  refine ⟨trivial, ?_⟩
  norm_num

/-- C13 as stated fails: over the integers the Z values of the second triangle
are `(256, 1, 256)`, not `(256, 256, 1)`. -/
theorem Mesh_grid22_zs_ne :
    (Mesh (1 : Int) 1 grid22).map Facet.zs ≠ [(1, 256, 256), (256, 256, 1)] := by
  decide

/-! ## The surface: the shared diagonal of a cell -/

section SurfaceProofs

variable {α : Type} [Add α] [Mul α] [NatCast α]

/-- C16: for every cell `(row, col)` of a grid with `W >= 2` and `H >= 2`, the two
triangles that `Mesh` emits for the cell (a contiguous part of its output) are
`ABD` and `BCD` with `A=(col,row)`, `B=(col,row+1)`, `C=(col+1,row+1)`,
`D=(col+1,row)`; the edge from `B` to `D` is a directed edge of `ABD` in its
cyclic vertex order and the edge from `D` to `B` is a directed edge of `BCD`. -/
theorem MeshCell_shares_diagonal (ZOFFSET ZSCALE : α) (hm : Heightmap) (row col : Nat)
    (hWlt : hm.width < U32) (hHlt : hm.height < U32)
    (hrow : row + 1 < hm.height) (hcol : col + 1 < hm.width) :
    ∃ a b c d : Vertex α,
      ((a.x, a.y) = (col, row) ∧ (b.x, b.y) = (col, row + 1) ∧
        (c.x, c.y) = (col + 1, row + 1) ∧ (d.x, d.y) = (col + 1, row)) ∧
      MeshCell ZOFFSET ZSCALE hm row col = [⟨a, b, d⟩, ⟨b, c, d⟩] ∧
      MeshCell ZOFFSET ZSCALE hm row col <:+: Mesh ZOFFSET ZSCALE hm ∧
      (b, d) ∈ (⟨a, b, d⟩ : Facet α).edges ∧ (d, b) ∈ (⟨b, c, d⟩ : Facet α).edges := by
  have hr1 : uadd row 1 = row + 1 := uadd_of_lt (by omega)
  have hc1 : uadd col 1 = col + 1 := uadd_of_lt (by omega)
  have hrmem : row ∈ List.range (usub hm.height 1) := by
    rw [usub_one (by omega) hHlt, List.mem_range]; omega
  have hcmem : col ∈ List.range (usub hm.width 1) := by
    rw [usub_one (by omega) hWlt, List.mem_range]; omega
  refine ⟨_, _, _, _, ?_, rfl, ?_, ?_, ?_⟩
  · simp only [hr1, hc1, and_self]
  · exact (block_infix_flatMap (fun col => MeshCell ZOFFSET ZSCALE hm row col) hcmem).trans
      (block_infix_flatMap (fun row => (List.range (usub hm.width 1)).flatMap fun col =>
        MeshCell ZOFFSET ZSCALE hm row col) hrmem)
  · simp [Facet.edges]
  · simp [Facet.edges]

end SurfaceProofs

/-- C16, witness: the only cell of the 2 x 2 grid. -/
theorem MeshCell_shares_diagonal_witness :
    grid22.width < U32 ∧ grid22.height < U32 ∧ 0 + 1 < grid22.height ∧ 0 + 1 < grid22.width ∧
    ∃ a b c d : Vertex Int,
      ((a.x, a.y) = (0, 0) ∧ (b.x, b.y) = (0, 0 + 1) ∧
        (c.x, c.y) = (0 + 1, 0 + 1) ∧ (d.x, d.y) = (0 + 1, 0)) ∧
      MeshCell (1 : Int) 1 grid22 0 0 = [⟨a, b, d⟩, ⟨b, c, d⟩] ∧
      MeshCell (1 : Int) 1 grid22 0 0 <:+: Mesh (1 : Int) 1 grid22 ∧
      (b, d) ∈ (⟨a, b, d⟩ : Facet Int).edges ∧ (d, b) ∈ (⟨b, c, d⟩ : Facet Int).edges :=
  ⟨by decide, by decide, by decide, by decide,
    MeshCell_shares_diagonal (1 : Int) 1 grid22 0 0 (by decide) (by decide) (by decide)
      (by decide)⟩

/-! ## parseopts and main -/

section ProgramProofs

variable {α : Type} [LinearOrderedCommRing α]

/-- `parseopts` returns non-zero when some `-z` option scans to a value that is
not positive. -/
theorem parseopts_rejects_scale (x : α) (hx : x ≤ 0) :
    ∀ (opts : List (Getopt α)) (extraneous : Bool) (g : Globals α),
      Getopt.z (some x) ∈ opts → (parseopts opts extraneous g).1 ≠ 0
  | [], _, _, h => by cases h
  | o :: rest, extraneous, g, h => by
    have ih := fun g' (h' : Getopt.z (some x) ∈ rest) =>
      parseopts_rejects_scale x hx rest extraneous g' h'
    rcases List.mem_cons.mp h with rfl | h'
    · simp [parseopts, hx]
    · cases o with
      | z scanned =>
        cases scanned with
        | none => simp [parseopts]
        | some y => simp only [parseopts]; split
                    · simp
                    · exact ih _ h'
      | b scanned =>
        cases scanned with
        | none => simp [parseopts]
        | some y => simp only [parseopts]; split
                    · simp
                    · exact ih _ h'
      | o optarg => simp only [parseopts]; exact ih _ h'
      | i optarg => simp only [parseopts]; exact ih _ h'
      | v => simp only [parseopts]; exact ih _ h'
      | unrecognized => simp [parseopts]
      | unexpected => simp [parseopts]

/-- `parseopts` returns non-zero when some `-b` option scans to a value below
1. -/
theorem parseopts_rejects_offset (x : α) (hx : x < 1) :
    ∀ (opts : List (Getopt α)) (extraneous : Bool) (g : Globals α),
      Getopt.b (some x) ∈ opts → (parseopts opts extraneous g).1 ≠ 0
  | [], _, _, h => by cases h
  | o :: rest, extraneous, g, h => by
    have ih := fun g' (h' : Getopt.b (some x) ∈ rest) =>
      parseopts_rejects_offset x hx rest extraneous g' h'
    rcases List.mem_cons.mp h with rfl | h'
    · simp [parseopts, hx]
    · cases o with
      | z scanned =>
        cases scanned with
        | none => simp [parseopts]
        | some y => simp only [parseopts]; split
                    · simp
                    · exact ih _ h'
      | b scanned =>
        cases scanned with
        | none => simp [parseopts]
        | some y => simp only [parseopts]; split
                    · simp
                    · exact ih _ h'
      | o optarg => simp only [parseopts]; exact ih _ h'
      | i optarg => simp only [parseopts]; exact ih _ h'
      | v => simp only [parseopts]; exact ih _ h'
      | unrecognized => simp [parseopts]
      | unexpected => simp [parseopts]

/-- C14: `parseopts` returns non-zero whenever a scale option scans to a value
`<= 0` (so for `0` and `-1`) or an offset option scans to a value `< 1`; it goes
on to the next option, with the value stored, for every scale `> 0` and every
offset `>= 1` (so for `1.0`), and returns 0 when those are all the options; and
when `parseopts` returns non-zero, `main` returns non-zero without calling
`LoadHeightmapFromPGM`, `HeightmapToSTL` or anything else, and writes nothing. -/
theorem parseopts_validates (opts : List (Getopt α)) (extraneous : Bool) (g : Globals α)
    (w : World α) :
    (∀ x : α, x ≤ 0 → Getopt.z (some x) ∈ opts → (parseopts opts extraneous g).1 ≠ 0) ∧
    (parseopts (Getopt.z (some (0 : α)) :: opts) extraneous g).1 ≠ 0 ∧
    (parseopts (Getopt.z (some (-1 : α)) :: opts) extraneous g).1 ≠ 0 ∧
    (∀ x : α, x < 1 → Getopt.b (some x) ∈ opts → (parseopts opts extraneous g).1 ≠ 0) ∧
    (∀ x : α, 0 < x → parseopts (Getopt.z (some x) :: opts) extraneous g =
      parseopts opts extraneous { g with ZSCALE := x }) ∧
    (∀ x : α, 1 ≤ x → parseopts (Getopt.b (some x) :: opts) extraneous g =
      parseopts opts extraneous { g with ZOFFSET := x }) ∧
    (∀ x : α, 0 < x → parseopts [Getopt.z (some x), Getopt.b (some 1)] false g =
      (0, { g with ZSCALE := x, ZOFFSET := 1 })) ∧
    ((parseopts w.opts w.extraneous Globals.initial).1 ≠ 0 →
      (main w).status ≠ 0 ∧ (main w).calls = [] ∧ (main w).written = []) := by
  refine ⟨fun x hx h => parseopts_rejects_scale x hx opts extraneous g h,
    parseopts_rejects_scale 0 le_rfl _ extraneous g (List.mem_cons_self _ _),
    parseopts_rejects_scale (-1) (by simp) _ extraneous g (List.mem_cons_self _ _),
    fun x hx h => parseopts_rejects_offset x hx opts extraneous g h, ?_, ?_, ?_, ?_⟩
  · intro x hx
    simp only [parseopts, if_neg (not_le.mpr hx)]
  · intro x hx
    simp only [parseopts, if_neg (not_lt.mpr hx)]
  · intro x hx
    simp [parseopts, if_neg (not_le.mpr hx)]
  · intro h
    simp only [main, if_pos h]
    simp

end ProgramProofs

/-- C14, witness: the run with the option `-z -1`, over the integers. -/
theorem parseopts_validates_witness :
    (parseopts worldBadScale.opts worldBadScale.extraneous
        (Globals.initial : Globals Int)).1 ≠ 0 ∧
      ((main worldBadScale).status ≠ 0 ∧ (main worldBadScale).calls = [] ∧
        (main worldBadScale).written = []) :=
  ⟨by decide,
    (parseopts_validates ([] : List (Getopt Int)) false Globals.initial
      worldBadScale).2.2.2.2.2.2.2 (by decide)⟩

/-- C15, at the failing input: with a readable image on the standard input and
an output path that cannot be opened, `HeightmapToSTL` returns 1 and writes
nothing, and `main` still calls `UnloadHeightmap` and returns 0. -/
theorem main_ignores_failure :
    (main worldBadOutput).calls =
      [Step.LoadHeightmapFromPGM 0, Step.PreprocessHeightmap 1,
        Step.HeightmapToSTL 1, Step.UnloadHeightmap] ∧
    (main worldBadOutput).written = [] ∧
    (main worldBadOutput).status = 0 := by
  refine ⟨?_, ?_, ?_⟩
  · decide
  · rfl
  · decide

/-! ## The reads of the data buffer -/

/-- Mapping a concatenation of blocks maps each block. -/
theorem map_flatMap_blocks {β γ δ : Type} (g : γ → δ) (f : β → List γ) :
    ∀ l : List β, (l.flatMap f).map g = l.flatMap fun a => (f a).map g
  | [] => rfl
  | a :: l => by
    rw [List.flatMap_cons, List.flatMap_cons, List.map_append, map_flatMap_blocks g f l]

section ReadsProofs

variable {α : Type} [Add α] [Mul α] [NatCast α]

/-- The calls of `Mesh` are its reads with each index replaced by the Z computed
from the sample at that index. -/
theorem Mesh_eq_map_MeshReads (ZOFFSET ZSCALE : α) (hm : Heightmap) :
    Mesh ZOFFSET ZSCALE hm = (MeshReads hm).map (Facet.mapZ (readZ ZOFFSET ZSCALE hm)) := by
  unfold Mesh MeshReads
  rw [map_flatMap_blocks]
  refine List.flatMap_congr fun row _ => ?_
  rw [map_flatMap_blocks]
  exact List.flatMap_congr fun col _ => rfl

/-- The calls of `Walls` are its reads with each index replaced by the Z
computed from the sample at that index, and each `none` by `0`. -/
theorem Walls_eq_map_WallsReads (ZOFFSET ZSCALE : α) (hm : Heightmap) :
    Walls ZOFFSET ZSCALE hm = (WallsReads hm).map (Facet.mapZ (readZ ZOFFSET ZSCALE hm)) := by
  unfold Walls WallsReads
  rw [List.map_append, map_flatMap_blocks, map_flatMap_blocks]
  rfl

end ReadsProofs

/-- In a grid of fewer than `2^32` samples, every index read in a cell of `Mesh`
is inside the buffer and is `y*W + x` for the vertex it belongs to. -/
theorem MeshCellReads_bounds (hm : Heightmap) (row col : Nat)
    (hWH : hm.width * hm.height < U32)
    (hrow : row + 1 < hm.height) (hcol : col + 1 < hm.width) :
    ∀ f ∈ MeshCellReads hm row col, ∀ v ∈ f.vertices, ∀ i, v.z = some i →
      i < hm.width * hm.height ∧ i = v.y * hm.width + v.x := by
  have hsucc : (row + 1) * hm.width = row * hm.width + hm.width := by ring
  have hlast : (row + 1) * hm.width + hm.width ≤ hm.width * hm.height := by
    calc (row + 1) * hm.width + hm.width = hm.width * (row + 2) := by ring
      _ ≤ hm.width * hm.height := Nat.mul_le_mul_left _ hrow
  have hWlt : hm.width < U32 := by nlinarith
  have hHlt : hm.height < U32 := by nlinarith
  have hr1 : uadd row 1 = row + 1 := uadd_of_lt (by omega)
  have hc1 : uadd col 1 = col + 1 := uadd_of_lt (by omega)
  have hm0 : umul row hm.width = row * hm.width := umul_of_lt (by omega)
  have hm1 : umul (row + 1) hm.width = (row + 1) * hm.width := umul_of_lt (by omega)
  have hA : uadd (row * hm.width) col = row * hm.width + col := uadd_of_lt (by omega)
  have hB : uadd ((row + 1) * hm.width) col = (row + 1) * hm.width + col :=
    uadd_of_lt (by omega)
  have hC : uadd ((row + 1) * hm.width) (col + 1) = (row + 1) * hm.width + (col + 1) :=
    uadd_of_lt (by omega)
  have hD : uadd (row * hm.width) (col + 1) = row * hm.width + (col + 1) :=
    uadd_of_lt (by omega)
  intro f hf v hv i hi
  simp only [MeshCellReads, hr1, hc1, hm0, hm1, hA, hB, hC, hD, List.mem_cons,
    List.mem_singleton, List.not_mem_nil, or_false] at hf
  rcases hf with rfl | rfl <;>
    simp only [Facet.vertices, List.mem_cons, List.mem_singleton, List.not_mem_nil,
      or_false] at hv <;>
    rcases hv with rfl | rfl | rfl <;>
    simp only [Option.some.injEq] at hi <;>
    subst hi <;>
    exact ⟨by omega, rfl⟩

/-- In a grid of fewer than `2^32` samples, every index read for the north and
south walls at `col` is inside the buffer and is `y*W + x` for its vertex. -/
theorem colWallReads_bounds (hm : Heightmap) (col : Nat)
    (hH : 1 ≤ hm.height) (hWH : hm.width * hm.height < U32) (hcol : col + 1 < hm.width) :
    ∀ f ∈ northWallReads col ++ southWallReads hm col, ∀ v ∈ f.vertices, ∀ i,
      v.z = some i → i < hm.width * hm.height ∧ i = v.y * hm.width + v.x := by
  obtain ⟨h, hh⟩ : ∃ h, hm.height = h + 1 := ⟨hm.height - 1, by omega⟩
  have hrows : h * hm.width + hm.width = hm.width * hm.height := by rw [hh]; ring
  have hWlt : hm.width < U32 := by nlinarith
  have hHlt : hm.height < U32 := by nlinarith
  have hc1 : uadd col 1 = col + 1 := uadd_of_lt (by omega)
  have hcm : col % U32 = col := Nat.mod_eq_of_lt (by omega)
  have hcm1 : (col + 1) % U32 = col + 1 := Nat.mod_eq_of_lt (by omega)
  have hb : usub hm.height 1 = h := by rw [usub_one hH hHlt]; omega
  have hm1 : umul h hm.width = h * hm.width := umul_of_lt (by omega)
  have ha : (col + h * hm.width) % U64 = h * hm.width + col := by
    rw [Nat.mod_eq_of_lt (by simp only [U32, U64] at *; omega)]; omega
  have hb' : (col + 1 + h * hm.width) % U64 = h * hm.width + (col + 1) := by
    rw [Nat.mod_eq_of_lt (by simp only [U32, U64] at *; omega)]; omega
  intro f hf v hv i hi
  simp only [northWallReads, southWallReads, hc1, hcm, hcm1, hb, hm1, ha, hb',
    List.mem_append, List.mem_cons, List.mem_singleton, List.not_mem_nil, or_false] at hf
  rcases hf with (rfl | rfl) | (rfl | rfl) <;>
    simp only [Facet.vertices, List.mem_cons, List.mem_singleton, List.not_mem_nil,
      or_false] at hv <;>
    rcases hv with rfl | rfl | rfl <;>
    simp only [Option.some.injEq, reduceCtorEq] at hi <;>
    subst hi <;>
    exact ⟨by omega, by dsimp only <;> omega⟩

/-- In a grid of fewer than `2^32` samples, every index read for the west and
east walls at `row` is inside the buffer and is `y*W + x` for its vertex. -/
theorem rowWallReads_bounds (hm : Heightmap) (row : Nat)
    (hW : 1 ≤ hm.width) (hWH : hm.width * hm.height < U32) (hrow : row + 1 < hm.height) :
    ∀ f ∈ westWallReads hm row ++ eastWallReads hm row, ∀ v ∈ f.vertices, ∀ i,
      v.z = some i → i < hm.width * hm.height ∧ i = v.y * hm.width + v.x := by
  have hsucc : (row + 1) * hm.width = row * hm.width + hm.width := by ring
  have hlast : (row + 1) * hm.width + hm.width ≤ hm.width * hm.height := by
    calc (row + 1) * hm.width + hm.width = hm.width * (row + 2) := by ring
      _ ≤ hm.width * hm.height := Nat.mul_le_mul_left _ hrow
  have hWlt : hm.width < U32 := by nlinarith
  have hHlt : hm.height < U32 := by nlinarith
  have hr1 : uadd row 1 = row + 1 := uadd_of_lt (by omega)
  have hright : usub hm.width 1 = hm.width - 1 := usub_one hW hWlt
  have hm0 : umul row hm.width = row * hm.width := umul_of_lt (by omega)
  have hm1 : umul (row + 1) hm.width = (row + 1) * hm.width := umul_of_lt (by omega)
  have ha : (row * hm.width + (hm.width - 1)) % U64 = row * hm.width + (hm.width - 1) :=
    Nat.mod_eq_of_lt (by simp only [U32, U64] at *; omega)
  have hb : ((row + 1) * hm.width + (hm.width - 1)) % U64
      = (row + 1) * hm.width + (hm.width - 1) :=
    Nat.mod_eq_of_lt (by simp only [U32, U64] at *; omega)
  intro f hf v hv i hi
  simp only [westWallReads, eastWallReads, hr1, hright, hm0, hm1, ha, hb,
    List.mem_append, List.mem_cons, List.mem_singleton, List.not_mem_nil, or_false] at hf
  rcases hf with (rfl | rfl) | (rfl | rfl) <;>
    simp only [Facet.vertices, List.mem_cons, List.mem_singleton, List.not_mem_nil,
      or_false] at hv <;>
    rcases hv with rfl | rfl | rfl <;>
    simp only [Option.some.injEq, reduceCtorEq] at hi <;>
    subst hi <;>
    exact ⟨by omega, by dsimp only <;> omega⟩

section ReadsBounds

variable {α : Type} [Add α] [Mul α] [NatCast α]

/-- C19: for every grid with `W >= 1`, `H >= 1`, `W*H < 2^32` and a buffer of
exactly `W*H` samples, the calls of `Mesh` and `Walls` are their reads with each
index replaced by `ZOFFSET + ZSCALE * data[index]`, and every index read is
below `W*H`, so inside the buffer, and equals `y*W + x` for the raw `(x, y)` of
the vertex whose Z it supplies. -/
theorem reads_in_bounds (ZOFFSET ZSCALE : α) (hm : Heightmap)
    (hW : 1 ≤ hm.width) (hH : 1 ≤ hm.height)
    (hWH : hm.width * hm.height < U32) (hsize : hm.size = hm.width * hm.height) :
    (Mesh ZOFFSET ZSCALE hm = (MeshReads hm).map (Facet.mapZ (readZ ZOFFSET ZSCALE hm)) ∧
      Walls ZOFFSET ZSCALE hm = (WallsReads hm).map (Facet.mapZ (readZ ZOFFSET ZSCALE hm))) ∧
    ∀ f ∈ MeshReads hm ++ WallsReads hm, ∀ v ∈ f.vertices, ∀ i, v.z = some i →
      i < hm.size ∧ i = v.y * hm.width + v.x := by
  have hWlt : hm.width < U32 := by nlinarith
  have hHlt : hm.height < U32 := by nlinarith
  refine ⟨⟨Mesh_eq_map_MeshReads ZOFFSET ZSCALE hm, Walls_eq_map_WallsReads ZOFFSET ZSCALE hm⟩,
    ?_⟩
  intro f hf
  rw [hsize]
  rcases List.mem_append.mp hf with hf | hf
  · unfold MeshReads at hf
    rw [usub_one hW hWlt, usub_one hH hHlt] at hf
    obtain ⟨row, hrow, hf⟩ := List.mem_flatMap.mp hf
    obtain ⟨col, hcol, hf⟩ := List.mem_flatMap.mp hf
    rw [List.mem_range] at hrow hcol
    exact MeshCellReads_bounds hm row col hWH (by omega) (by omega) f hf
  · unfold WallsReads at hf
    rw [usub_one hW hWlt, usub_one hH hHlt] at hf
    rcases List.mem_append.mp hf with hf | hf
    · obtain ⟨col, hcol, hf⟩ := List.mem_flatMap.mp hf
      rw [List.mem_range] at hcol
      exact colWallReads_bounds hm col hH hWH (by omega) f hf
    · obtain ⟨row, hrow, hf⟩ := List.mem_flatMap.mp hf
      rw [List.mem_range] at hrow
      exact rowWallReads_bounds hm row hW hWH (by omega) f hf

end ReadsBounds

/-- C19, witness: the 2 x 2 grid over the integers with offset 1 and scale 1. -/
theorem reads_in_bounds_witness :
    1 ≤ grid22.width ∧ 1 ≤ grid22.height ∧ grid22.width * grid22.height < U32 ∧
    grid22.size = grid22.width * grid22.height ∧
    ((Mesh (1 : Int) 1 grid22 = (MeshReads grid22).map (Facet.mapZ (readZ (1 : Int) 1 grid22)) ∧
      Walls (1 : Int) 1 grid22
        = (WallsReads grid22).map (Facet.mapZ (readZ (1 : Int) 1 grid22))) ∧
    ∀ f ∈ MeshReads grid22 ++ WallsReads grid22, ∀ v ∈ f.vertices, ∀ i, v.z = some i →
      i < grid22.size ∧ i = v.y * grid22.width + v.x) :=
  ⟨by decide, by decide, by decide, by decide,
    reads_in_bounds (1 : Int) 1 grid22 (by decide) (by decide) (by decide) (by decide)⟩

/-! ## The seam in a grid of more than `2^32` samples -/

/-- In `wideGrid` every Z that `Mesh` computes reads an index below `2^32`, so
the sample `0`. -/
theorem surfaceZ_wideGrid_uadd (a b : Nat) : surfaceZ (1 : Int) 1 wideGrid (uadd a b) = 1 := by
  have h : uadd a b < 4294967296 := Nat.mod_lt _ (by decide)
  simp [surfaceZ, Heightmap.sample, wideGrid, h]

/-- In `wideGrid` every vertex of every triangle of `Mesh` has Z = 1. -/
theorem Mesh_wideGrid_z :
    ∀ f ∈ Mesh (1 : Int) 1 wideGrid, ∀ v ∈ f.vertices, v.z = 1 := by
  intro f hf v hv
  unfold Mesh at hf
  obtain ⟨row, -, hf⟩ := List.mem_flatMap.mp hf
  obtain ⟨col, -, hf⟩ := List.mem_flatMap.mp hf
  simp only [MeshCell, List.mem_cons, List.mem_singleton, List.not_mem_nil, or_false] at hf
  rcases hf with rfl | rfl <;>
    simp only [Facet.vertices, List.mem_cons, List.mem_singleton, List.not_mem_nil,
      or_false] at hv <;>
    rcases hv with rfl | rfl | rfl <;>
    exact surfaceZ_wideGrid_uadd _ _

/-- The end of a directed edge of a triangle is one of its vertices. -/
theorem edge_end_mem_vertices {α : Type} (f : Facet α) (u v : Vertex α)
    (h : (u, v) ∈ f.edges) : u ∈ f.vertices ∧ v ∈ f.vertices := by
  simp only [Facet.edges, List.mem_cons, List.mem_singleton, List.not_mem_nil, or_false,
    Prod.mk.injEq] at h
  simp only [Facet.vertices, List.mem_cons, List.mem_singleton, List.not_mem_nil, or_false]
  rcases h with ⟨rfl, rfl⟩ | ⟨rfl, rfl⟩ | ⟨rfl, rfl⟩ <;> simp

/-- In `wideGrid` no vertex of a triangle of `Walls` is the point `(1, H-1)` at
Z = 1: the south wall reads the sample at index `2^32` for it. -/
theorem Walls_wideGrid_vertex :
    ∀ f ∈ Walls (1 : Int) 1 wideGrid, ∀ v ∈ f.vertices,
      ¬ (v.x = 1 ∧ v.y = 1431655765 ∧ v.z = 1) := by
  intro f hf v hv
  have hwidth : usub wideGrid.width 1 = 2 := by decide
  unfold Walls at hf
  rw [hwidth] at hf
  rcases List.mem_append.mp hf with hf | hf
  · obtain ⟨col, hcol, hf⟩ := List.mem_flatMap.mp hf
    rw [List.mem_range] at hcol
    have hcases : col = 0 ∨ col = 1 := by omega
    rcases hcases with rfl | rfl <;>
      simp only [northWall, southWall, List.mem_append, List.mem_cons, List.mem_singleton,
        List.not_mem_nil, or_false] at hf <;>
      rcases hf with (rfl | rfl) | (rfl | rfl) <;>
      simp only [Facet.vertices, List.mem_cons, List.mem_singleton, List.not_mem_nil,
        or_false] at hv <;>
      rcases hv with rfl | rfl | rfl <;>
      simp [surfaceZ, zeroZ, Heightmap.sample, wideGrid, usub, uadd, umul, U32, U64]
  · obtain ⟨row, -, hf⟩ := List.mem_flatMap.mp hf
    simp only [westWall, eastWall, hwidth, List.mem_append, List.mem_cons, List.mem_singleton,
      List.not_mem_nil, or_false] at hf
    rcases hf with (rfl | rfl) | (rfl | rfl) <;>
      simp only [Facet.vertices, List.mem_cons, List.mem_singleton, List.not_mem_nil,
        or_false] at hv <;>
      rcases hv with rfl | rfl | rfl <;>
      simp

/-- C20, at the failing input: in `wideGrid` (3 columns, `2^32 + 2` samples)
take the border edge of the last row between `(0, H-1)` and `(1, H-1)`, whose
surface Z are 1 and 256.  `Mesh` reads the sample of `(1, H-1)` at the index
`2^32` wrapped to `0`, so no triangle of `Mesh` has that edge; the edge that
`Mesh` has there goes from `(0, H-1, 1)` to `(1, H-1, 1)`, and its reverse is an
edge of no triangle of `Walls`, whose south wall adds the column on 64 bits and
reads the same sample at index `2^32`. -/
theorem surface_leaves_walls_wideGrid :
    ¬ joinsAlong (Mesh (1 : Int) 1 wideGrid) (Walls (1 : Int) 1 wideGrid)
        (cornerSpec (1 : Int) 1 wideGrid 0 (wideGrid.height - 1))
        (cornerSpec (1 : Int) 1 wideGrid 1 (wideGrid.height - 1)) ∧
    (∃ f ∈ Mesh (1 : Int) 1 wideGrid,
      ((⟨0, 1431655765, 1⟩ : Vertex Int), (⟨1, 1431655765, 1⟩ : Vertex Int)) ∈ f.edges) ∧
    (∀ f ∈ Walls (1 : Int) 1 wideGrid,
      ((⟨1, 1431655765, 1⟩ : Vertex Int), (⟨0, 1431655765, 1⟩ : Vertex Int)) ∉ f.edges) := by
  refine ⟨?_, ?_, ?_⟩
  · rintro ⟨⟨l1, x, l2, hsplit, hx, -⟩, -⟩
    have hmem : x ∈ Mesh (1 : Int) 1 wideGrid := by
      rw [hsplit]; exact List.mem_append_right _ (List.mem_cons_self _ _)
    have hz := Mesh_wideGrid_z x hmem _ (edge_end_mem_vertices x _ _ hx).2
    simp [cornerSpec, Heightmap.sample, wideGrid] at hz
  · refine ⟨⟨⟨0, 1431655765, 1⟩, ⟨1, 1431655765, 1⟩, ⟨1, 1431655764, 1⟩⟩, ?_, ?_⟩
    · unfold Mesh
      refine List.mem_flatMap.mpr ⟨1431655764, List.mem_range.mpr (by decide),
        List.mem_flatMap.mpr ⟨0, List.mem_range.mpr (by decide), ?_⟩⟩
      simp only [MeshCell, surfaceZ_wideGrid_uadd, List.mem_cons, List.mem_singleton,
        List.not_mem_nil, or_false]
      right
      simp [uadd, U32]
    · simp [Facet.edges]
  · intro f hf he
    exact Walls_wideGrid_vertex f hf _ (edge_end_mem_vertices f _ _ he).1 ⟨rfl, rfl, rfl⟩

/-! ## Rounding to binary32 -/

/-- An integer is its own nearest integer. -/
theorem roundHalfEven_natCast (n : ℕ) : roundHalfEven (n : ℚ) = n := by
  simp [roundHalfEven]

/-- The nearest integer is at most one half above. -/
theorem roundHalfEven_le (y : ℚ) (hy : 0 ≤ y) : (roundHalfEven y : ℚ) ≤ y + 1 / 2 := by
  have h1 : (⌊y⌋₊ : ℚ) ≤ y := Nat.floor_le hy
  unfold roundHalfEven
  split_ifs <;> push_cast <;> linarith

/-- The nearest integer is at most one half below. -/
theorem le_roundHalfEven (y : ℚ) : y - 1 / 2 ≤ (roundHalfEven y : ℚ) := by
  have h2 : y < (⌊y⌋₊ : ℚ) + 1 := Nat.lt_floor_add_one y
  unfold roundHalfEven
  split_ifs <;> push_cast <;> linarith

/-- Rounding to the nearest integer is monotone. -/
theorem roundHalfEven_mono {x y : ℚ} (hx : 0 ≤ x) (hxy : x ≤ y) :
    roundHalfEven x ≤ roundHalfEven y := by
  rcases eq_or_lt_of_le hxy with rfl | hlt
  · exact le_rfl
  · have h1 := roundHalfEven_le x hx
    have h2 := le_roundHalfEven y
    have h3 : (roundHalfEven x : ℚ) < (roundHalfEven y : ℚ) + 1 := by linarith
    have h4 : roundHalfEven x < roundHalfEven y + 1 := by exact_mod_cast h3
    omega

/-- Rounding to 24 significant bits is monotone: within one spacing it is the
rounding to the nearest multiple, and between two spacings a power of two lies. -/
theorem roundUnits_mono {x y : ℚ} (hx : 0 ≤ x) (hxy : x ≤ y) :
    roundUnits x ≤ roundUnits y := by
  have hy : 0 ≤ y := hx.trans hxy
  have hL : Nat.log 2 ⌊x⌋₊ ≤ Nat.log 2 ⌊y⌋₊ := Nat.log_mono_right (Nat.floor_mono hxy)
  unfold roundUnits
  simp only
  rcases eq_or_lt_of_le (Nat.sub_le_sub_right hL 23) with hk | hk
  · rw [hk]
    apply Nat.mul_le_mul_right
    apply roundHalfEven_mono (by positivity)
    exact div_le_div_of_nonneg_right hxy (by positivity)
  · have hlt : Nat.log 2 ⌊x⌋₊ < Nat.log 2 ⌊y⌋₊ := by omega
    set Lx := Nat.log 2 ⌊x⌋₊ with hLx
    set Ly := Nat.log 2 ⌊y⌋₊ with hLy
    have hfy : ⌊y⌋₊ ≠ 0 := by
      intro h0
      rw [h0, Nat.log_zero_right] at hLy
      omega
    -- upper bound on the rounding of x
    have hxlt : x < 2 ^ (Lx + 1) := by
      have h1 : ⌊x⌋₊ < 2 ^ (Lx + 1) := Nat.lt_pow_succ_log_self (by norm_num) _
      have h2 : x < (⌊x⌋₊ : ℚ) + 1 := Nat.lt_floor_add_one x
      have h3 : ((⌊x⌋₊ + 1 : ℕ) : ℚ) ≤ ((2 ^ (Lx + 1) : ℕ) : ℚ) := by exact_mod_cast h1
      push_cast at h3
      linarith
    have hkx : Lx - 23 ≤ Lx + 1 := by omega
    have hux : roundHalfEven (x / 2 ^ (Lx - 23)) ≤ 2 ^ (Lx + 1 - (Lx - 23)) := by
      have h1 : x / 2 ^ (Lx - 23) ≤ ((2 ^ (Lx + 1 - (Lx - 23)) : ℕ) : ℚ) := by
        rw [div_le_iff₀ (by positivity)]
        push_cast
        rw [← pow_add, Nat.sub_add_cancel hkx]
        exact hxlt.le
      have h2 := roundHalfEven_mono (by positivity) h1
      rwa [roundHalfEven_natCast] at h2
    have hupper : roundHalfEven (x / 2 ^ (Lx - 23)) * 2 ^ (Lx - 23) ≤ 2 ^ (Lx + 1) := by
      calc roundHalfEven (x / 2 ^ (Lx - 23)) * 2 ^ (Lx - 23)
          ≤ 2 ^ (Lx + 1 - (Lx - 23)) * 2 ^ (Lx - 23) := Nat.mul_le_mul_right _ hux
        _ = 2 ^ (Lx + 1) := by rw [← pow_add, Nat.sub_add_cancel hkx]
    -- lower bound on the rounding of y
    have hyge : ((2 ^ Ly : ℕ) : ℚ) ≤ y := by
      have h1 : 2 ^ Ly ≤ ⌊y⌋₊ := Nat.pow_log_le_self 2 hfy
      have h2 : (⌊y⌋₊ : ℚ) ≤ y := Nat.floor_le hy
      have h3 : ((2 ^ Ly : ℕ) : ℚ) ≤ (⌊y⌋₊ : ℚ) := by exact_mod_cast h1
      linarith
    have hky : Ly - 23 ≤ Ly := by omega
    have hly : 2 ^ (Ly - (Ly - 23)) ≤ roundHalfEven (y / 2 ^ (Ly - 23)) := by
      have h1 : ((2 ^ (Ly - (Ly - 23)) : ℕ) : ℚ) ≤ y / 2 ^ (Ly - 23) := by
        rw [le_div_iff₀ (by positivity)]
        push_cast at hyge ⊢
        rw [← pow_add, Nat.sub_add_cancel hky]
        exact hyge
      have h2 := roundHalfEven_mono (by positivity) h1
      rwa [roundHalfEven_natCast] at h2
    have hlower : 2 ^ Ly ≤ roundHalfEven (y / 2 ^ (Ly - 23)) * 2 ^ (Ly - 23) := by
      calc 2 ^ Ly = 2 ^ (Ly - (Ly - 23)) * 2 ^ (Ly - 23) := by
            rw [← pow_add, Nat.sub_add_cancel hky]
        _ ≤ roundHalfEven (y / 2 ^ (Ly - 23)) * 2 ^ (Ly - 23) := Nat.mul_le_mul_right _ hly
    have hpow : 2 ^ (Lx + 1) ≤ 2 ^ Ly := Nat.pow_le_pow_right (by norm_num) hlt
    omega

/-- A magnitude of at most 24 significant bits is left unchanged. -/
theorem roundUnits_exact (m j : ℕ) (hm : m < 2 ^ 24) :
    roundUnits ((m * 2 ^ j : ℕ) : ℚ) = m * 2 ^ j := by
  unfold roundUnits
  simp only [Nat.floor_natCast]
  have hk : Nat.log 2 (m * 2 ^ j) - 23 ≤ j := by
    rcases Nat.eq_zero_or_pos m with rfl | hpos
    · simp
    · have h1 : m * 2 ^ j < 2 ^ (24 + j) := by
        rw [pow_add]
        exact Nat.mul_lt_mul_of_pos_right hm (by positivity)
      have h2 : Nat.log 2 (m * 2 ^ j) < 24 + j := Nat.log_lt_of_lt_pow (by positivity) h1
      omega
  have hdvd : 2 ^ (Nat.log 2 (m * 2 ^ j) - 23) ∣ m * 2 ^ j :=
    Dvd.dvd.mul_left (pow_dvd_pow 2 hk) m
  obtain ⟨c, hc⟩ := hdvd
  set k := Nat.log 2 (m * 2 ^ j) - 23 with hkdef
  have hq : (((m * 2 ^ j : ℕ) : ℚ)) / 2 ^ k = (c : ℚ) := by
    rw [hc]
    push_cast
    field_simp
  rw [hq, roundHalfEven_natCast, hc, Nat.mul_comm]

/-- The rounding of a number that is not negative, unfolded. -/
theorem F32.round_of_nonneg {q : ℚ} (hq : 0 ≤ q) :
    F32.round q = if (2 : ℚ) ^ 128 ≤ (roundUnits (q * 2 ^ 149) : ℚ) / 2 ^ 149 then F32.inf false
      else F32.fin ((roundUnits (q * 2 ^ 149) : ℚ) / 2 ^ 149) := by
  unfold F32.round F32.roundMag
  rw [if_neg (not_lt.mpr hq)]
  simp only
  split_ifs <;> rfl

/-- Rounding to binary32 is monotone on the numbers that are not negative, as
the comparison of `float` sees it. -/
theorem F32.round_mono {x y : ℚ} (hx : 0 ≤ x) (hxy : x ≤ y) :
    F32.le (F32.round x) (F32.round y) = true := by
  have hm : roundUnits (x * 2 ^ 149) ≤ roundUnits (y * 2 ^ 149) :=
    roundUnits_mono (by positivity) (mul_le_mul_of_nonneg_right hxy (by positivity))
  have hq : (roundUnits (x * 2 ^ 149) : ℚ) / 2 ^ 149 ≤ (roundUnits (y * 2 ^ 149) : ℚ) / 2 ^ 149 :=
    div_le_div_of_nonneg_right (by exact_mod_cast hm) (by positivity)
  rw [F32.round_of_nonneg hx, F32.round_of_nonneg (hx.trans hxy)]
  split_ifs with h1 h2 h2
  · rfl
  · exact absurd (h1.trans hq) h2
  · rfl
  · simpa only [F32.le, decide_eq_true_eq] using hq

/-- A number of at most 24 significant bits, a multiple of `2^-149` and below
`2^128`, is a binary32 value. -/
theorem F32.round_exact (m j : ℕ) (hm : m < 2 ^ 24)
    (hj : ((m * 2 ^ j : ℕ) : ℚ) / 2 ^ 149 < 2 ^ 128) :
    F32.round (((m * 2 ^ j : ℕ) : ℚ) / 2 ^ 149) = F32.fin (((m * 2 ^ j : ℕ) : ℚ) / 2 ^ 149) := by
  rw [F32.round_of_nonneg (div_nonneg (Nat.cast_nonneg _) (pow_nonneg (by norm_num) _))]
  rw [div_mul_cancel₀ _ (pow_ne_zero _ (by norm_num)), roundUnits_exact m j hm,
    if_neg (not_le.mpr hj)]

/-- Cancelling a power of two under a cast. -/
theorem natCast_mul_pow_div (n j : ℕ) : (((n * 2 ^ j : ℕ) : ℚ)) / 2 ^ j = (n : ℚ) := by
  push_cast
  exact mul_div_cancel_right₀ _ (by positivity)

/-- The integers up to `2^24` are binary32 values. -/
theorem F32.round_natCast {n : ℕ} (hn : n ≤ 2 ^ 24) : F32.round (n : ℚ) = F32.fin n := by
  have hlt : (n : ℚ) < 2 ^ 128 := by
    have h1 : (n : ℚ) ≤ ((2 ^ 24 : ℕ) : ℚ) := Nat.cast_le.mpr hn
    have h2 : (((2 ^ 24 : ℕ) : ℚ)) < 2 ^ 128 := by norm_num
    exact lt_of_le_of_lt h1 h2
  rcases Nat.lt_or_ge n (2 ^ 24) with h | h
  · have h2 : (((n * 2 ^ 149 : ℕ) : ℚ)) / 2 ^ 149 = (n : ℚ) := natCast_mul_pow_div n 149
    have h1 := F32.round_exact n 149 h (by rw [h2]; exact hlt)
    rwa [h2] at h1
  · have hn' : n = 2 ^ 24 := le_antisymm hn h
    subst hn'
    have h2 : (((1 * 2 ^ 173 : ℕ) : ℚ)) / 2 ^ 149 = ((2 ^ 24 : ℕ) : ℚ) := by
      norm_num
    have h1 := F32.round_exact 1 173 (by norm_num) (by rw [h2]; exact hlt)
    rwa [h2] at h1

/-- The conversion of an unsigned integer is the rounding of its value. -/
theorem F32.natCast_def (n : ℕ) : ((n : ℕ) : F32) = F32.round (n : ℚ) := rfl

/-- The conversion of an unsigned integer up to `2^24` is exact. -/
theorem F32.natCast_of_le {n : ℕ} (hn : n ≤ 16777216) : ((n : ℕ) : F32) = F32.fin n :=
  F32.round_natCast (hn.trans (by norm_num))

/-- The sum of two `float`, unfolded. -/
theorem F32.add_def (a b : F32) : a + b = F32.add a b := rfl

/-- The product of two `float`, unfolded. -/
theorem F32.mul_def (a b : F32) : a * b = F32.mul a b := rfl

/-- The tie at `8388608.5` goes to the even `8388608`. -/
theorem roundHalfEven_half_odd : roundHalfEven ((16777217 : ℚ) / 2) = 8388608 := by
  have hf : ⌊(16777217 : ℚ) / 2⌋₊ = 8388608 := by
    rw [Nat.floor_eq_iff (by norm_num)]
    norm_num
  unfold roundHalfEven
  rw [hf]
  norm_num

/-- The cast of a multiple of a power of two. -/
theorem natCast_mul_pow (n p : ℕ) : ((n * 2 ^ p : ℕ) : ℚ) = (n : ℚ) * 2 ^ p := by
  push_cast
  rfl

/-- Rounding of an integer of `e + 25` bits scaled by `2^p`: it is rounded to
a multiple of `2^(e+1)`. -/
theorem roundUnits_binade (n e p : ℕ) (h1 : 2 ^ (e + 24) ≤ n) (h2 : n < 2 ^ (e + 25)) :
    roundUnits ((n : ℚ) * 2 ^ p) =
      roundHalfEven ((n : ℚ) / 2 ^ (e + 1)) * 2 ^ (e + 1) * 2 ^ p := by
  have hlog : Nat.log 2 (n * 2 ^ p) = e + 24 + p := by
    rw [Nat.log_eq_iff (Or.inl (by omega))]
    constructor
    · calc 2 ^ (e + 24 + p) = 2 ^ (e + 24) * 2 ^ p := by rw [← pow_add]
        _ ≤ n * 2 ^ p := Nat.mul_le_mul_right _ h1
    · calc n * 2 ^ p < 2 ^ (e + 25) * 2 ^ p :=
            Nat.mul_lt_mul_of_pos_right h2 (by positivity)
        _ = 2 ^ (e + 24 + p + 1) := by rw [← pow_add]; congr 1; omega
  have hk : e + 24 + p - 23 = e + 1 + p := by omega
  have hdiv : (n : ℚ) * 2 ^ p / 2 ^ (e + 1 + p) = (n : ℚ) / 2 ^ (e + 1) := by
    rw [pow_add, mul_div_mul_right _ _ (by positivity)]
  unfold roundUnits
  simp only
  rw [← natCast_mul_pow, Nat.floor_natCast, hlog, hk, natCast_mul_pow, hdiv,
    pow_add (2 : ℕ) (e + 1) p, Nat.mul_assoc]

/-- A power of two is its own nearest integer. -/
theorem roundHalfEven_pow (j : ℕ) : roundHalfEven ((2 : ℚ) ^ j) = 2 ^ j := by
  have h := roundHalfEven_natCast (2 ^ j)
  rwa [Nat.cast_pow, Nat.cast_ofNat] at h

/-- A bound on the nearest integer of a quotient by a power of two. -/
theorem roundHalfEven_le_pow (n c a : ℕ) (h2 : n < 2 ^ (c + a)) :
    roundHalfEven ((n : ℚ) / 2 ^ c) ≤ 2 ^ a := by
  have h3 : (n : ℚ) / 2 ^ c ≤ (2 : ℚ) ^ a := by
    rw [div_le_iff₀ (by positivity), ← pow_add, Nat.add_comm]
    exact_mod_cast h2.le
  have h5 := roundHalfEven_mono (by positivity) h3
  rwa [roundHalfEven_pow] at h5

/-- The conversion of an integer of `e + 25` bits (with `e + 25 < 128`): the
nearest multiple of `2^(e+1)`, ties to the even multiple. -/
theorem F32.round_binade (n e : ℕ) (h1 : 2 ^ (e + 24) ≤ n) (h2 : n < 2 ^ (e + 25))
    (he : e + 25 < 128) :
    F32.round (n : ℚ) =
      F32.fin ((roundHalfEven ((n : ℚ) / 2 ^ (e + 1)) * 2 ^ (e + 1) : ℕ) : ℚ) := by
  have hle := roundHalfEven_le_pow n (e + 1) 24 (by
    have : e + 1 + 24 = e + 25 := by omega
    rw [this]; exact h2)
  have hval : ((roundHalfEven ((n : ℚ) / 2 ^ (e + 1)) * 2 ^ (e + 1) * 2 ^ 149 : ℕ) : ℚ) / 2 ^ 149
      = ((roundHalfEven ((n : ℚ) / 2 ^ (e + 1)) * 2 ^ (e + 1) : ℕ) : ℚ) :=
    natCast_mul_pow_div _ 149
  have hno : ¬ (2 : ℚ) ^ 128 ≤
      ((roundHalfEven ((n : ℚ) / 2 ^ (e + 1)) * 2 ^ (e + 1) : ℕ) : ℚ) := by
    have h6 : roundHalfEven ((n : ℚ) / 2 ^ (e + 1)) * 2 ^ (e + 1) ≤ 2 ^ 24 * 2 ^ (e + 1) :=
      Nat.mul_le_mul_right _ hle
    have h7 : 2 ^ 24 * 2 ^ (e + 1) < 2 ^ 128 := by
      rw [← pow_add]
      apply Nat.pow_lt_pow_of_lt (by norm_num)
      omega
    have h8 : ((roundHalfEven ((n : ℚ) / 2 ^ (e + 1)) * 2 ^ (e + 1) : ℕ) : ℚ)
        < ((2 ^ 128 : ℕ) : ℚ) := Nat.cast_lt.mpr (lt_of_le_of_lt h6 h7)
    rw [Nat.cast_pow, Nat.cast_ofNat] at h8
    exact not_le.mpr h8
  rw [F32.round_of_nonneg (Nat.cast_nonneg n), roundUnits_binade n e 149 h1 h2, hval, if_neg hno]

/-- The integer `2^24 + 1` is converted to `2^24`. -/
theorem F32.natCast_16777217 : ((16777217 : ℕ) : F32) = F32.fin 16777216 := by
  rw [F32.natCast_def, F32.round_binade 16777217 0 (by norm_num) (by norm_num) (by norm_num)]
  have h : ((16777217 : ℕ) : ℚ) / 2 ^ (0 + 1) = (16777217 : ℚ) / 2 := by norm_num
  rw [h, roundHalfEven_half_odd]
  norm_num

/-- The tie at `8388609.5` goes to the even `8388610`. -/
theorem roundHalfEven_half_odd_up : roundHalfEven ((16777219 : ℚ) / 2) = 8388610 := by
  have hf : ⌊(16777219 : ℚ) / 2⌋₊ = 8388609 := by
    rw [Nat.floor_eq_iff (by norm_num)]
    norm_num
  unfold roundHalfEven
  rw [hf]
  norm_num

/-- The integer `2^24 + 3` is converted to `2^24 + 4`. -/
theorem F32.natCast_16777219 : ((16777219 : ℕ) : F32) = F32.fin 16777220 := by
  rw [F32.natCast_def, F32.round_binade 16777219 0 (by norm_num) (by norm_num) (by norm_num)]
  have h : ((16777219 : ℕ) : ℚ) / 2 ^ (0 + 1) = (16777219 : ℚ) / 2 := by norm_num
  rw [h, roundHalfEven_half_odd_up]
  norm_num

/-- The integer `0` is converted to `0`. -/
theorem F32.natCast_zero : ((0 : ℕ) : F32) = F32.fin 0 := by
  have h := F32.natCast_of_le (Nat.zero_le 16777216)
  rwa [Nat.cast_zero] at h

/-- The literal `0` passed for a `float` parameter is the `float` zero. -/
theorem zeroZ_F32 : (zeroZ : F32) = F32.fin 0 := F32.natCast_zero

/-! ## The Y-flip of Triangle -/

/-- The line of the first vertex of a call is among the lines written. -/
theorem v1_mem_emit {α : Type} [NatCast α] (hm : Heightmap) (fs : List (Facet α))
    (f : Facet α) (hf : f ∈ fs) :
    Line.vertex (f.v1.x : α) ((usub hm.height f.v1.y : Nat) : α) f.v1.z ∈ emit hm fs := by
  refine List.mem_flatMap.mpr ⟨f, hf, ?_⟩
  simp [Triangle]

/-- C9 (amended): on a grid of height at most `2^24`, for every vertex passed to
`Triangle` with raw row `y <= height` and `x <= 2^24`, the Y written is
`height - y`, the X written is `x` and Z is written as passed; row `height - 1`
is written as Y = 1 and row `0` as Y = `height`; and for a grid with
`1 <= H <= 2^24` every Y written by `HeightmapToSTL` is an integer between 1 and
`H` (the unsigned subtraction never wraps, and the conversion to `float` is
exact up to `2^24`). -/
theorem Triangle_flips_rows (OUTPUT : Option String) (fopen : String → Bool)
    (ZOFFSET ZSCALE : F32) (hm : Heightmap)
    (hH : 1 ≤ hm.height) (hH24 : hm.height ≤ 16777216) :
    (∀ f : Facet F32, f.v1.y ≤ hm.height → f.v2.y ≤ hm.height → f.v3.y ≤ hm.height →
      f.v1.x ≤ 16777216 → f.v2.x ≤ 16777216 → f.v3.x ≤ 16777216 →
      Triangle hm f =
        [ Line.text "facet normal 0 0 0",
          Line.text "outer loop",
          Line.vertex (F32.fin f.v1.x) (F32.fin ((hm.height - f.v1.y : Nat) : ℚ)) f.v1.z,
          Line.vertex (F32.fin f.v2.x) (F32.fin ((hm.height - f.v2.y : Nat) : ℚ)) f.v2.z,
          Line.vertex (F32.fin f.v3.x) (F32.fin ((hm.height - f.v3.y : Nat) : ℚ)) f.v3.z,
          Line.text "endloop",
          Line.text "endfacet" ]) ∧
    (((usub hm.height (hm.height - 1) : Nat) : F32) = F32.fin 1 ∧
      ((usub hm.height 0 : Nat) : F32) = F32.fin hm.height) ∧
    (∀ x y z : F32,
      Line.vertex x y z ∈ (HeightmapToSTL OUTPUT fopen ZOFFSET ZSCALE hm).2 →
        ∃ n : Nat, 1 ≤ n ∧ n ≤ hm.height ∧ y = F32.fin n) := by
  have hHlt : hm.height < U32 := by simp only [U32]; omega
  refine ⟨?_, ⟨?_, ?_⟩, ?_⟩
  · intro f h1 h2 h3 hx1 hx2 hx3
    simp only [Triangle, usub_of_le h1 hHlt, usub_of_le h2 hHlt, usub_of_le h3 hHlt]
    rw [F32.natCast_of_le hx1, F32.natCast_of_le hx2, F32.natCast_of_le hx3,
      F32.natCast_of_le (n := hm.height - f.v1.y) (by omega),
      F32.natCast_of_le (n := hm.height - f.v2.y) (by omega),
      F32.natCast_of_le (n := hm.height - f.v3.y) (by omega)]
  · rw [usub_of_le (by omega) hHlt, F32.natCast_of_le (by omega)]
    have h : hm.height - (hm.height - 1) = 1 := by omega
    rw [h, Nat.cast_one]
  · rw [usub_of_le (by omega) hHlt, F32.natCast_of_le (by omega)]
    rfl
  · intro x y z hl
    have hrows : ∀ fs : List (Facet F32), (∀ f ∈ fs, ∀ v ∈ f.vertices, v.y < hm.height) →
        Line.vertex x y z ∈ emit hm fs → ∃ n : Nat, 1 ≤ n ∧ n ≤ hm.height ∧ y = F32.fin n := by
      intro fs hfs hmem
      obtain ⟨f, hf, v, hv, -, hy, -⟩ := vertex_of_mem_emit hm fs x y z hmem
      have hlt := hfs f hf v hv
      refine ⟨hm.height - v.y, by omega, by omega, ?_⟩
      rw [hy, usub_of_le (by omega) hHlt, F32.natCast_of_le (by omega)]
    unfold HeightmapToSTL at hl
    split at hl
    · simp only [List.mem_append, List.mem_singleton, reduceCtorEq, false_or, or_false] at hl
      rcases hl with (hl | hl) | hl
      · exact hrows _ (Mesh_rows_lt ZOFFSET ZSCALE hm hH hHlt) hl
      · exact hrows _ (Walls_rows_lt ZOFFSET ZSCALE hm hH hHlt) hl
      · exact hrows _ (Bottom_rows_lt hm hH hHlt) hl
    · simp at hl

/-- C9, witness: the 2 x 2 grid written to the standard output, with scale 1
and offset 1. -/
theorem Triangle_flips_rows_witness :
    1 ≤ grid22.height ∧ grid22.height ≤ 16777216 ∧
    ((∀ f : Facet F32, f.v1.y ≤ grid22.height → f.v2.y ≤ grid22.height →
        f.v3.y ≤ grid22.height →
        f.v1.x ≤ 16777216 → f.v2.x ≤ 16777216 → f.v3.x ≤ 16777216 →
      Triangle grid22 f =
        [ Line.text "facet normal 0 0 0",
          Line.text "outer loop",
          Line.vertex (F32.fin f.v1.x) (F32.fin ((grid22.height - f.v1.y : Nat) : ℚ)) f.v1.z,
          Line.vertex (F32.fin f.v2.x) (F32.fin ((grid22.height - f.v2.y : Nat) : ℚ)) f.v2.z,
          Line.vertex (F32.fin f.v3.x) (F32.fin ((grid22.height - f.v3.y : Nat) : ℚ)) f.v3.z,
          Line.text "endloop",
          Line.text "endfacet" ]) ∧
    (((usub grid22.height (grid22.height - 1) : Nat) : F32) = F32.fin 1 ∧
      ((usub grid22.height 0 : Nat) : F32) = F32.fin grid22.height) ∧
    (∀ x y z : F32,
      Line.vertex x y z ∈
          (HeightmapToSTL none (fun _ => false) (F32.fin 1) (F32.fin 1) grid22).2 →
        ∃ n : Nat, 1 ≤ n ∧ n ≤ grid22.height ∧ y = F32.fin n)) :=
  ⟨by decide, by decide,
    Triangle_flips_rows none (fun _ => false) (F32.fin 1) (F32.fin 1) grid22 (by decide)
      (by decide)⟩

/-- C9 as stated fails.  In the grid of 2 columns and `2^24 + 1` rows the Y
written for row `0` is `16777216`, which is not the height and is also the Y
written for row `1`; the line of the corner `(0, 0)` of the base is among the
lines written.  In the grid of `2^24 + 3` rows the Y written for row `0` is
`16777220`, above the height, so outside `[1, H]`. -/
theorem Triangle_row0_gridTall24 :
    ((usub gridTall24.height 0 : Nat) : F32) = F32.fin 16777216 ∧
    ((usub gridTall24.height 1 : Nat) : F32) = F32.fin 16777216 ∧
    F32.fin 16777216 ≠ F32.fin (gridTall24.height : ℚ) ∧
    Line.vertex (F32.fin 0) (F32.fin 16777216) (F32.fin 0) ∈
      (HeightmapToSTL none (fun _ => true) (F32.fin 1) (F32.fin 1) gridTall24).2 ∧
    Line.vertex (F32.fin 0) (F32.fin 16777220) (F32.fin 0) ∈
      (HeightmapToSTL none (fun _ => true) (F32.fin 1) (F32.fin 1) gridTall24b).2 ∧
    ¬ ∃ n : Nat, 1 ≤ n ∧ n ≤ gridTall24b.height ∧ F32.fin 16777220 = F32.fin n := by
  have h0 : usub 16777217 0 = 16777217 := by decide
  have h1 : usub 16777217 1 = 16777216 := by decide
  have h0b : usub 16777219 0 = 16777219 := by decide
  have hmem : ∀ hm : Heightmap,
      Line.vertex ((0 : Nat) : F32) ((usub hm.height 0 : Nat) : F32) (zeroZ : F32) ∈
        (HeightmapToSTL none (fun _ => true) (F32.fin 1) (F32.fin 1) hm).2 := by
    intro hm
    have hb := v1_mem_emit hm (Bottom hm : List (Facet F32)) _ (List.mem_cons_self _ _)
    simp only [HeightmapToSTL, if_true]
    exact List.mem_append_left _ (List.mem_append_right _ hb)
  refine ⟨?_, ?_, ?_, ?_, ?_, ?_⟩
  · show ((usub 16777217 0 : Nat) : F32) = F32.fin 16777216
    rw [h0, F32.natCast_16777217]
  · show ((usub 16777217 1 : Nat) : F32) = F32.fin 16777216
    rw [h1, F32.natCast_of_le (le_refl _)]
    norm_num
  · show F32.fin 16777216 ≠ F32.fin ((16777217 : Nat) : ℚ)
    intro h
    injection h with h
    norm_num at h
  · have h := hmem gridTall24
    have hy : ((usub gridTall24.height 0 : Nat) : F32) = F32.fin 16777216 := by
      show ((usub 16777217 0 : Nat) : F32) = F32.fin 16777216
      rw [h0, F32.natCast_16777217]
    rwa [hy, zeroZ_F32, F32.natCast_zero] at h
  · have h := hmem gridTall24b
    have hy : ((usub gridTall24b.height 0 : Nat) : F32) = F32.fin 16777220 := by
      show ((usub 16777219 0 : Nat) : F32) = F32.fin 16777220
      rw [h0b, F32.natCast_16777219]
    rwa [hy, zeroZ_F32, F32.natCast_zero] at h
  · rintro ⟨n, -, hn, h⟩
    injection h with h
    have hn' : n ≤ 16777219 := hn
    have h2 : ((16777220 : Nat) : ℚ) = (n : ℚ) := by exact_mod_cast h
    have h3 : 16777220 = n := Nat.cast_injective h2
    omega

/-! ## The normals of the surface and of the base -/

/-- The integer `2^32` is a binary32 value. -/
theorem F32.round_two_pow_32 : F32.round ((4294967296 : ℕ) : ℚ) = F32.fin 4294967296 := by
  have h2 : (((1 * 2 ^ 181 : ℕ) : ℚ)) / 2 ^ 149 = ((4294967296 : ℕ) : ℚ) := by norm_num
  have h1 := F32.round_exact 1 181 (by norm_num) (by rw [h2]; norm_num)
  rw [h2] at h1
  rw [h1]
  norm_num

/-- The conversion of an unsigned integer is finite, and it is at least any
integer up to `2^24` that the integer is at least. -/
theorem F32.natCast_ge {a n : ℕ} (ha : a ≤ 16777216) (han : a ≤ n) (hn : n < U32) :
    ∃ q : ℚ, ((n : ℕ) : F32) = F32.fin q ∧ (a : ℚ) ≤ q := by
  have h1 : F32.le (F32.round (a : ℚ)) (F32.round (n : ℚ)) = true :=
    F32.round_mono (Nat.cast_nonneg a) (Nat.cast_le.mpr han)
  have h2 : F32.le (F32.round (n : ℚ)) (F32.round ((4294967296 : ℕ) : ℚ)) = true :=
    F32.round_mono (Nat.cast_nonneg n) (Nat.cast_le.mpr (by simp only [U32] at hn; omega))
  rw [F32.round_natCast (ha.trans (by norm_num))] at h1
  rw [F32.round_two_pow_32] at h2
  rw [F32.natCast_def]
  cases hr : F32.round (n : ℚ) with
  | fin q =>
    rw [hr] at h1
    exact ⟨q, rfl, by simpa [F32.le] using h1⟩
  | inf s =>
    rw [hr] at h1 h2
    cases s <;> simp [F32.le] at h1 h2
  | nan =>
    rw [hr] at h1
    simp [F32.le] at h1

/-- The X and Y written for a vertex whose column and flipped row are at most
`2^24`. -/
theorem writtenXY_eq (hm : Heightmap) (v : Vertex F32)
    (hx : v.x ≤ 16777216) (hy : usub hm.height v.y ≤ 16777216) :
    writtenXY hm v = some ((v.x : ℚ), ((usub hm.height v.y : ℕ) : ℚ)) := by
  simp only [writtenXY, emitted, F32.natCast_of_le hx, F32.natCast_of_le hy, F32.toRat]

/-- On a grid of at most `2^24 + 1` columns and `2^24` rows, the normal of each
of the two triangles of a cell has Z component 1. -/
theorem MeshCell_normalZ (ZOFFSET ZSCALE : F32) (hm : Heightmap) (row col : Nat)
    (hW24 : hm.width ≤ 16777217) (hH24 : hm.height ≤ 16777216)
    (hrow : row + 1 < hm.height) (hcol : col + 1 < hm.width) :
    ∀ f ∈ MeshCell ZOFFSET ZSCALE hm row col, normalZ hm f = some 1 := by
  have hHlt : hm.height < U32 := by simp only [U32]; omega
  have hr1 : uadd row 1 = row + 1 := uadd_of_lt (by simp only [U32]; omega)
  have hc1 : uadd col 1 = col + 1 := uadd_of_lt (by simp only [U32]; omega)
  obtain ⟨k, hk⟩ : ∃ k, hm.height = k + (row + 1) := ⟨hm.height - (row + 1), by omega⟩
  have hy0 : usub hm.height row = k + 1 := by rw [usub_of_le (by omega) hHlt]; omega
  have hy1 : usub hm.height (row + 1) = k := by rw [usub_of_le (by omega) hHlt]; omega
  intro f hf
  simp only [MeshCell, hr1, hc1, List.mem_cons, List.mem_singleton, List.not_mem_nil,
    or_false] at hf
  rcases hf with rfl | rfl
  · rw [normalZ, writtenXY_eq hm _ (by dsimp only; omega) (by dsimp only; omega),
      writtenXY_eq hm _ (by dsimp only; omega) (by dsimp only; omega),
      writtenXY_eq hm _ (by dsimp only; omega) (by dsimp only; omega)]
    simp only [hy0, hy1]
    push_cast
    congr 1
    ring
  · rw [normalZ, writtenXY_eq hm _ (by dsimp only; omega) (by dsimp only; omega),
      writtenXY_eq hm _ (by dsimp only; omega) (by dsimp only; omega),
      writtenXY_eq hm _ (by dsimp only; omega) (by dsimp only; omega)]
    simp only [hy0, hy1]
    push_cast
    congr 1
    ring

/-- The X and Y written for a vertex whose two conversions are known. -/
theorem writtenXY_of_fin (hm : Heightmap) (v : Vertex F32) (qx qy : ℚ)
    (hx : ((v.x : ℕ) : F32) = F32.fin qx)
    (hy : ((usub hm.height v.y : ℕ) : F32) = F32.fin qy) :
    writtenXY hm v = some (qx, qy) := by
  simp only [writtenXY, emitted, hx, hy, F32.toRat]

/-- The Z component of the normal of a triangle whose three written `(X, Y)` are
known. -/
theorem normalZ_of_XY (hm : Heightmap) (f : Facet F32) (p1 p2 p3 : ℚ × ℚ)
    (h1 : writtenXY hm f.v1 = some p1) (h2 : writtenXY hm f.v2 = some p2)
    (h3 : writtenXY hm f.v3 = some p3) :
    normalZ hm f = some ((p2.1 - p1.1) * (p3.2 - p1.2) - (p2.2 - p1.2) * (p3.1 - p1.1)) := by
  rw [normalZ, h1, h2, h3]

/-- C18 (amended): for every grid with `W >= 2` and `H >= 2` and any samples,
scale and offset, when the grid has at most `2^24 + 1` columns and `2^24` rows
the right-hand-rule normal of every triangle of `Mesh`, taken on the written
(Y-flipped) coordinates, has a strictly positive Z component; and the normal of
both triangles of `Bottom` has a strictly negative Z component (for every width
and height that an `unsigned int` holds). -/
theorem Mesh_up_Bottom_down (ZOFFSET ZSCALE : F32) (hm : Heightmap)
    (hW : 2 ≤ hm.width) (hH : 2 ≤ hm.height)
    (hWlt : hm.width < U32) (hHlt : hm.height < U32) :
    (hm.width ≤ 16777217 → hm.height ≤ 16777216 →
      ∀ f ∈ Mesh ZOFFSET ZSCALE hm, ∃ n : ℚ, normalZ hm f = some n ∧ 0 < n) ∧
    (∀ f ∈ (Bottom hm : List (Facet F32)), ∃ n : ℚ, normalZ hm f = some n ∧ n < 0) := by
  constructor
  · intro hW24 hH24 f hf
    unfold Mesh at hf
    rw [usub_one (by omega) hWlt, usub_one (by omega) hHlt] at hf
    obtain ⟨row, hrow, hf⟩ := List.mem_flatMap.mp hf
    obtain ⟨col, hcol, hf⟩ := List.mem_flatMap.mp hf
    rw [List.mem_range] at hrow hcol
    exact ⟨1, MeshCell_normalZ ZOFFSET ZSCALE hm row col hW24 hH24 (by omega) (by omega) f hf,
      one_pos⟩
  · intro f hf
    have hr : usub hm.width 1 = hm.width - 1 := usub_one (by omega) hWlt
    have hb : usub hm.height 1 = hm.height - 1 := usub_one (by omega) hHlt
    have hy0 : usub hm.height 0 = hm.height := usub_of_le (Nat.zero_le _) hHlt
    have hy1 : usub hm.height (hm.height - 1) = 1 := by
      rw [usub_of_le (by omega) hHlt]; omega
    obtain ⟨qx, hqx, hx1⟩ := F32.natCast_ge (a := 1) (n := hm.width - 1) (by norm_num)
      (by omega) (by simp only [U32] at *; omega)
    obtain ⟨qh, hqh, hh2⟩ := F32.natCast_ge (a := 2) (n := hm.height) (by norm_num) hH hHlt
    have h1 : ((1 : ℕ) : F32) = F32.fin 1 := by
      have h := F32.natCast_of_le (n := 1) (by norm_num)
      rwa [Nat.cast_one] at h
    have h0 : ((0 : ℕ) : F32) = F32.fin 0 := F32.natCast_zero
    have hyH : ((usub hm.height 0 : ℕ) : F32) = F32.fin qh := by rw [hy0]; exact hqh
    have hyB : ((usub hm.height (hm.height - 1) : ℕ) : F32) = F32.fin 1 := by
      rw [hy1]; exact h1
    have hneg : qx * (1 - qh) < 0 := by
      push_cast at hx1 hh2
      exact mul_neg_of_pos_of_neg (by linarith) (by linarith)
    have p00 : writtenXY hm (⟨0, 0, zeroZ⟩ : Vertex F32) = some (0, qh) :=
      writtenXY_of_fin hm ⟨0, 0, zeroZ⟩ 0 qh h0 hyH
    have pW0 : writtenXY hm (⟨hm.width - 1, 0, zeroZ⟩ : Vertex F32) = some (qx, qh) :=
      writtenXY_of_fin hm ⟨hm.width - 1, 0, zeroZ⟩ qx qh hqx hyH
    have p0H : writtenXY hm (⟨0, hm.height - 1, zeroZ⟩ : Vertex F32) = some (0, 1) :=
      writtenXY_of_fin hm ⟨0, hm.height - 1, zeroZ⟩ 0 1 h0 hyB
    have pWH : writtenXY hm (⟨hm.width - 1, hm.height - 1, zeroZ⟩ : Vertex F32)
        = some (qx, 1) :=
      writtenXY_of_fin hm ⟨hm.width - 1, hm.height - 1, zeroZ⟩ qx 1 hqx hyB
    simp only [Bottom, hr, hb, List.mem_cons, List.mem_singleton, List.not_mem_nil,
      or_false] at hf
    rcases hf with rfl | rfl
    · refine ⟨qx * (1 - qh), ?_, hneg⟩
      rw [normalZ_of_XY hm
        ⟨⟨0, 0, zeroZ⟩, ⟨hm.width - 1, 0, zeroZ⟩, ⟨0, hm.height - 1, zeroZ⟩⟩
        (0, qh) (qx, qh) (0, 1) p00 pW0 p0H]
      exact congrArg some (by ring)
    · refine ⟨qx * (1 - qh), ?_, hneg⟩
      rw [normalZ_of_XY hm
        ⟨⟨hm.width - 1, 0, zeroZ⟩, ⟨hm.width - 1, hm.height - 1, zeroZ⟩,
          ⟨0, hm.height - 1, zeroZ⟩⟩
        (qx, qh) (qx, 1) (0, 1) pW0 pWH p0H]
      exact congrArg some (by ring)

/-- C18, witness: the 2 x 2 grid with offset 1 and scale 1. -/
theorem Mesh_up_Bottom_down_witness :
    2 ≤ grid22.width ∧ 2 ≤ grid22.height ∧ grid22.width < U32 ∧ grid22.height < U32 ∧
    grid22.width ≤ 16777217 ∧ grid22.height ≤ 16777216 ∧
    (∀ f ∈ Mesh (F32.fin 1) (F32.fin 1) grid22, ∃ n : ℚ, normalZ grid22 f = some n ∧ 0 < n) ∧
    (∀ f ∈ (Bottom grid22 : List (Facet F32)), ∃ n : ℚ, normalZ grid22 f = some n ∧ n < 0) :=
  ⟨by decide, by decide, by decide, by decide, by decide, by decide,
    (Mesh_up_Bottom_down (F32.fin 1) (F32.fin 1) grid22 (by decide) (by decide) (by decide)
      (by decide)).1 (by decide) (by decide),
    (Mesh_up_Bottom_down (F32.fin 1) (F32.fin 1) grid22 (by decide) (by decide) (by decide)
      (by decide)).2⟩

/-- A cell of the only row of cells of `gridWide24` is part of its surface. -/
theorem MeshCell_subset_Mesh_gridWide24 (col : Nat) (hcol : col < 16777217) :
    ∀ f ∈ MeshCell (F32.fin 1) (F32.fin 1) gridWide24 0 col,
      f ∈ Mesh (F32.fin 1) (F32.fin 1) gridWide24 := by
  intro f hf
  have hH : usub gridWide24.height 1 = 1 := by decide
  have hW : usub gridWide24.width 1 = 16777217 := by decide
  unfold Mesh
  rw [hH, hW]
  exact List.mem_flatMap.mpr ⟨0, List.mem_range.mpr Nat.one_pos,
    List.mem_flatMap.mpr ⟨col, List.mem_range.mpr hcol, hf⟩⟩

/-- In `gridWide24` the column `2^24` is written as X = `16777216`. -/
theorem F32.natCast_16777216 : ((16777216 : ℕ) : F32) = F32.fin 16777216 := by
  rw [F32.natCast_of_le (le_refl _)]; norm_num

/-- In `gridWide24` the row `0` is written as Y = 2. -/
theorem gridWide24_row0 : ((usub gridWide24.height 0 : ℕ) : F32) = F32.fin 2 := by
  have h : usub gridWide24.height 0 = 2 := by decide
  rw [h, F32.natCast_of_le (by norm_num)]; norm_num

/-- In `gridWide24` the row `1` is written as Y = 1. -/
theorem gridWide24_row1 : ((usub gridWide24.height 1 : ℕ) : F32) = F32.fin 1 := by
  have h : usub gridWide24.height 1 = 1 := by decide
  rw [h, F32.natCast_of_le (by norm_num)]; norm_num

/-- In a grid of 2 rows, a triangle over the columns `2^24` and `2^24 + 1` of
the rows 0, 1, 0 is written with the same X for its three vertices, and the Z
component of its normal is 0. -/
theorem normalZ_gridWide24 (z1 z2 z3 : F32) :
    writtenXY gridWide24 ⟨16777216, 0, z1⟩ = some (16777216, 2) ∧
    writtenXY gridWide24 ⟨16777216, 1, z2⟩ = some (16777216, 1) ∧
    writtenXY gridWide24 ⟨16777217, 0, z3⟩ = some (16777216, 2) ∧
    normalZ gridWide24 ⟨⟨16777216, 0, z1⟩, ⟨16777216, 1, z2⟩, ⟨16777217, 0, z3⟩⟩ = some 0 := by
  have h1 := writtenXY_of_fin gridWide24 ⟨16777216, 0, z1⟩ 16777216 2
    F32.natCast_16777216 gridWide24_row0
  have h2 := writtenXY_of_fin gridWide24 ⟨16777216, 1, z2⟩ 16777216 1
    F32.natCast_16777216 gridWide24_row1
  have h3 := writtenXY_of_fin gridWide24 ⟨16777217, 0, z3⟩ 16777216 2
    F32.natCast_16777217 gridWide24_row0
  refine ⟨h1, h2, h3, ?_⟩
  rw [normalZ_of_XY gridWide24 ⟨⟨16777216, 0, z1⟩, ⟨16777216, 1, z2⟩, ⟨16777217, 0, z3⟩⟩
    (16777216, 2) (16777216, 1) (16777216, 2) h1 h2 h3]
  exact congrArg some (by norm_num)

/-! ## The surface Z in binary32 -/

/-- The surface Z, unfolded. -/
theorem surfaceZ_def {α : Type} [Add α] [Mul α] [NatCast α] (ZOFFSET ZSCALE : α)
    (hm : Heightmap) (i : Nat) :
    surfaceZ ZOFFSET ZSCALE hm i = ZOFFSET + ZSCALE * ((hm.sample i : Nat) : α) := rfl

/-- The number 1 is a binary32 value. -/
theorem F32.round_one : F32.round 1 = F32.fin 1 := by
  have h := F32.round_natCast (n := 1) (by norm_num)
  rwa [Nat.cast_one] at h

/-- The rounding of a number that is at least an integer `a <= 2^24` is an
infinity or a finite value that is at least `a`. -/
theorem F32.round_cases {q : ℚ} (a : ℕ) (ha : a ≤ 16777216) (hq : (a : ℚ) ≤ q) :
    F32.round q = F32.inf false ∨ ∃ r : ℚ, F32.round q = F32.fin r ∧ (a : ℚ) ≤ r := by
  have h1 : F32.le (F32.round (a : ℚ)) (F32.round q) = true :=
    F32.round_mono (Nat.cast_nonneg a) hq
  rw [F32.round_natCast (ha.trans (by norm_num))] at h1
  cases hr : F32.round q with
  | fin r =>
    rw [hr] at h1
    exact Or.inr ⟨r, rfl, by simpa [F32.le] using h1⟩
  | inf s =>
    rw [hr] at h1
    cases s
    · exact Or.inl rfl
    · simp [F32.le] at h1
  | nan =>
    rw [hr] at h1
    simp [F32.le] at h1

/-- The sum of an offset of at least 1 and of a term that is not negative is an
infinity or a finite value of at least 1, and it is at least the offset when
the offset is a binary32 value. -/
theorem F32.offset_add (zo p : F32) (ho : F32.le (F32.fin 1) zo = true)
    (hrep : zo.representable = true)
    (hp : p = F32.inf false ∨ ∃ r : ℚ, p = F32.fin r ∧ 0 ≤ r) :
    (zo + p = F32.inf false ∨ ∃ z : ℚ, zo + p = F32.fin z ∧ 1 ≤ z) ∧
      F32.le zo (zo + p) = true := by
  cases zo with
  | fin o =>
    have ho1 : (1 : ℚ) ≤ o := by simpa [F32.le] using ho
    have hro : F32.round o = F32.fin o := by simpa [F32.representable] using hrep
    rcases hp with rfl | ⟨r, rfl, hr⟩
    · exact ⟨Or.inl rfl, rfl⟩
    · have hsum : F32.fin o + F32.fin r = F32.round (o + r) := rfl
      have hmono : F32.le (F32.round o) (F32.round (o + r)) = true :=
        F32.round_mono (by linarith) (by linarith)
      rw [hsum]
      rw [hro] at hmono
      refine ⟨?_, hmono⟩
      have h1 : ((1 : ℕ) : ℚ) ≤ o + r := by push_cast; linarith
      rcases F32.round_cases 1 (by norm_num) h1 with h | ⟨z, hz, hz1⟩
      · exact Or.inl h
      · exact Or.inr ⟨z, hz, by simpa using hz1⟩
  | inf t =>
    cases t
    · rcases hp with rfl | ⟨r, rfl, -⟩
      · exact ⟨Or.inl rfl, rfl⟩
      · exact ⟨Or.inl rfl, rfl⟩
    · simp [F32.le] at ho
  | nan => simp [F32.le] at ho

/-- Adding the same offset keeps the order of two terms that are not
negative. -/
theorem F32.offset_add_mono (zo p q : F32) (ho : F32.le (F32.fin 1) zo = true)
    (hp : p = F32.inf false ∨ ∃ r : ℚ, p = F32.fin r ∧ 0 ≤ r)
    (hq : q = F32.inf false ∨ ∃ r : ℚ, q = F32.fin r ∧ 0 ≤ r)
    (hpq : F32.le p q = true) :
    F32.le (zo + p) (zo + q) = true := by
  cases zo with
  | fin o =>
    have ho1 : (1 : ℚ) ≤ o := by simpa [F32.le] using ho
    rcases hp with rfl | ⟨r, rfl, hr⟩
    · rcases hq with rfl | ⟨r', rfl, -⟩
      · rfl
      · simp [F32.le] at hpq
    · have hsum : F32.fin o + F32.fin r = F32.round (o + r) := rfl
      have h1 : ((1 : ℕ) : ℚ) ≤ o + r := by push_cast; linarith
      rcases hq with rfl | ⟨r', rfl, hr'⟩
      · have hinf : F32.fin o + F32.inf false = F32.inf false := rfl
        rw [hsum, hinf]
        rcases F32.round_cases 1 (by norm_num) h1 with h | ⟨z, hz, -⟩
        · rw [h]; rfl
        · rw [hz]; rfl
      · have hsum' : F32.fin o + F32.fin r' = F32.round (o + r') := rfl
        have hrr : r ≤ r' := by simpa [F32.le] using hpq
        rw [hsum, hsum']
        exact F32.round_mono (by linarith) (by linarith)
  | inf t =>
    cases t
    · rcases hp with rfl | ⟨r, rfl, -⟩ <;> rcases hq with rfl | ⟨r', rfl, -⟩ <;> rfl
    · simp [F32.le] at ho
  | nan => simp [F32.le] at ho

/-- The product of a finite scale that is not negative and of a sample is an
infinity or a finite value that is not negative. -/
theorem F32.scale_mul (s : ℚ) (hs : 0 ≤ s) (hm : Heightmap) (i : Nat) :
    F32.fin s * ((hm.sample i : Nat) : F32) = F32.round (s * (hm.sample i : ℚ)) ∧
    (F32.round (s * (hm.sample i : ℚ)) = F32.inf false ∨
      ∃ r : ℚ, F32.round (s * (hm.sample i : ℚ)) = F32.fin r ∧ 0 ≤ r) := by
  have hd : hm.sample i ≤ 16777216 := by have := sample_lt hm i; omega
  have hnn : ((0 : ℕ) : ℚ) ≤ s * (hm.sample i : ℚ) := by
    push_cast
    exact mul_nonneg hs (Nat.cast_nonneg _)
  refine ⟨?_, ?_⟩
  · rw [F32.natCast_of_le hd]
    rfl
  · rcases F32.round_cases 0 (by norm_num) hnn with h | ⟨r, hr, hr0⟩
    · exact Or.inl h
    · exact Or.inr ⟨r, hr, by simpa using hr0⟩

/-- A `float` that is at least 1 is above 0. -/
theorem F32.pos_of_one_le (z : F32) (h : F32.le (F32.fin 1) z = true) :
    F32.lt (F32.fin 0) z = true := by
  cases z with
  | fin q =>
    have h1 : (1 : ℚ) ≤ q := by simpa [F32.le] using h
    have h0 : (0 : ℚ) < q := by linarith
    simpa [F32.lt] using h0
  | inf t => exact h
  | nan => simp [F32.le] at h

/-- C17 (amended): with a finite positive scale and an offset of at least 1, the
Z computed in `float` from a sample is non-decreasing in the sample (every
sample lies in `[0, 255]`), and every surface Z is at least the offset, so at
least 1 and above the base plane `Z = 0`.  The comparisons are those of `float`
(an offset or a Z may be `+inf`). -/
theorem surfaceZ_monotone (ZOFFSET ZSCALE : F32) (hm : Heightmap) (i j : Nat)
    (hfin : ZSCALE.isFinite = true) (hs : F32.lt (F32.fin 0) ZSCALE = true)
    (ho : F32.le (F32.fin 1) ZOFFSET = true) (hrep : ZOFFSET.representable = true)
    (hij : hm.sample i ≤ hm.sample j) :
    hm.sample j ≤ 255 ∧
    surfaceZ ZOFFSET ZSCALE hm i = ZOFFSET + ZSCALE * ((hm.sample i : Nat) : F32) ∧
    F32.le (surfaceZ ZOFFSET ZSCALE hm i) (surfaceZ ZOFFSET ZSCALE hm j) = true ∧
    F32.le ZOFFSET (surfaceZ ZOFFSET ZSCALE hm i) = true ∧
    F32.le (F32.fin 1) (surfaceZ ZOFFSET ZSCALE hm i) = true ∧
    F32.lt (zeroZ : F32) (surfaceZ ZOFFSET ZSCALE hm i) = true := by
  have hj := sample_lt hm j
  cases ZSCALE with
  | fin s =>
    have hs0 : (0 : ℚ) < s := by simpa [F32.lt] using hs
    obtain ⟨hpi, hci⟩ := F32.scale_mul s hs0.le hm i
    obtain ⟨hpj, hcj⟩ := F32.scale_mul s hs0.le hm j
    have hle : F32.le (F32.round (s * (hm.sample i : ℚ))) (F32.round (s * (hm.sample j : ℚ)))
        = true :=
      F32.round_mono (mul_nonneg hs0.le (Nat.cast_nonneg _))
        (mul_le_mul_of_nonneg_left (Nat.cast_le.mpr hij) hs0.le)
    obtain ⟨hz, hoz⟩ := F32.offset_add ZOFFSET _ ho hrep hci
    have h1z : F32.le (F32.fin 1) (ZOFFSET + F32.round (s * (hm.sample i : ℚ))) = true := by
      rcases hz with h | ⟨z, h, hz1⟩
      · rw [h]; rfl
      · rw [h]; simpa [F32.le] using hz1
    refine ⟨by omega, rfl, ?_, ?_, ?_, ?_⟩
    · unfold surfaceZ
      rw [hpi, hpj]
      exact F32.offset_add_mono ZOFFSET _ _ ho hci hcj hle
    · unfold surfaceZ
      rw [hpi]
      exact hoz
    · unfold surfaceZ
      rw [hpi]
      exact h1z
    · unfold surfaceZ
      rw [hpi, zeroZ_F32]
      exact F32.pos_of_one_le _ h1z
  | inf t => simp [F32.isFinite] at hfin
  | nan => simp [F32.isFinite] at hfin

/-- C17, witness: the samples `0` and `255` of the 2 x 2 grid, with offset 1 and
scale 1. -/
theorem surfaceZ_monotone_witness :
    (F32.fin 1).isFinite = true ∧ F32.lt (F32.fin 0) (F32.fin 1) = true ∧
    F32.le (F32.fin 1) (F32.fin 1) = true ∧ (F32.fin 1).representable = true ∧
    grid22.sample 0 ≤ grid22.sample 1 ∧
    (grid22.sample 1 ≤ 255 ∧
    surfaceZ (F32.fin 1) (F32.fin 1) grid22 0 =
      F32.fin 1 + F32.fin 1 * ((grid22.sample 0 : Nat) : F32) ∧
    F32.le (surfaceZ (F32.fin 1) (F32.fin 1) grid22 0)
      (surfaceZ (F32.fin 1) (F32.fin 1) grid22 1) = true ∧
    F32.le (F32.fin 1) (surfaceZ (F32.fin 1) (F32.fin 1) grid22 0) = true ∧
    F32.le (F32.fin 1) (surfaceZ (F32.fin 1) (F32.fin 1) grid22 0) = true ∧
    F32.lt (zeroZ : F32) (surfaceZ (F32.fin 1) (F32.fin 1) grid22 0) = true) :=
  ⟨rfl, by simp [F32.lt], by simp [F32.le], by simp [F32.representable, F32.round_one],
    by decide,
    surfaceZ_monotone (F32.fin 1) (F32.fin 1) grid22 0 1 rfl (by simp [F32.lt])
      (by simp [F32.le]) (by simp [F32.representable, F32.round_one]) (by decide)⟩

/-- C17 as stated fails: the scale `+inf` is above 0 (and is not rejected by the
test `ZSCALE <= 0` of `parseopts`), and with the offset 1 the Z computed from
the sample `0` is `1 + inf * 0`, a NaN: it is not at most the Z computed from
the sample `255` (which is `+inf`), it is not at least the offset nor at least
1, and it is not above 0. -/
theorem surfaceZ_nan_grid22 :
    F32.lt (F32.fin 0) (F32.inf false) = true ∧
    F32.le (F32.inf false) (F32.fin 0) = false ∧
    F32.le (F32.fin 1) (F32.fin 1) = true ∧
    grid22.sample 0 = 0 ∧ grid22.sample 1 = 255 ∧
    surfaceZ (F32.fin 1) (F32.inf false) grid22 0 = F32.nan ∧
    surfaceZ (F32.fin 1) (F32.inf false) grid22 1 = F32.inf false ∧
    F32.le (surfaceZ (F32.fin 1) (F32.inf false) grid22 0)
      (surfaceZ (F32.fin 1) (F32.inf false) grid22 1) = false ∧
    F32.le (F32.fin 1) (surfaceZ (F32.fin 1) (F32.inf false) grid22 0) = false ∧
    F32.lt (zeroZ : F32) (surfaceZ (F32.fin 1) (F32.inf false) grid22 0) = false := by
  have hs0 : grid22.sample 0 = 0 := by decide
  have hs1 : grid22.sample 1 = 255 := by decide
  have hc255 : ((255 : ℕ) : F32) = F32.fin 255 := by
    rw [F32.natCast_of_le (by norm_num)]; norm_num
  have hz0 : surfaceZ (F32.fin 1) (F32.inf false) grid22 0 = F32.nan := by
    rw [surfaceZ_def, hs0, F32.natCast_zero]
    have hm : F32.inf false * F32.fin 0 = F32.nan := by
      show F32.mul (F32.inf false) (F32.fin 0) = F32.nan
      simp [F32.mul]
    rw [hm]
    rfl
  have hz1 : surfaceZ (F32.fin 1) (F32.inf false) grid22 1 = F32.inf false := by
    rw [surfaceZ_def, hs1, hc255]
    have hm : F32.inf false * F32.fin 255 = F32.inf false := by
      show F32.mul (F32.inf false) (F32.fin 255) = F32.inf false
      simp [F32.mul]
    rw [hm]
    rfl
  refine ⟨rfl, rfl, by simp [F32.le], hs0, hs1, hz0, hz1, ?_, ?_, ?_⟩
  · rw [hz0, hz1]; rfl
  · rw [hz0]; rfl
  · rw [hz0, zeroZ_F32]; rfl

/-! ## The normals of the walls -/

/-- The sum of an offset of at least 1 and of a term that is not negative is an
infinity or a finite value of at least 1. -/
theorem F32.one_le_offset_add (zo p : F32) (ho : F32.le (F32.fin 1) zo = true)
    (hp : p = F32.inf false ∨ ∃ r : ℚ, p = F32.fin r ∧ 0 ≤ r) :
    zo + p = F32.inf false ∨ ∃ z : ℚ, zo + p = F32.fin z ∧ 1 ≤ z := by
  cases zo with
  | fin o =>
    have ho1 : (1 : ℚ) ≤ o := by simpa [F32.le] using ho
    rcases hp with rfl | ⟨r, rfl, hr⟩
    · exact Or.inl rfl
    · have hsum : F32.fin o + F32.fin r = F32.round (o + r) := rfl
      rw [hsum]
      have h1 : ((1 : ℕ) : ℚ) ≤ o + r := by push_cast; linarith
      rcases F32.round_cases 1 (by norm_num) h1 with h | ⟨z, hz, hz1⟩
      · exact Or.inl h
      · exact Or.inr ⟨z, hz, by simpa using hz1⟩
  | inf t =>
    cases t
    · rcases hp with rfl | ⟨r, rfl, -⟩
      · exact Or.inl rfl
      · exact Or.inl rfl
    · simp [F32.le] at ho
  | nan => simp [F32.le] at ho

/-- The sample `255` is converted exactly. -/
theorem F32.natCast_255 : ((255 : ℕ) : F32) = F32.fin 255 := by
  rw [F32.natCast_of_le (by norm_num)]; norm_num

/-- With a scale above 0 and an offset of at least 1 for which
`ZOFFSET + ZSCALE * 255` is finite, every surface Z is finite and at least 1. -/
theorem surfaceZ_pos (ZOFFSET ZSCALE : F32) (hm : Heightmap)
    (hs : F32.lt (F32.fin 0) ZSCALE = true) (ho : F32.le (F32.fin 1) ZOFFSET = true)
    (hfin : (ZOFFSET + ZSCALE * ((255 : ℕ) : F32)).isFinite = true) (i : Nat) :
    ∃ z : ℚ, surfaceZ ZOFFSET ZSCALE hm i = F32.fin z ∧ 1 ≤ z := by
  have hi := sample_lt hm i
  cases ZSCALE with
  | fin s =>
    have hs0 : (0 : ℚ) < s := by simpa [F32.lt] using hs
    obtain ⟨hpi, hci⟩ := F32.scale_mul s hs0.le hm i
    have hp255 : F32.fin s * ((255 : ℕ) : F32) = F32.round (s * 255) := by
      rw [F32.natCast_255]; rfl
    have hc255 : F32.round (s * 255) = F32.inf false ∨
        ∃ r : ℚ, F32.round (s * 255) = F32.fin r ∧ 0 ≤ r := by
      have hnn : ((0 : ℕ) : ℚ) ≤ s * 255 := by push_cast; linarith
      rcases F32.round_cases 0 (by norm_num) hnn with h | ⟨r, hr, hr0⟩
      · exact Or.inl h
      · exact Or.inr ⟨r, hr, by simpa using hr0⟩
    have hle : F32.le (F32.round (s * (hm.sample i : ℚ))) (F32.round (s * 255)) = true := by
      apply F32.round_mono (mul_nonneg hs0.le (Nat.cast_nonneg _))
      apply mul_le_mul_of_nonneg_left _ hs0.le
      have h : ((hm.sample i : ℕ) : ℚ) ≤ ((255 : ℕ) : ℚ) := Nat.cast_le.mpr (by omega)
      simpa using h
    have hmono := F32.offset_add_mono ZOFFSET _ _ ho hci hc255 hle
    rw [hp255] at hfin
    rw [surfaceZ_def, hpi]
    cases h255 : ZOFFSET + F32.round (s * 255) with
    | fin w =>
      rw [h255] at hmono
      rcases F32.one_le_offset_add ZOFFSET _ ho hci with h | ⟨z, hz, hz1⟩
      · rw [h] at hmono
        simp [F32.le] at hmono
      · exact ⟨z, hz, hz1⟩
    | inf t => rw [h255] at hfin; simp [F32.isFinite] at hfin
    | nan => rw [h255] at hfin; simp [F32.isFinite] at hfin
  | inf t =>
    cases t
    · have hmul : F32.inf false * ((255 : ℕ) : F32) = F32.inf false := by
        rw [F32.natCast_255]
        show F32.mul (F32.inf false) (F32.fin 255) = F32.inf false
        simp [F32.mul]
      rw [hmul] at hfin
      cases ZOFFSET with
      | fin o =>
        have h : F32.fin o + F32.inf false = F32.inf false := rfl
        rw [h] at hfin
        simp [F32.isFinite] at hfin
      | inf u =>
        cases u
        · have h : F32.inf false + F32.inf false = F32.inf false := rfl
          rw [h] at hfin
          simp [F32.isFinite] at hfin
        · simp [F32.le] at ho
      | nan => simp [F32.le] at ho
    · simp [F32.lt] at hs
  | nan => simp [F32.lt] at hs

/-- The point written for a vertex whose column and flipped row are at most
`2^24` and whose Z is finite. -/
theorem writtenPoint_eq (hm : Heightmap) (v : Vertex F32) (q : ℚ)
    (hx : v.x ≤ 16777216) (hy : usub hm.height v.y ≤ 16777216) (hz : v.z = F32.fin q) :
    writtenPoint hm v = some ((v.x : ℚ), ((usub hm.height v.y : ℕ) : ℚ), q) := by
  simp only [writtenPoint, emitted, F32.natCast_of_le hx, F32.natCast_of_le hy, hz, F32.toRat]

/-- The normal of a triangle whose three written points are known. -/
theorem normal_of_points (hm : Heightmap) (f : Facet F32) (p1 p2 p3 : ℚ × ℚ × ℚ)
    (h1 : writtenPoint hm f.v1 = some p1) (h2 : writtenPoint hm f.v2 = some p2)
    (h3 : writtenPoint hm f.v3 = some p3) :
    normal hm f = some (cross (vsub p2 p1) (vsub p3 p1)) := by
  rw [normal, h1, h2, h3]

/-- The normal of a triangle whose columns and flipped rows are at most `2^24`
and whose three Z are finite. -/
theorem normal_eq (hm : Heightmap) (x1 y1 x2 y2 x3 y3 : Nat) (z1 z2 z3 : F32)
    (q1 q2 q3 : ℚ) (w1 w2 w3 : Nat)
    (hx1 : x1 ≤ 16777216) (hx2 : x2 ≤ 16777216) (hx3 : x3 ≤ 16777216)
    (hy1 : usub hm.height y1 = w1) (hy2 : usub hm.height y2 = w2)
    (hy3 : usub hm.height y3 = w3)
    (hw1 : w1 ≤ 16777216) (hw2 : w2 ≤ 16777216) (hw3 : w3 ≤ 16777216)
    (hz1 : z1 = F32.fin q1) (hz2 : z2 = F32.fin q2) (hz3 : z3 = F32.fin q3) :
    normal hm ⟨⟨x1, y1, z1⟩, ⟨x2, y2, z2⟩, ⟨x3, y3, z3⟩⟩ =
      some (cross (vsub ((x2 : ℚ), (w2 : ℚ), q2) ((x1 : ℚ), (w1 : ℚ), q1))
        (vsub ((x3 : ℚ), (w3 : ℚ), q3) ((x1 : ℚ), (w1 : ℚ), q1))) := by
  subst hy1 hy2 hy3
  exact normal_of_points hm ⟨⟨x1, y1, z1⟩, ⟨x2, y2, z2⟩, ⟨x3, y3, z3⟩⟩ _ _ _
    (writtenPoint_eq hm ⟨x1, y1, z1⟩ q1 hx1 hw1 hz1)
    (writtenPoint_eq hm ⟨x2, y2, z2⟩ q2 hx2 hw2 hz2)
    (writtenPoint_eq hm ⟨x3, y3, z3⟩ q3 hx3 hw3 hz3)

/-- The triangles of the north wall lie on row `0` only and their normal points
toward increasing written Y. -/
theorem northWall_normal (ZOFFSET ZSCALE : F32) (hm : Heightmap) (col : Nat)
    (hH : 2 ≤ hm.height) (hW24 : hm.width ≤ 16777217) (hH24 : hm.height ≤ 16777216)
    (hz : ∀ i, ∃ z : ℚ, surfaceZ ZOFFSET ZSCALE hm i = F32.fin z ∧ 1 ≤ z)
    (hcol : col + 1 < hm.width) :
    ∀ f ∈ northWall ZOFFSET ZSCALE hm col,
      onRow 0 f ∧ ¬ onRow (hm.height - 1) f ∧ ¬ onCol 0 f ∧ ¬ onCol (hm.width - 1) f ∧
        ∃ n : ℚ, 0 < n ∧ normal hm f = some (0, n, 0) := by
  have hHlt : hm.height < U32 := by simp only [U32]; omega
  have hc1 : uadd col 1 = col + 1 := uadd_of_lt (by simp only [U32]; omega)
  have hcm : col % U32 = col := Nat.mod_eq_of_lt (by simp only [U32]; omega)
  have hcm1 : (col + 1) % U32 = col + 1 := Nat.mod_eq_of_lt (by simp only [U32]; omega)
  have hy0 : usub hm.height 0 = hm.height := usub_of_le (Nat.zero_le _) hHlt
  obtain ⟨za, hza, hza1⟩ := hz col
  obtain ⟨zb, hzb, hzb1⟩ := hz (col + 1)
  intro f hf
  simp only [northWall, hc1, hcm, hcm1, List.mem_cons, List.mem_singleton, List.not_mem_nil,
    or_false] at hf
  rcases hf with rfl | rfl
  · refine ⟨⟨rfl, rfl, rfl⟩, ?_, ?_, ?_, za, by linarith, ?_⟩
    · simp only [onRow]; omega
    · simp only [onCol]; omega
    · simp only [onCol]; omega
    · rw [normal_eq hm col 0 (col + 1) 0 col 0 _ _ _ za zb 0 hm.height hm.height hm.height
        (by omega) (by omega) (by omega) hy0 hy0 hy0 hH24 hH24 hH24 hza hzb zeroZ_F32]
      simp only [cross, vsub]
      refine congrArg some (Prod.ext ?_ (Prod.ext ?_ ?_)) <;> push_cast <;> ring
  · refine ⟨⟨rfl, rfl, rfl⟩, ?_, ?_, ?_, zb, by linarith, ?_⟩
    · simp only [onRow]; omega
    · simp only [onCol]; omega
    · simp only [onCol]; omega
    · rw [normal_eq hm (col + 1) 0 (col + 1) 0 col 0 _ _ _ zb 0 0 hm.height hm.height
        hm.height (by omega) (by omega) (by omega) hy0 hy0 hy0 hH24 hH24 hH24 hzb zeroZ_F32
        zeroZ_F32]
      simp only [cross, vsub]
      refine congrArg some (Prod.ext ?_ (Prod.ext ?_ ?_)) <;> push_cast <;> ring

/-- The triangles of the south wall lie on row `H-1` only and their normal points
toward decreasing written Y. -/
theorem southWall_normal (ZOFFSET ZSCALE : F32) (hm : Heightmap) (col : Nat)
    (hH : 2 ≤ hm.height) (hW24 : hm.width ≤ 16777217) (hH24 : hm.height ≤ 16777216)
    (hz : ∀ i, ∃ z : ℚ, surfaceZ ZOFFSET ZSCALE hm i = F32.fin z ∧ 1 ≤ z)
    (hcol : col + 1 < hm.width) :
    ∀ f ∈ southWall ZOFFSET ZSCALE hm col,
      ¬ onRow 0 f ∧ onRow (hm.height - 1) f ∧ ¬ onCol 0 f ∧ ¬ onCol (hm.width - 1) f ∧
        ∃ n : ℚ, 0 < n ∧ normal hm f = some (0, -n, 0) := by
  have hHlt : hm.height < U32 := by simp only [U32]; omega
  have hc1 : uadd col 1 = col + 1 := uadd_of_lt (by simp only [U32]; omega)
  have hb : usub hm.height 1 = hm.height - 1 := usub_one (by omega) hHlt
  have hy1 : usub hm.height (hm.height - 1) = 1 := by
    rw [usub_of_le (by omega) hHlt]; omega
  obtain ⟨za, hza, hza1⟩ := hz ((col + umul (hm.height - 1) hm.width) % U64)
  obtain ⟨zb, hzb, hzb1⟩ := hz ((col + 1 + umul (hm.height - 1) hm.width) % U64)
  intro f hf
  simp only [southWall, hc1, hb, List.mem_cons, List.mem_singleton, List.not_mem_nil,
    or_false] at hf
  rcases hf with rfl | rfl
  · refine ⟨?_, ⟨rfl, rfl, rfl⟩, ?_, ?_, za, by linarith, ?_⟩
    · simp only [onRow]; omega
    · simp only [onCol]; omega
    · simp only [onCol]; omega
    · rw [normal_eq hm col (hm.height - 1) col (hm.height - 1) (col + 1) (hm.height - 1)
        _ _ _ za 0 zb 1 1 1 (by omega) (by omega) (by omega) hy1 hy1 hy1 (by omega)
        (by omega) (by omega) hza zeroZ_F32 hzb]
      simp only [cross, vsub]
      refine congrArg some (Prod.ext ?_ (Prod.ext ?_ ?_)) <;> push_cast <;> ring
  · refine ⟨?_, ⟨rfl, rfl, rfl⟩, ?_, ?_, zb, by linarith, ?_⟩
    · simp only [onRow]; omega
    · simp only [onCol]; omega
    · simp only [onCol]; omega
    · rw [normal_eq hm col (hm.height - 1) (col + 1) (hm.height - 1) (col + 1)
        (hm.height - 1) _ _ _ 0 0 zb 1 1 1 (by omega) (by omega) (by omega) hy1 hy1 hy1
        (by omega) (by omega) (by omega) zeroZ_F32 zeroZ_F32 hzb]
      simp only [cross, vsub]
      refine congrArg some (Prod.ext ?_ (Prod.ext ?_ ?_)) <;> push_cast <;> ring

/-- The triangles of the west wall lie on column `0` only and their normal points
toward `-X`. -/
theorem westWall_normal (ZOFFSET ZSCALE : F32) (hm : Heightmap) (row : Nat)
    (hW : 2 ≤ hm.width) (hH24 : hm.height ≤ 16777216)
    (hz : ∀ i, ∃ z : ℚ, surfaceZ ZOFFSET ZSCALE hm i = F32.fin z ∧ 1 ≤ z)
    (hrow : row + 1 < hm.height) :
    ∀ f ∈ westWall ZOFFSET ZSCALE hm row,
      ¬ onRow 0 f ∧ ¬ onRow (hm.height - 1) f ∧ onCol 0 f ∧ ¬ onCol (hm.width - 1) f ∧
        ∃ n : ℚ, 0 < n ∧ normal hm f = some (-n, 0, 0) := by
  have hHlt : hm.height < U32 := by simp only [U32]; omega
  have hr1 : uadd row 1 = row + 1 := uadd_of_lt (by simp only [U32]; omega)
  obtain ⟨k, hk⟩ : ∃ k, hm.height = k + (row + 1) := ⟨hm.height - (row + 1), by omega⟩
  have hy0 : usub hm.height row = k + 1 := by rw [usub_of_le (by omega) hHlt]; omega
  have hy1 : usub hm.height (row + 1) = k := by rw [usub_of_le (by omega) hHlt]; omega
  obtain ⟨za, hza, hza1⟩ := hz (umul row hm.width)
  obtain ⟨zb, hzb, hzb1⟩ := hz (umul (row + 1) hm.width)
  intro f hf
  simp only [westWall, hr1, List.mem_cons, List.mem_singleton, List.not_mem_nil,
    or_false] at hf
  rcases hf with rfl | rfl
  · refine ⟨?_, ?_, ⟨rfl, rfl, rfl⟩, ?_, za, by linarith, ?_⟩
    · simp only [onRow]; omega
    · simp only [onRow]; omega
    · simp only [onCol]; omega
    · rw [normal_eq hm 0 row 0 row 0 (row + 1) _ _ _ za 0 zb (k + 1) (k + 1) k
        (by omega) (by omega) (by omega) hy0 hy0 hy1 (by omega) (by omega) (by omega)
        hza zeroZ_F32 hzb]
      simp only [cross, vsub]
      refine congrArg some (Prod.ext ?_ (Prod.ext ?_ ?_)) <;> push_cast <;> ring
  · refine ⟨?_, ?_, ⟨rfl, rfl, rfl⟩, ?_, zb, by linarith, ?_⟩
    · simp only [onRow]; omega
    · simp only [onRow]; omega
    · simp only [onCol]; omega
    · rw [normal_eq hm 0 row 0 (row + 1) 0 (row + 1) _ _ _ 0 0 zb (k + 1) k k
        (by omega) (by omega) (by omega) hy0 hy1 hy1 (by omega) (by omega) (by omega)
        zeroZ_F32 zeroZ_F32 hzb]
      simp only [cross, vsub]
      refine congrArg some (Prod.ext ?_ (Prod.ext ?_ ?_)) <;> push_cast <;> ring

/-- The triangles of the east wall lie on column `W-1` only and their normal
points toward `+X`. -/
theorem eastWall_normal (ZOFFSET ZSCALE : F32) (hm : Heightmap) (row : Nat)
    (hW : 2 ≤ hm.width) (hW24 : hm.width ≤ 16777217) (hH24 : hm.height ≤ 16777216)
    (hz : ∀ i, ∃ z : ℚ, surfaceZ ZOFFSET ZSCALE hm i = F32.fin z ∧ 1 ≤ z)
    (hrow : row + 1 < hm.height) :
    ∀ f ∈ eastWall ZOFFSET ZSCALE hm row,
      ¬ onRow 0 f ∧ ¬ onRow (hm.height - 1) f ∧ ¬ onCol 0 f ∧ onCol (hm.width - 1) f ∧
        ∃ n : ℚ, 0 < n ∧ normal hm f = some (n, 0, 0) := by
  have hHlt : hm.height < U32 := by simp only [U32]; omega
  have hWlt : hm.width < U32 := by simp only [U32]; omega
  have hr1 : uadd row 1 = row + 1 := uadd_of_lt (by simp only [U32]; omega)
  have hright : usub hm.width 1 = hm.width - 1 := usub_one (by omega) hWlt
  obtain ⟨k, hk⟩ : ∃ k, hm.height = k + (row + 1) := ⟨hm.height - (row + 1), by omega⟩
  have hy0 : usub hm.height row = k + 1 := by rw [usub_of_le (by omega) hHlt]; omega
  have hy1 : usub hm.height (row + 1) = k := by rw [usub_of_le (by omega) hHlt]; omega
  obtain ⟨za, hza, hza1⟩ := hz ((umul row hm.width + (hm.width - 1)) % U64)
  obtain ⟨zb, hzb, hzb1⟩ := hz ((umul (row + 1) hm.width + (hm.width - 1)) % U64)
  intro f hf
  simp only [eastWall, hr1, hright, List.mem_cons, List.mem_singleton, List.not_mem_nil,
    or_false] at hf
  rcases hf with rfl | rfl
  · refine ⟨?_, ?_, ?_, ⟨rfl, rfl, rfl⟩, za, by linarith, ?_⟩
    · simp only [onRow]; omega
    · simp only [onRow]; omega
    · simp only [onCol]; omega
    · rw [normal_eq hm (hm.width - 1) row (hm.width - 1) (row + 1) (hm.width - 1) row
        _ _ _ za 0 0 (k + 1) k (k + 1) (by omega) (by omega) (by omega) hy0 hy1 hy0
        (by omega) (by omega) (by omega) hza zeroZ_F32 zeroZ_F32]
      simp only [cross, vsub]
      refine congrArg some (Prod.ext ?_ (Prod.ext ?_ ?_)) <;> push_cast <;> ring
  · refine ⟨?_, ?_, ?_, ⟨rfl, rfl, rfl⟩, zb, by linarith, ?_⟩
    · simp only [onRow]; omega
    · simp only [onRow]; omega
    · simp only [onCol]; omega
    · rw [normal_eq hm (hm.width - 1) row (hm.width - 1) (row + 1) (hm.width - 1)
        (row + 1) _ _ _ za zb 0 (k + 1) k k (by omega) (by omega) (by omega) hy0 hy1 hy1
        (by omega) (by omega) (by omega) hza hzb zeroZ_F32]
      simp only [cross, vsub]
      refine congrArg some (Prod.ext ?_ (Prod.ext ?_ ?_)) <;> push_cast <;> ring

/-- C4 (amended): for every grid with `2 <= W <= 2^24 + 1` and
`2 <= H <= 2^24`, a scale above 0 and an offset of at least 1 for which
`ZOFFSET + ZSCALE * 255` is finite in `float`, every triangle of `Walls` lies on
exactly one border (row `0`, row `H-1`, column `0` or column `W-1`) and its
right-hand-rule normal, taken on the written coordinates `(x, height - y, z)`,
is a non-zero vector along one axis that points away from the interior: toward
increasing written Y (that is decreasing raster row) on the north wall, toward
decreasing written Y on the south wall, toward `-X` on the west wall and toward
`+X` on the east wall. -/
theorem Walls_normal_outward (ZOFFSET ZSCALE : F32) (hm : Heightmap)
    (hW : 2 ≤ hm.width) (hH : 2 ≤ hm.height)
    (hW24 : hm.width ≤ 16777217) (hH24 : hm.height ≤ 16777216)
    (hs : F32.lt (F32.fin 0) ZSCALE = true) (ho : F32.le (F32.fin 1) ZOFFSET = true)
    (hfin : (ZOFFSET + ZSCALE * ((255 : ℕ) : F32)).isFinite = true) :
    ∀ f ∈ Walls ZOFFSET ZSCALE hm,
      (onRow 0 f ∨ onRow (hm.height - 1) f ∨ onCol 0 f ∨ onCol (hm.width - 1) f) ∧
      (onRow 0 f → ∃ n : ℚ, 0 < n ∧ normal hm f = some (0, n, 0)) ∧
      (onRow (hm.height - 1) f → ∃ n : ℚ, 0 < n ∧ normal hm f = some (0, -n, 0)) ∧
      (onCol 0 f → ∃ n : ℚ, 0 < n ∧ normal hm f = some (-n, 0, 0)) ∧
      (onCol (hm.width - 1) f → ∃ n : ℚ, 0 < n ∧ normal hm f = some (n, 0, 0)) := by
  have hHlt : hm.height < U32 := by simp only [U32]; omega
  have hWlt : hm.width < U32 := by simp only [U32]; omega
  have hz := surfaceZ_pos ZOFFSET ZSCALE hm hs ho hfin
  intro f hf
  unfold Walls at hf
  rw [usub_one (by omega) hWlt, usub_one (by omega) hHlt] at hf
  rcases List.mem_append.mp hf with hf | hf
  · obtain ⟨col, hcol, hf⟩ := List.mem_flatMap.mp hf
    rw [List.mem_range] at hcol
    rcases List.mem_append.mp hf with hf | hf
    · obtain ⟨hn, hs', hw, he, hnorm⟩ :=
        northWall_normal ZOFFSET ZSCALE hm col hH hW24 hH24 hz (by omega) f hf
      exact ⟨Or.inl hn, fun _ => hnorm, fun h => absurd h hs', fun h => absurd h hw,
        fun h => absurd h he⟩
    · obtain ⟨hn, hs', hw, he, hnorm⟩ :=
        southWall_normal ZOFFSET ZSCALE hm col hH hW24 hH24 hz (by omega) f hf
      exact ⟨Or.inr (Or.inl hs'), fun h => absurd h hn, fun _ => hnorm, fun h => absurd h hw,
        fun h => absurd h he⟩
  · obtain ⟨row, hrow, hf⟩ := List.mem_flatMap.mp hf
    rw [List.mem_range] at hrow
    rcases List.mem_append.mp hf with hf | hf
    · obtain ⟨hn, hs', hw, he, hnorm⟩ :=
        westWall_normal ZOFFSET ZSCALE hm row hW hH24 hz (by omega) f hf
      exact ⟨Or.inr (Or.inr (Or.inl hw)), fun h => absurd h hn, fun h => absurd h hs',
        fun _ => hnorm, fun h => absurd h he⟩
    · obtain ⟨hn, hs', hw, he, hnorm⟩ :=
        eastWall_normal ZOFFSET ZSCALE hm row hW hW24 hH24 hz (by omega) f hf
      exact ⟨Or.inr (Or.inr (Or.inr he)), fun h => absurd h hn, fun h => absurd h hs',
        fun h => absurd h hw, fun _ => hnorm⟩

/-- The product of two finite `float` is the rounded product. -/
theorem F32.fin_mul_fin (a b : ℚ) : F32.fin a * F32.fin b = F32.round (a * b) := rfl

/-- The sum of two finite `float` is the rounded sum. -/
theorem F32.fin_add_fin (a b : ℚ) : F32.fin a + F32.fin b = F32.round (a + b) := rfl

/-- With offset 1 and scale 1 the Z of the sample `255` is 256. -/
theorem F32.one_add_one_mul_255 :
    F32.fin 1 + F32.fin 1 * ((255 : ℕ) : F32) = F32.fin 256 := by
  have h1 : (1 : ℚ) * 255 = ((255 : ℕ) : ℚ) := by norm_num
  have h2 : (1 : ℚ) + ((255 : ℕ) : ℚ) = ((256 : ℕ) : ℚ) := by norm_num
  rw [F32.natCast_255, F32.fin_mul_fin, h1, F32.round_natCast (by norm_num),
    F32.fin_add_fin, h2, F32.round_natCast (by norm_num)]
  norm_num

/-- C4, witness: the 2 x 2 grid with offset 1 and scale 1. -/
theorem Walls_normal_outward_witness :
    2 ≤ grid22.width ∧ 2 ≤ grid22.height ∧
      grid22.width ≤ 16777217 ∧ grid22.height ≤ 16777216 ∧
      F32.lt (F32.fin 0) (F32.fin 1) = true ∧ F32.le (F32.fin 1) (F32.fin 1) = true ∧
      (F32.fin 1 + F32.fin 1 * ((255 : ℕ) : F32)).isFinite = true ∧
      ∀ f ∈ Walls (F32.fin 1) (F32.fin 1) grid22,
        (onRow 0 f ∨ onRow (grid22.height - 1) f ∨ onCol 0 f ∨ onCol (grid22.width - 1) f) ∧
        (onRow 0 f → ∃ n : ℚ, 0 < n ∧ normal grid22 f = some (0, n, 0)) ∧
        (onRow (grid22.height - 1) f → ∃ n : ℚ, 0 < n ∧ normal grid22 f = some (0, -n, 0)) ∧
        (onCol 0 f → ∃ n : ℚ, 0 < n ∧ normal grid22 f = some (-n, 0, 0)) ∧
        (onCol (grid22.width - 1) f → ∃ n : ℚ, 0 < n ∧ normal grid22 f = some (n, 0, 0)) :=
  ⟨by decide, by decide, by decide, by decide, by simp [F32.lt], by simp [F32.le],
    by rw [F32.one_add_one_mul_255]; rfl,
    Walls_normal_outward (F32.fin 1) (F32.fin 1) grid22 (by decide) (by decide) (by decide)
      (by decide) (by simp [F32.lt]) (by simp [F32.le])
      (by rw [F32.one_add_one_mul_255]; rfl)⟩

/-- The point written for a vertex whose three conversions are known. -/
theorem writtenPoint_of_fin (hm : Heightmap) (v : Vertex F32) (qx qy qz : ℚ)
    (hx : ((v.x : ℕ) : F32) = F32.fin qx)
    (hy : ((usub hm.height v.y : ℕ) : F32) = F32.fin qy) (hz : v.z = F32.fin qz) :
    writtenPoint hm v = some (qx, qy, qz) := by
  simp only [writtenPoint, emitted, hx, hy, hz, F32.toRat]

/-- With offset 1 and scale 1 every surface Z of `gridWide24` is 1. -/
theorem surfaceZ_gridWide24 (i : Nat) :
    surfaceZ (F32.fin 1) (F32.fin 1) gridWide24 i = F32.fin 1 := by
  have hs : gridWide24.sample i = 0 := by simp [Heightmap.sample, gridWide24]
  have h1 : (1 : ℚ) * 0 = ((0 : ℕ) : ℚ) := by norm_num
  have h2 : (1 : ℚ) + ((0 : ℕ) : ℚ) = ((1 : ℕ) : ℚ) := by norm_num
  rw [surfaceZ_def, hs, F32.natCast_zero, F32.fin_mul_fin, h1,
    F32.round_natCast (by norm_num), F32.fin_add_fin, h2, F32.round_natCast (by norm_num)]
  norm_num

/-- The north wall at a column of `gridWide24` is part of its walls. -/
theorem northWall_subset_Walls_gridWide24 (col : Nat) (hcol : col < 16777217) :
    ∀ f ∈ northWall (F32.fin 1) (F32.fin 1) gridWide24 col,
      f ∈ Walls (F32.fin 1) (F32.fin 1) gridWide24 := by
  intro f hf
  have hW : usub gridWide24.width 1 = 16777217 := by decide
  unfold Walls
  rw [hW]
  exact List.mem_append_left _ (List.mem_flatMap.mpr ⟨col, List.mem_range.mpr hcol,
    List.mem_append_left _ hf⟩)

/-- With offset 1 and the scale `+inf`, the Z of the sample `0` of the 2 x 2 grid
is a NaN. -/
theorem surfaceZ_inf_grid22 :
    surfaceZ (F32.fin 1) (F32.inf false) grid22 0 = F32.nan := by
  have hs0 : grid22.sample 0 = 0 := by decide
  have hmul : F32.inf false * F32.fin 0 = F32.nan := by
    show F32.mul (F32.inf false) (F32.fin 0) = F32.nan
    simp [F32.mul]
  rw [surfaceZ_def, hs0, F32.natCast_zero, hmul]
  rfl

/-- A vertex whose Z is a NaN has no written point. -/
theorem writtenPoint_of_nan (hm : Heightmap) (v : Vertex F32) (hz : v.z = F32.nan) :
    writtenPoint hm v = none := by
  simp only [writtenPoint, emitted, hz, F32.toRat]
  split <;> simp_all

/-- A triangle whose first vertex has no written point has no normal. -/
theorem normal_of_none (hm : Heightmap) (f : Facet F32) (h : writtenPoint hm f.v1 = none) :
    normal hm f = none := by
  rw [normal, h]

/-- The first triangle of the north wall of `gridWide24` at column `2^24`. -/
theorem northWall_gridWide24_mem :
    (⟨⟨16777216, 0, surfaceZ (F32.fin 1) (F32.fin 1) gridWide24 16777216⟩,
      ⟨16777217, 0, surfaceZ (F32.fin 1) (F32.fin 1) gridWide24 16777217⟩,
      ⟨16777216, 0, zeroZ⟩⟩ : Facet F32) ∈
        northWall (F32.fin 1) (F32.fin 1) gridWide24 16777216 := by
  have hu : uadd 16777216 1 = 16777217 := by decide
  have hm0 : 16777216 % U32 = 16777216 := by decide
  have hm1 : 16777217 % U32 = 16777217 := by decide
  simp only [northWall, hu, hm0, hm1]
  exact List.mem_cons_self _ _

/-- The point written for the first vertex of that triangle. -/
theorem northWall_gridWide24_v1 :
    writtenPoint gridWide24
      ⟨16777216, 0, surfaceZ (F32.fin 1) (F32.fin 1) gridWide24 16777216⟩ =
        some (16777216, 2, 1) :=
  writtenPoint_of_fin gridWide24
    ⟨16777216, 0, surfaceZ (F32.fin 1) (F32.fin 1) gridWide24 16777216⟩ 16777216 2 1
    F32.natCast_16777216 gridWide24_row0 (surfaceZ_gridWide24 _)

/-- The point written for the second vertex of that triangle. -/
theorem northWall_gridWide24_v2 :
    writtenPoint gridWide24
      ⟨16777217, 0, surfaceZ (F32.fin 1) (F32.fin 1) gridWide24 16777217⟩ =
        some (16777216, 2, 1) :=
  writtenPoint_of_fin gridWide24
    ⟨16777217, 0, surfaceZ (F32.fin 1) (F32.fin 1) gridWide24 16777217⟩ 16777216 2 1
    F32.natCast_16777217 gridWide24_row0 (surfaceZ_gridWide24 _)

/-- The point written for the third vertex of that triangle. -/
theorem northWall_gridWide24_v3 :
    writtenPoint gridWide24 ⟨16777216, 0, zeroZ⟩ = some (16777216, 2, 0) :=
  writtenPoint_of_fin gridWide24 ⟨16777216, 0, zeroZ⟩ 16777216 2 0
    F32.natCast_16777216 gridWide24_row0 zeroZ_F32

/-- The cross product of the two edge vectors of that triangle as written. -/
theorem cross_gridWide24 :
    cross (vsub ((16777216 : ℚ), (2 : ℚ), (1 : ℚ)) (16777216, 2, 1))
      (vsub ((16777216 : ℚ), (2 : ℚ), (0 : ℚ)) (16777216, 2, 1)) = (0, 0, 0) := by
  simp only [cross, vsub]
  refine Prod.ext ?_ (Prod.ext ?_ ?_) <;> norm_num

/-- The normal of that triangle is the zero vector. -/
theorem northWall_gridWide24_normal :
    normal gridWide24
      ⟨⟨16777216, 0, surfaceZ (F32.fin 1) (F32.fin 1) gridWide24 16777216⟩,
        ⟨16777217, 0, surfaceZ (F32.fin 1) (F32.fin 1) gridWide24 16777217⟩,
        ⟨16777216, 0, zeroZ⟩⟩ = some (0, 0, 0) := by
  have hn := normal_of_points gridWide24
    ⟨⟨16777216, 0, surfaceZ (F32.fin 1) (F32.fin 1) gridWide24 16777216⟩,
      ⟨16777217, 0, surfaceZ (F32.fin 1) (F32.fin 1) gridWide24 16777217⟩,
      ⟨16777216, 0, zeroZ⟩⟩ (16777216, 2, 1) (16777216, 2, 1) (16777216, 2, 0)
    northWall_gridWide24_v1 northWall_gridWide24_v2 northWall_gridWide24_v3
  rw [cross_gridWide24] at hn
  exact hn

/-- The first triangle of the north wall of the 2 x 2 grid, with offset 1 and
the scale `+inf`. -/
theorem northWall_inf_grid22_mem :
    (⟨⟨0, 0, surfaceZ (F32.fin 1) (F32.inf false) grid22 0⟩,
      ⟨1, 0, surfaceZ (F32.fin 1) (F32.inf false) grid22 1⟩,
      ⟨0, 0, zeroZ⟩⟩ : Facet F32) ∈ Walls (F32.fin 1) (F32.inf false) grid22 := by
  have hW : usub grid22.width 1 = 1 := by decide
  have hone : List.range 1 = [0] := rfl
  have hu1 : uadd 0 1 = 1 := by decide
  have hz : 0 % U32 = 0 := by decide
  have ho : 1 % U32 = 1 := by decide
  unfold Walls
  rw [hW, hone]
  refine List.mem_append_left _ (List.mem_flatMap.mpr ⟨0, List.mem_singleton.mpr rfl,
    List.mem_append_left _ ?_⟩)
  simp only [northWall, hu1, hz, ho]
  exact List.mem_cons_self _ _

/-! ## The run after a failed load -/

/-- When the image cannot be opened, `LoadHeightmapFromPGM` returns 1 and
`PreprocessHeightmap` returns 0, and the run is killed by signal 11 inside
`HeightmapToSTL`: `main` does not return. -/
theorem main_killed_after_failed_load :
    (main worldBadInput).signal = some 11 ∧
    (main worldBadInput).calls =
      [Step.LoadHeightmapFromPGM 1, Step.PreprocessHeightmap 0] ∧
    (main worldBadInput).written = [] := by
  refine ⟨?_, ?_, ?_⟩
  · decide
  · decide
  · rfl

/-! ## Grids above `2^24` columns or rows -/

/-- In `gridTall24` the row `0` is written as Y = `16777216`. -/
theorem gridTall24_row0 : ((usub gridTall24.height 0 : ℕ) : F32) = F32.fin 16777216 := by
  have h : usub gridTall24.height 0 = 16777217 := by decide
  rw [h, F32.natCast_16777217]

/-- In `gridTall24` the row `1` is written as Y = `16777216` too. -/
theorem gridTall24_row1 : ((usub gridTall24.height 1 : ℕ) : F32) = F32.fin 16777216 := by
  have h : usub gridTall24.height 1 = 16777216 := by decide
  rw [h, F32.natCast_16777216]

/-- The column `1` is written as X = 1. -/
theorem F32.natCast_one : ((1 : ℕ) : F32) = F32.fin 1 := by
  rw [F32.natCast_of_le (by norm_num)]; norm_num

/-- With offset 1 and scale 1 every surface Z of `gridTall24` is 1. -/
theorem surfaceZ_gridTall24 (i : Nat) :
    surfaceZ (F32.fin 1) (F32.fin 1) gridTall24 i = F32.fin 1 := by
  have hs : gridTall24.sample i = 0 := by simp [Heightmap.sample, gridTall24]
  have h1 : (1 : ℚ) * 0 = ((0 : ℕ) : ℚ) := by norm_num
  have h2 : (1 : ℚ) + ((0 : ℕ) : ℚ) = ((1 : ℕ) : ℚ) := by norm_num
  rw [surfaceZ_def, hs, F32.natCast_zero, F32.fin_mul_fin, h1,
    F32.round_natCast (by norm_num), F32.fin_add_fin, h2, F32.round_natCast (by norm_num)]
  norm_num

/-- A cell of the only column of cells of `gridTall24` is part of its surface. -/
theorem MeshCell_subset_Mesh_gridTall24 (row : Nat) (hrow : row < 16777216) :
    ∀ f ∈ MeshCell (F32.fin 1) (F32.fin 1) gridTall24 row 0,
      f ∈ Mesh (F32.fin 1) (F32.fin 1) gridTall24 := by
  intro f hf
  have hH : usub gridTall24.height 1 = 16777216 := by decide
  have hW : usub gridTall24.width 1 = 1 := by decide
  unfold Mesh
  rw [hH, hW]
  exact List.mem_flatMap.mpr ⟨row, List.mem_range.mpr hrow,
    List.mem_flatMap.mpr ⟨0, List.mem_range.mpr Nat.one_pos, hf⟩⟩

/-- In a grid of `2^24 + 1` rows, a triangle over the rows 0 and 1 of the columns
0, 0, 1 is written with the same Y for its three vertices, and the Z component
of its normal is 0. -/
theorem normalZ_gridTall24 (z1 z2 z3 : F32) :
    writtenXY gridTall24 ⟨0, 0, z1⟩ = some (0, 16777216) ∧
    writtenXY gridTall24 ⟨0, 1, z2⟩ = some (0, 16777216) ∧
    writtenXY gridTall24 ⟨1, 0, z3⟩ = some (1, 16777216) ∧
    normalZ gridTall24 ⟨⟨0, 0, z1⟩, ⟨0, 1, z2⟩, ⟨1, 0, z3⟩⟩ = some 0 := by
  have h1 := writtenXY_of_fin gridTall24 ⟨0, 0, z1⟩ 0 16777216
    F32.natCast_zero gridTall24_row0
  have h2 := writtenXY_of_fin gridTall24 ⟨0, 1, z2⟩ 0 16777216
    F32.natCast_zero gridTall24_row1
  have h3 := writtenXY_of_fin gridTall24 ⟨1, 0, z3⟩ 1 16777216
    F32.natCast_one gridTall24_row0
  refine ⟨h1, h2, h3, ?_⟩
  rw [normalZ_of_XY gridTall24 ⟨⟨0, 0, z1⟩, ⟨0, 1, z2⟩, ⟨1, 0, z3⟩⟩
    (0, 16777216) (0, 16777216) (1, 16777216) h1 h2 h3]
  exact congrArg some (by norm_num)

/-- The first triangle of the cell at row 0 and column `2^24` of `gridWide24`. -/
theorem MeshCell_gridWide24_mem :
    ∃ z1 z2 z3 : F32,
      (⟨⟨16777216, 0, z1⟩, ⟨16777216, 1, z2⟩, ⟨16777217, 0, z3⟩⟩ : Facet F32) ∈
        MeshCell (F32.fin 1) (F32.fin 1) gridWide24 0 16777216 := by
  have hu : uadd 16777216 1 = 16777217 := by decide
  have hu0 : uadd 0 1 = 1 := by decide
  simp only [MeshCell, hu, hu0]
  exact ⟨_, _, _, List.mem_cons_self _ _⟩

/-- The first triangle of the cell at row 0 and column 0 of `gridTall24`. -/
theorem MeshCell_gridTall24_mem :
    ∃ z1 z2 z3 : F32,
      (⟨⟨0, 0, z1⟩, ⟨0, 1, z2⟩, ⟨1, 0, z3⟩⟩ : Facet F32) ∈
        MeshCell (F32.fin 1) (F32.fin 1) gridTall24 0 0 := by
  have hu0 : uadd 0 1 = 1 := by decide
  simp only [MeshCell, hu0]
  exact ⟨_, _, _, List.mem_cons_self _ _⟩

/-- C18 as stated fails.  In the grid of `2^24 + 2` columns and 2 rows, the
columns `2^24` and `2^24 + 1` are both written as X = `16777216`, so the first
triangle of the cell at row 0 and column `2^24` is written as a degenerate
triangle and the Z component of its normal is 0.  In the grid of 2 columns and
`2^24 + 1` rows, the rows 0 and 1 are both written as Y = `16777216`, and the
first triangle of the cell at row 0 and column 0 has a normal of Z component 0
as well. -/
theorem Mesh_flat_gridWide24 :
    2 ≤ gridWide24.width ∧ 2 ≤ gridWide24.height ∧
    (∃ f ∈ Mesh (F32.fin 1) (F32.fin 1) gridWide24,
      (f.v1.x, f.v1.y) = (16777216, 0) ∧ (f.v2.x, f.v2.y) = (16777216, 1) ∧
      (f.v3.x, f.v3.y) = (16777217, 0) ∧
      writtenXY gridWide24 f.v1 = some (16777216, 2) ∧
      writtenXY gridWide24 f.v2 = some (16777216, 1) ∧
      writtenXY gridWide24 f.v3 = some (16777216, 2) ∧
      normalZ gridWide24 f = some 0) ∧
    2 ≤ gridTall24.width ∧ 2 ≤ gridTall24.height ∧
    (∃ f ∈ Mesh (F32.fin 1) (F32.fin 1) gridTall24,
      (f.v1.x, f.v1.y) = (0, 0) ∧ (f.v2.x, f.v2.y) = (0, 1) ∧
      (f.v3.x, f.v3.y) = (1, 0) ∧
      writtenXY gridTall24 f.v1 = some (0, 16777216) ∧
      writtenXY gridTall24 f.v2 = some (0, 16777216) ∧
      writtenXY gridTall24 f.v3 = some (1, 16777216) ∧
      normalZ gridTall24 f = some 0) := by
  obtain ⟨z1, z2, z3, hf⟩ := MeshCell_gridWide24_mem
  obtain ⟨h1, h2, h3, hn⟩ := normalZ_gridWide24 z1 z2 z3
  obtain ⟨t1, t2, t3, hg⟩ := MeshCell_gridTall24_mem
  obtain ⟨g1, g2, g3, gn⟩ := normalZ_gridTall24 t1 t2 t3
  exact ⟨by decide, by decide,
    ⟨⟨⟨16777216, 0, z1⟩, ⟨16777216, 1, z2⟩, ⟨16777217, 0, z3⟩⟩,
      MeshCell_subset_Mesh_gridWide24 16777216 (by norm_num) _ hf,
      rfl, rfl, rfl, h1, h2, h3, hn⟩,
    by decide, by decide,
    ⟨⟨⟨0, 0, t1⟩, ⟨0, 1, t2⟩, ⟨1, 0, t3⟩⟩,
      MeshCell_subset_Mesh_gridTall24 0 (by norm_num) _ hg,
      rfl, rfl, rfl, g1, g2, g3, gn⟩⟩

/-- The first triangle of the west wall of `gridTall24` at row 0. -/
theorem westWall_gridTall24_mem :
    (⟨⟨0, 0, surfaceZ (F32.fin 1) (F32.fin 1) gridTall24 0⟩,
      ⟨0, 0, zeroZ⟩,
      ⟨0, 1, surfaceZ (F32.fin 1) (F32.fin 1) gridTall24 2⟩⟩ : Facet F32) ∈
        Walls (F32.fin 1) (F32.fin 1) gridTall24 := by
  have hH : usub gridTall24.height 1 = 16777216 := by decide
  have hu0 : uadd 0 1 = 1 := by decide
  have hm0 : umul 0 gridTall24.width = 0 := by decide
  have hm1 : umul 1 gridTall24.width = 2 := by decide
  unfold Walls
  rw [hH]
  refine List.mem_append_right _ (List.mem_flatMap.mpr ⟨0, List.mem_range.mpr (by norm_num),
    List.mem_append_left _ ?_⟩)
  simp only [westWall, hu0, hm0, hm1]
  exact List.mem_cons_self _ _

/-- The normal of that triangle is the zero vector. -/
theorem westWall_gridTall24_normal :
    normal gridTall24
      ⟨⟨0, 0, surfaceZ (F32.fin 1) (F32.fin 1) gridTall24 0⟩,
        ⟨0, 0, zeroZ⟩,
        ⟨0, 1, surfaceZ (F32.fin 1) (F32.fin 1) gridTall24 2⟩⟩ = some (0, 0, 0) := by
  have p1 := writtenPoint_of_fin gridTall24
    ⟨0, 0, surfaceZ (F32.fin 1) (F32.fin 1) gridTall24 0⟩ 0 16777216 1
    F32.natCast_zero gridTall24_row0 (surfaceZ_gridTall24 _)
  have p2 := writtenPoint_of_fin gridTall24 ⟨0, 0, zeroZ⟩ 0 16777216 0
    F32.natCast_zero gridTall24_row0 zeroZ_F32
  have p3 := writtenPoint_of_fin gridTall24
    ⟨0, 1, surfaceZ (F32.fin 1) (F32.fin 1) gridTall24 2⟩ 0 16777216 1
    F32.natCast_zero gridTall24_row1 (surfaceZ_gridTall24 _)
  have hn := normal_of_points gridTall24
    ⟨⟨0, 0, surfaceZ (F32.fin 1) (F32.fin 1) gridTall24 0⟩,
      ⟨0, 0, zeroZ⟩,
      ⟨0, 1, surfaceZ (F32.fin 1) (F32.fin 1) gridTall24 2⟩⟩
    (0, 16777216, 1) (0, 16777216, 0) (0, 16777216, 1) p1 p2 p3
  have hzero : cross (vsub ((0 : ℚ), (16777216 : ℚ), (0 : ℚ)) (0, 16777216, 1))
      (vsub ((0 : ℚ), (16777216 : ℚ), (1 : ℚ)) (0, 16777216, 1)) = (0, 0, 0) := by
    simp only [cross, vsub]
    refine Prod.ext ?_ (Prod.ext ?_ ?_) <;> norm_num
  rw [hzero] at hn
  exact hn

/-- C4 as stated fails.  In the grid of `2^24 + 2` columns and 2 rows, with
scale 1 and offset 1, the columns `2^24` and `2^24 + 1` are both written as X =
`16777216`, so the first triangle of the north wall at column `2^24` is written
with `v1 = v2` and its normal is the zero vector.  In the grid of 2 columns and
`2^24 + 1` rows the rows 0 and 1 are both written as Y = `16777216`, and the
normal of the first triangle of the west wall at row 0 is the zero vector.  And
with the scale `+inf` (which is above 0) the first Z of the first triangle of
the north wall of the 2 x 2 grid is a NaN, so the triangle written has no
normal. -/
theorem Walls_flat_gridWide24 :
    2 ≤ gridWide24.width ∧ 2 ≤ gridWide24.height ∧
    F32.lt (F32.fin 0) (F32.fin 1) = true ∧ F32.le (F32.fin 1) (F32.fin 1) = true ∧
    (∃ f ∈ Walls (F32.fin 1) (F32.fin 1) gridWide24,
      onRow 0 f ∧ (f.v1.x, f.v2.x, f.v3.x) = (16777216, 16777217, 16777216) ∧
      writtenPoint gridWide24 f.v1 = some (16777216, 2, 1) ∧
      writtenPoint gridWide24 f.v2 = some (16777216, 2, 1) ∧
      writtenPoint gridWide24 f.v3 = some (16777216, 2, 0) ∧
      normal gridWide24 f = some (0, 0, 0)) ∧
    2 ≤ gridTall24.width ∧ 2 ≤ gridTall24.height ∧
    (∃ f ∈ Walls (F32.fin 1) (F32.fin 1) gridTall24,
      onCol 0 f ∧ (f.v1.y, f.v2.y, f.v3.y) = (0, 0, 1) ∧
      normal gridTall24 f = some (0, 0, 0)) ∧
    F32.lt (F32.fin 0) (F32.inf false) = true ∧
    (∃ f ∈ Walls (F32.fin 1) (F32.inf false) grid22,
      onRow 0 f ∧ f.v1.z = F32.nan ∧ normal grid22 f = none) :=
  ⟨by decide, by decide, by simp [F32.lt], by simp [F32.le],
    ⟨_, northWall_subset_Walls_gridWide24 16777216 (by norm_num) _ northWall_gridWide24_mem,
      ⟨rfl, rfl, rfl⟩, rfl, northWall_gridWide24_v1, northWall_gridWide24_v2,
      northWall_gridWide24_v3, northWall_gridWide24_normal⟩,
    by decide, by decide,
    ⟨_, westWall_gridTall24_mem, ⟨rfl, rfl, rfl⟩, rfl, westWall_gridTall24_normal⟩,
    rfl,
    ⟨_, northWall_inf_grid22_mem, ⟨rfl, rfl, rfl⟩, surfaceZ_inf_grid22,
      normal_of_none grid22 _ (writtenPoint_of_nan grid22 _ surfaceZ_inf_grid22)⟩⟩

end Hmstl
